import Mathlib

/-!
Shallow embedding of the flowcopy core (src/app/page.tsx): the ordering engine
(`computeFlowOrdering`), the grouping engine (`computeParallelGroups`), the
identity hasher (`hashToBase36`, `computeProjectSequenceId`), the CSV codec
(`escapeCsvCell`, `buildCsvFromRows`, `parseCsvText`) and the import
reconciler, together with proofs of the behavioural properties stated about
them.

Modelling conventions:
- JavaScript strings are Lean `String`s; `charCodeAt` is `Char.toNat`
  (identical on the Basic Multilingual Plane, which covers every string the
  program manipulates here).  `localeCompare` and the default array sort on
  strings are modelled by code-unit lexicographic order (`charListLt`),
  computed directly on the character lists so that every comparison reduces
  in the kernel.
- Numeric node positions are modelled as `Int`; the ordering core only
  compares and subtracts them.
- A `Map<string, V>` is a function `String → V` returning the map's default
  outside its keys; a `Set<string>` is a `List String` in insertion order
  whose `add` is guarded by membership, exactly as JavaScript sets dedupe.
- JavaScript's `Array.prototype.sort(cmp)` is stable; a stable sort's output
  is uniquely determined by the comparator and the input order, so it is
  modelled by `List.insertionSort` with the relation `cmp(a, b) ≤ 0`.
- The `while` loops are expressed with an explicit fuel that is at least
  the loop's termination measure at entry, so each definition is structural
  (hence evaluable by the kernel); lemmas below show the fuel never runs
  out, which makes the fuelled loop extensionally the source's loop.
- 32-bit arithmetic (`^`, `<<`, `>>> 0`) is `Nat` arithmetic reduced
  `% 4294967296`; the intermediate double-precision sums in `hashToBase36`
  are exact below `2^53`, so only the final 32-bit wraparound matters.
-/

namespace Flowcopy

/-! ### Strings: code-unit order and small JS string helpers -/

/-- Code-unit lexicographic strict order on character lists. -/
def charListLt : List Char → List Char → Bool
  | [], [] => false
  | [], _ :: _ => true
  | _ :: _, [] => false
  | a :: as, b :: bs =>
    if a.toNat < b.toNat then true
    else if b.toNat < a.toNat then false
    else charListLt as bs

lemma charListLt_irrefl : ∀ l : List Char, charListLt l l = false := by
  intro l
  induction l with
  | nil => rfl
  | cons a as ih => simp [charListLt, ih]

lemma charListLt_trans : ∀ {a b c : List Char},
    charListLt a b = true → charListLt b c = true → charListLt a c = true := by
  intro a
  induction a with
  | nil =>
    intro b c hab hbc
    cases b with
    | nil => cases hab
    | cons x xs =>
      cases c with
      | nil => cases hbc
      | cons y ys => rfl
  | cons x xs ih =>
    intro b c hab hbc
    cases b with
    | nil => cases hab
    | cons y ys =>
      cases c with
      | nil => cases hbc
      | cons z zs =>
        simp only [charListLt] at hab hbc ⊢
        split_ifs at hab hbc ⊢ with h1 h2 h3 h4 h5 h6 <;>
          first
            | rfl
            | omega
            | (exact ih hab hbc)
            | (cases hab)
            | (cases hbc)

lemma char_toNat_inj {a b : Char} (h : a.toNat = b.toNat) : a = b := by
  cases a with
  | mk va ha =>
    cases b with
    | mk vb hb =>
      congr 1
      exact UInt32.ext h

lemma charListLt_connex : ∀ {a b : List Char},
    charListLt a b = false → charListLt b a = false → a = b := by
  intro a
  induction a with
  | nil =>
    intro b hab _
    cases b with
    | nil => rfl
    | cons y ys => cases hab
  | cons x xs ih =>
    intro b hab hba
    cases b with
    | nil => cases hba
    | cons y ys =>
      simp only [charListLt] at hab hba
      by_cases h1 : x.toNat < y.toNat
      · rw [if_pos h1] at hab; cases hab
      · by_cases h2 : y.toNat < x.toNat
        · rw [if_pos h2] at hba; cases hba
        · rw [if_neg h1, if_neg h2] at hab
          rw [if_neg h2, if_neg h1] at hba
          have hxy : x = y := char_toNat_inj (by omega)
          rw [hxy, ih hab hba]

lemma charListLt_asymm {a b : List Char} (h : charListLt a b = true) :
    charListLt b a = false := by
  by_contra hba
  rw [Bool.not_eq_false] at hba
  have := charListLt_trans h hba
  rw [charListLt_irrefl] at this
  cases this

/-- Model of `a.localeCompare(b) < 0` (code-unit order, see the header). -/
def strLt (a b : String) : Bool :=
  charListLt a.data b.data

/-- The sort relation induced by the string comparator
(`a.localeCompare(b) ≤ 0`). -/
def StrLE (a b : String) : Prop :=
  strLt b a = false

instance : DecidableRel StrLE := fun a b =>
  inferInstanceAs (Decidable (strLt b a = false))

lemma string_data_inj : ∀ {a b : String}, a.data = b.data → a = b := by
  intro a b h
  cases a
  cases b
  exact congrArg String.mk h

instance : IsTotal String StrLE :=
  ⟨by
    intro a b
    by_cases h : strLt a b = true
    · exact Or.inl (charListLt_asymm h)
    · exact Or.inr (by rwa [Bool.not_eq_true] at h)⟩

instance : IsTrans String StrLE :=
  ⟨by
    intro a b c hab hbc
    unfold StrLE strLt at *
    by_contra hca
    rw [Bool.not_eq_false] at hca
    by_cases hbc' : charListLt b.data c.data = true
    · have := charListLt_trans hbc' hca
      rw [this] at hab
      cases hab
    · rw [Bool.not_eq_true] at hbc'
      have : b = c := string_data_inj (charListLt_connex hbc' hbc)
      subst this
      rw [hca] at hab
      cases hab⟩

instance : IsAntisymm String StrLE :=
  ⟨by
    intro a b hab hba
    exact string_data_inj (charListLt_connex hba hab)⟩

lemma StrLE_total_or (a b : String) : StrLE a b ∨ StrLE b a :=
  IsTotal.total a b

/-- Sign-valued model of `String.prototype.localeCompare`: negative, zero or
positive according to the code-unit order. -/
def localeCompareInt (a b : String) : Int :=
  if strLt a b then -1 else if a = b then 0 else 1

lemma localeCompareInt_nonpos_iff {a b : String} :
    localeCompareInt a b ≤ 0 ↔ StrLE a b := by
  unfold localeCompareInt StrLE
  by_cases hlt : strLt a b = true
  · rw [if_pos hlt]
    constructor
    · intro _
      exact charListLt_asymm hlt
    · intro _
      omega
  · rw [Bool.not_eq_true] at hlt
    rw [if_neg (by rw [hlt]; exact Bool.false_ne_true)]
    by_cases heq : a = b
    · subst heq
      rw [if_pos rfl]
      constructor
      · intro _
        exact charListLt_irrefl _
      · intro _
        omega
    · rw [if_neg heq]
      constructor
      · intro h
        omega
      · intro h
        exact absurd (string_data_inj (charListLt_connex hlt h)) heq

/-- JavaScript-relevant whitespace for `String.prototype.trim` (the forms
that occur in this program's data: ASCII whitespace, NBSP and BOM). -/
def isJsWhitespace (c : Char) : Bool :=
  c = ' ' || c = '\t' || c = '\n' || c = '\r' ||
    c = '\x0b' || c = '\x0c' || c = ' ' || c = '﻿'

/-- `String.prototype.trim`. -/
def jsTrim (s : String) : String :=
  String.mk ((((s.data.dropWhile isJsWhitespace).reverse).dropWhile
    isJsWhitespace).reverse)

/-- `Array.prototype.join(sep)`. -/
def joinWith (sep : String) : List String → String
  | [] => ""
  | [s] => s
  | s :: rest => s ++ sep ++ joinWith sep rest

/-! ### Nodes, edges and edge kinds -/

/-- A flow node as consumed by the ordering core: its id and 2D position.
(The content fields of the source's `FlowNode` are never read by the
ordering, grouping or identity code.) -/
structure FlowNode where
  id : String
  x : Int
  y : Int
  deriving DecidableEq, Repr

/-- `EdgeKind`: `"sequential" | "parallel"`. -/
inductive EdgeKind where
  | sequential
  | parallel
  deriving DecidableEq, Repr

/-- The `data` payload of an edge: `edge_kind` (absent or invalid strings
are `none`) and the visual-only `is_reversed` flag. -/
structure FlowEdgeData where
  edge_kind : Option EdgeKind
  is_reversed : Option Bool
  deriving DecidableEq, Repr

/-- A flow edge: id, endpoints, optional handle ids, optional data. -/
structure FlowEdge where
  id : String
  source : String
  target : String
  sourceHandle : Option String
  targetHandle : Option String
  data : Option FlowEdgeData
  deriving DecidableEq, Repr

/-- `inferEdgeKindFromHandles`: a handle starting with `"p-"` marks a
parallel edge, otherwise sequential. -/
def inferEdgeKindFromHandles (sourceHandle targetHandle : Option String) : EdgeKind :=
  if (match sourceHandle with
      | some h => h.startsWith "p-"
      | none => false)
     ||
     (match targetHandle with
      | some h => h.startsWith "p-"
      | none => false) then
    EdgeKind.parallel
  else
    EdgeKind.sequential

/-- `getEdgeKind`: `edge.data?.edge_kind` when it is a valid kind, else the
kind inferred from the handles. -/
def getEdgeKind (edge : FlowEdge) : EdgeKind :=
  match edge.data.bind FlowEdgeData.edge_kind with
  | some kind => kind
  | none => inferEdgeKindFromHandles edge.sourceHandle edge.targetHandle

/-- `isSequentialEdge`. -/
def isSequentialEdge (edge : FlowEdge) : Bool :=
  getEdgeKind edge == EdgeKind.sequential

/-- `isParallelEdge`. -/
def isParallelEdge (edge : FlowEdge) : Bool :=
  getEdgeKind edge == EdgeKind.parallel

/-- `compareNodeOrder`, the tie-break comparator: ascending `x`, then
ascending `y`, then id order. -/
def compareNodeOrder (a b : FlowNode) : Int :=
  if a.x ≠ b.x then a.x - b.x
  else if a.y ≠ b.y then a.y - b.y
  else localeCompareInt a.id b.id

/-- The sort relation induced by `compareNodeOrder` (`cmp(a, b) ≤ 0`). -/
def NodeLE (a b : FlowNode) : Prop :=
  compareNodeOrder a b ≤ 0

instance : DecidableRel NodeLE := fun a b =>
  inferInstanceAs (Decidable (compareNodeOrder a b ≤ 0))

lemma nodeLE_iff {a b : FlowNode} :
    NodeLE a b ↔
      a.x < b.x ∨ (a.x = b.x ∧ (a.y < b.y ∨ (a.y = b.y ∧ StrLE a.id b.id))) := by
  unfold NodeLE compareNodeOrder
  by_cases hx : a.x = b.x
  · by_cases hy : a.y = b.y
    · rw [if_neg (by omega), if_neg (by omega), localeCompareInt_nonpos_iff]
      constructor
      · intro h
        exact Or.inr ⟨hx, Or.inr ⟨hy, h⟩⟩
      · rintro (h | ⟨_, h | ⟨_, h⟩⟩)
        · exact absurd h (by omega)
        · exact absurd h (by omega)
        · exact h
    · rw [if_neg (by omega), if_pos (by omega)]
      constructor
      · intro h
        exact Or.inr ⟨hx, Or.inl (by omega)⟩
      · rintro (h | ⟨_, h | ⟨h, _⟩⟩) <;> omega
  · rw [if_pos (by omega)]
    constructor
    · intro h
      exact Or.inl (by omega)
    · rintro (h | ⟨h, _⟩) <;> omega

instance : IsTotal FlowNode NodeLE :=
  ⟨by
    intro a b
    rw [nodeLE_iff, nodeLE_iff]
    rcases StrLE_total_or a.id b.id with h | h
    · rcases lt_trichotomy a.x b.x with hx | hx | hx
      · exact Or.inl (Or.inl hx)
      · rcases lt_trichotomy a.y b.y with hy | hy | hy
        · exact Or.inl (Or.inr ⟨hx, Or.inl hy⟩)
        · exact Or.inl (Or.inr ⟨hx, Or.inr ⟨hy, h⟩⟩)
        · exact Or.inr (Or.inr ⟨hx.symm, Or.inl hy⟩)
      · exact Or.inr (Or.inl hx)
    · rcases lt_trichotomy a.x b.x with hx | hx | hx
      · exact Or.inl (Or.inl hx)
      · rcases lt_trichotomy a.y b.y with hy | hy | hy
        · exact Or.inl (Or.inr ⟨hx, Or.inl hy⟩)
        · exact Or.inr (Or.inr ⟨hx.symm, Or.inr ⟨hy.symm, h⟩⟩)
        · exact Or.inr (Or.inr ⟨hx.symm, Or.inl hy⟩)
      · exact Or.inr (Or.inl hx)⟩

instance : IsTrans FlowNode NodeLE :=
  ⟨by
    intro a b c hab hbc
    rw [nodeLE_iff] at hab hbc ⊢
    rcases hab with h1 | ⟨hx1, h1⟩
    · rcases hbc with h2 | ⟨hx2, _⟩
      · exact Or.inl (by omega)
      · exact Or.inl (by omega)
    · rcases hbc with h2 | ⟨hx2, h2⟩
      · exact Or.inl (by omega)
      · refine Or.inr ⟨by omega, ?_⟩
        rcases h1 with h1 | ⟨hy1, h1⟩
        · rcases h2 with h2 | ⟨hy2, _⟩
          · exact Or.inl (by omega)
          · exact Or.inl (by omega)
        · rcases h2 with h2 | ⟨hy2, h2⟩
          · exact Or.inl (by omega)
          · exact Or.inr ⟨by omega, Trans.trans h1 h2⟩⟩

instance : IsAntisymm FlowNode NodeLE :=
  ⟨by
    intro a b hab hba
    rw [nodeLE_iff] at hab hba
    have hx : a.x = b.x := by
      rcases hab with h | ⟨h, _⟩ <;> rcases hba with h' | ⟨h', _⟩ <;> omega
    have hy : a.y = b.y := by
      rcases hab with h | ⟨_, h | ⟨h, _⟩⟩ <;> rcases hba with h' | ⟨_, h' | ⟨h', _⟩⟩ <;>
        omega
    have hid : a.id = b.id := by
      rcases hab with h | ⟨_, h | ⟨_, h⟩⟩
      · omega
      · omega
      · rcases hba with h' | ⟨_, h' | ⟨_, h'⟩⟩
        · omega
        · omega
        · exact antisymm h h'
    cases a
    cases b
    simp_all⟩

/-- `new Map(nodes.map(n => [n.id, n]))` followed by `.get`: the last node
with a given id wins. -/
def nodeById (nodes : List FlowNode) (s : String) : Option FlowNode :=
  nodes.foldl (fun acc n => if n.id = s then some n else acc) none

/-- `nodeById.has`. -/
def hasNode (nodes : List FlowNode) (s : String) : Bool :=
  (nodeById nodes s).isSome

/-- The ids of a node list. -/
def nodeIds (nodes : List FlowNode) : List String :=
  nodes.map FlowNode.id

lemma nodeById_eq_some {nodes : List FlowNode} {s : String} {n : FlowNode} :
    nodeById nodes s = some n → n ∈ nodes ∧ n.id = s := by
  have key : ∀ (l : List FlowNode) (acc : Option FlowNode),
      l.foldl (fun acc n => if n.id = s then some n else acc) acc = some n →
      (n ∈ l ∧ n.id = s) ∨ acc = some n := by
    intro l
    induction l with
    | nil => intro acc h; exact Or.inr h
    | cons a l ih =>
      intro acc h
      simp only [List.foldl_cons] at h
      rcases ih _ h with ⟨hm, hid⟩ | hacc
      · exact Or.inl ⟨List.mem_cons_of_mem _ hm, hid⟩
      · by_cases ha : a.id = s
        · rw [if_pos ha] at hacc
          cases hacc
          exact Or.inl ⟨List.mem_cons_self _ _, ha⟩
        · rw [if_neg ha] at hacc
          exact Or.inr hacc
  intro h
  rcases key nodes none h with hh | hh
  · exact hh
  · cases hh

lemma hasNode_iff {nodes : List FlowNode} {s : String} :
    hasNode nodes s = true ↔ s ∈ nodeIds nodes := by
  constructor
  · intro h
    rw [hasNode, Option.isSome_iff_exists] at h
    obtain ⟨n, hn⟩ := h
    obtain ⟨hm, hid⟩ := nodeById_eq_some hn
    exact hid ▸ List.mem_map_of_mem _ hm
  · intro h
    obtain ⟨n, hn, hid⟩ := List.mem_map.mp h
    rw [hasNode, Option.isSome_iff_exists]
    have key : ∀ (l : List FlowNode) (acc : Option FlowNode),
        (n ∈ l ∧ n.id = s) ∨ (∃ m, acc = some m) →
        ∃ m, l.foldl (fun acc n => if n.id = s then some n else acc) acc = some m := by
      intro l
      induction l with
      | nil =>
        intro acc h
        rcases h with ⟨hm, _⟩ | h
        · cases hm
        · simpa using h
      | cons b l ih =>
        intro acc h
        simp only [List.foldl_cons]
        rcases h with ⟨hm, hid'⟩ | ⟨m, hm⟩
        · rcases List.mem_cons.mp hm with heq | hm'
          · refine ih _ (Or.inr ⟨b, ?_⟩)
            rw [if_pos (by rw [← heq]; exact hid')]
          · exact ih _ (Or.inl ⟨hm', hid'⟩)
        · subst hm
          by_cases hb : b.id = s
          · exact ih _ (Or.inr ⟨b, by rw [if_pos hb]⟩)
          · exact ih _ (Or.inr ⟨m, by rw [if_neg hb]⟩)
    exact key nodes none (Or.inl ⟨hn, hid⟩)

/-! ### Sequential adjacency and in-degrees

`computeFlowOrdering` builds `adjacency : Map<string, Set<string>>` and
`indegree : Map<string, number>` from the sequential edges, skipping edges
with unknown endpoints and duplicate ordered pairs.  A neighbor set is kept
as its insertion-order list (JavaScript set iteration order); `add` on an
already-present member is a no-op. -/

/-- One `sequentialEdges.forEach` step of `computeFlowOrdering`. -/
def seqGraphStep (nodes : List FlowNode)
    (st : (String → List String) × (String → Int)) (edge : FlowEdge) :
    (String → List String) × (String → Int) :=
  if hasNode nodes edge.source && hasNode nodes edge.target then
    let neighbors := st.1 edge.source
    if edge.target ∈ neighbors then st
    else
      (Function.update st.1 edge.source (neighbors ++ [edge.target]),
       Function.update st.2 edge.target (st.2 edge.target + 1))
  else st

/-- The sequential adjacency sets and in-degree table of
`computeFlowOrdering` (empty / zero outside the touched ids, exactly as the
`Map` initialisation produces for node ids). -/
def seqGraph (nodes : List FlowNode) (edges : List FlowEdge) :
    (String → List String) × (String → Int) :=
  (edges.filter isSequentialEdge).foldl (seqGraphStep nodes) (fun _ => [], fun _ => 0)

/-! ### The Kahn loop -/

/-- Termination measure component: total positive in-degree over a list of
ids. -/
def phiIndeg (L : List String) (indeg : String → Int) : Nat :=
  (L.map (fun s => (indeg s).toNat)).sum

lemma phiIndeg_update {L : List String} (hL : L.Nodup) {t : String} (ht : t ∈ L)
    (indeg : String → Int) (v : Int) :
    phiIndeg L (Function.update indeg t v) + (indeg t).toNat =
      phiIndeg L indeg + v.toNat := by
  induction L with
  | nil => cases ht
  | cons a L ih =>
    rcases List.nodup_cons.mp hL with ⟨ha, hnd⟩
    simp only [phiIndeg, List.map_cons, List.sum_cons]
    by_cases hat : a = t
    · have hrest : L.map (fun s => ((Function.update indeg t v) s).toNat) =
          L.map (fun s => (indeg s).toNat) := by
        apply List.map_congr_left
        intro s hs
        rw [Function.update_noteq (fun h : s = t => ha ((h.trans hat.symm) ▸ hs))]
      rw [hrest, hat, Function.update_same]
      omega
    · have ht' : t ∈ L := by
        rcases List.mem_cons.mp ht with h | h
        · exact absurd h.symm hat
        · exact h
      rw [Function.update_noteq hat]
      have := ih hnd ht'
      simp only [phiIndeg] at this
      omega

/-- One step of the `sortedNeighbors.forEach` body inside the Kahn loop:
decrement the neighbor's in-degree, and when it reaches zero push the
neighbor into the available list and re-sort. -/
def kahnNeighborStep (st : (String → Int) × List FlowNode) (neighbor : FlowNode) :
    (String → Int) × List FlowNode :=
  let nextIndegree := st.1 neighbor.id - 1
  (Function.update st.1 neighbor.id nextIndegree,
   if nextIndegree = 0 then List.insertionSort NodeLE (st.2 ++ [neighbor]) else st.2)

lemma kahnNeighborStep_mk (indeg : String → Int) (avail : List FlowNode)
    (nb : FlowNode) :
    kahnNeighborStep (indeg, avail) nb =
      (Function.update indeg nb.id (indeg nb.id - 1),
       if indeg nb.id - 1 = 0 then List.insertionSort NodeLE (avail ++ [nb])
       else avail) := rfl

lemma kahnNeighborFold_measure {L : List String} (hL : L.Nodup) :
    ∀ (nbs : List FlowNode) (indeg : String → Int) (avail : List FlowNode),
      (∀ nb ∈ nbs, nb.id ∈ L) →
      (nbs.foldl kahnNeighborStep (indeg, avail)).2.length +
          phiIndeg L (nbs.foldl kahnNeighborStep (indeg, avail)).1 ≤
        avail.length + phiIndeg L indeg := by
  intro nbs
  induction nbs with
  | nil => intro indeg avail _; exact le_rfl
  | cons nb nbs ih =>
    intro indeg avail hmem
    simp only [List.foldl_cons, kahnNeighborStep_mk]
    have hup := phiIndeg_update hL (hmem nb (List.mem_cons_self _ _)) indeg (indeg nb.id - 1)
    by_cases hz : indeg nb.id - 1 = 0
    · rw [if_pos hz]
      refine le_trans (ih _ _ (fun x hx => hmem x (List.mem_cons_of_mem _ hx))) ?_
      have hlen : (List.insertionSort NodeLE (avail ++ [nb])).length = avail.length + 1 := by
        rw [(List.perm_insertionSort NodeLE (avail ++ [nb])).length_eq]
        simp
      rw [hlen]
      omega
    · rw [if_neg hz]
      refine le_trans (ih _ _ (fun x hx => hmem x (List.mem_cons_of_mem _ hx))) ?_
      have : (indeg nb.id - 1).toNat ≤ (indeg nb.id).toNat := by omega
      omega

/-- The Kahn while-loop of `computeFlowOrdering`: pop the first available
node, emit its id, decrement its successors (visited in tie-break order),
pushing and re-sorting any successor whose in-degree reaches zero.  `fuel`
bounds the number of iterations; `kahnOrder` supplies fuel exceeding the
loop measure, so the loop always ends by draining `avail` (see
`kahnLoopFuel_congr`). -/
def kahnLoopFuel (nodes : List FlowNode) (adj : String → List String) :
    Nat → List FlowNode → (String → Int) → List String → List String
  | 0, _, _, ordered => ordered
  | fuel + 1, avail, indeg, ordered =>
    match avail with
    | [] => ordered
    | current :: rest =>
      let sortedNeighbors :=
        List.insertionSort NodeLE ((adj current.id).filterMap (nodeById nodes))
      let st := sortedNeighbors.foldl kahnNeighborStep (indeg, rest)
      kahnLoopFuel nodes adj fuel st.2 st.1 (ordered ++ [current.id])

lemma mem_of_mem_insertionSort {α : Type} {r : α → α → Prop} [DecidableRel r]
    {l : List α} {a : α} (h : a ∈ List.insertionSort r l) : a ∈ l :=
  (List.perm_insertionSort r l).mem_iff.mp h

lemma kahn_neighbors_mem (nodes : List FlowNode) (adj : String → List String)
    (current : String) :
    ∀ nb ∈ List.insertionSort NodeLE ((adj current).filterMap (nodeById nodes)),
      nb.id ∈ (nodeIds nodes).dedup := by
  intro nb hnb
  obtain ⟨s, _, hs⟩ := List.mem_filterMap.mp (mem_of_mem_insertionSort hnb)
  obtain ⟨hm, _⟩ := nodeById_eq_some hs
  exact List.mem_dedup.mpr (List.mem_map_of_mem _ hm)

/-- Any two fuels that exceed the loop measure produce the same result:
the fuelled loop is extensionally the source's unbounded while-loop. -/
lemma kahnLoopFuel_congr (nodes : List FlowNode) (adj : String → List String) :
    ∀ (fuel₁ fuel₂ : Nat) (avail : List FlowNode) (indeg : String → Int)
      (ordered : List String),
      avail.length + phiIndeg (nodeIds nodes).dedup indeg < fuel₁ →
      avail.length + phiIndeg (nodeIds nodes).dedup indeg < fuel₂ →
      kahnLoopFuel nodes adj fuel₁ avail indeg ordered =
        kahnLoopFuel nodes adj fuel₂ avail indeg ordered := by
  intro fuel₁
  induction fuel₁ with
  | zero => intro fuel₂ avail indeg ordered h₁ _; omega
  | succ fuel₁ ih =>
    intro fuel₂ avail indeg ordered h₁ h₂
    match fuel₂ with
    | 0 => omega
    | fuel₂ + 1 =>
      match avail with
      | [] => rfl
      | current :: rest =>
        simp only [kahnLoopFuel]
        have hfold := kahnNeighborFold_measure (List.nodup_dedup _)
          (List.insertionSort NodeLE ((adj current.id).filterMap (nodeById nodes)))
          indeg rest (kahn_neighbors_mem nodes adj current.id)
        simp only [List.length_cons] at h₁ h₂
        exact ih _ _ _ _ (by omega) (by omega)

/-! ### Parallel grouping (`computeParallelGroups`) -/

/-- One `edges.forEach` step of `computeParallelGroups`: for a parallel edge
with known endpoints, record the undirected adjacency in both directions
(set `add` semantics: append unless present). -/
def parAdjStep (nodes : List FlowNode) (adjacency : String → List String)
    (edge : FlowEdge) : String → List String :=
  if isParallelEdge edge && hasNode nodes edge.source && hasNode nodes edge.target then
    let adj1 :=
      if edge.target ∈ adjacency edge.source then adjacency
      else Function.update adjacency edge.source (adjacency edge.source ++ [edge.target])
    if edge.source ∈ adj1 edge.target then adj1
    else Function.update adj1 edge.target (adj1 edge.target ++ [edge.source])
  else adjacency

/-- The undirected parallel adjacency sets of `computeParallelGroups`. -/
def parAdj (nodes : List FlowNode) (edges : List FlowEdge) : String → List String :=
  edges.foldl (parAdjStep nodes) (fun _ => [])

/-- One neighbor inspection of the depth-first traversal: skip already
visited ids, otherwise mark visited and push on the stack.  (State:
visited set, then stack; the stack's head is its top, so pushing prepends,
which matches JavaScript's push-to-end/pop-from-end.) -/
def dfsNeighborStep (st : List String × List String) (neighborNodeId : String) :
    List String × List String :=
  if neighborNodeId ∈ st.1 then st
  else (neighborNodeId :: st.1, neighborNodeId :: st.2)

/-- The stack-based depth-first traversal of `computeParallelGroups`: pop an
id — a falsy (empty) id is skipped without being collected or expanded
(the source's `if (!currentNodeId) continue;`) — append it to the
component, and push its not-yet-visited neighbors in id order (marking
them visited as they are pushed).  Returns the component and the visited
set.  `fuel` bounds the iteration count; `computeParallelGroups` supplies
fuel exceeding the loop measure. -/
def dfsLoopFuel (adj : String → List String) :
    Nat → List String → List String → List String → List String × List String
  | 0, _, visited, component => (component, visited)
  | fuel + 1, stack, visited, component =>
    match stack with
    | [] => (component, visited)
    | currentNodeId :: rest =>
      if currentNodeId = "" then dfsLoopFuel adj fuel rest visited component
      else
        let currentNeighbors := List.insertionSort StrLE (adj currentNodeId)
        let st := currentNeighbors.foldl dfsNeighborStep (visited, rest)
        dfsLoopFuel adj fuel st.2 st.1 (component ++ [currentNodeId])

/-- `buildParallelGroupId`: `"PG-"` followed by the sorted member ids joined
with `"|"`. -/
def buildParallelGroupId (componentNodeIds : List String) : String :=
  "PG-" ++ joinWith "|" (List.insertionSort StrLE componentNodeIds)

/-- The result of `computeParallelGroups`. -/
structure ParallelGroupInfo where
  parallelGroupByNodeId : String → Option String
  componentNodeIds : List (List String)

/-- One `sortedNodes.forEach` step of `computeParallelGroups`: skip visited
nodes; mark the node visited; when it has parallel neighbors, collect its
component depth-first, sort it, and record the group id for each member.
State: visited set, component list, group map. -/
def parallelOuterStep (nodes : List FlowNode) (edges : List FlowEdge)
    (st : List String × List (List String) × (String → Option String))
    (node : FlowNode) :
    List String × List (List String) × (String → Option String) :=
  if node.id ∈ st.1 then st
  else
    let visited := node.id :: st.1
    let neighbors := parAdj nodes edges node.id
    if neighbors.isEmpty then (visited, st.2.1, st.2.2)
    else
      let result := dfsLoopFuel (parAdj nodes edges) (2 * nodes.length + 2)
        [node.id] visited []
      let normalizedComponent := List.insertionSort StrLE result.1
      let groupId := buildParallelGroupId normalizedComponent
      (result.2,
       st.2.1 ++ [normalizedComponent],
       normalizedComponent.foldl
         (fun m nodeId => Function.update m nodeId (some groupId)) st.2.2)

/-- The relation sorting components by their lexicographically smallest
(first) member. -/
def HeadStrLE (a b : List String) : Prop :=
  StrLE (a.headD "") (b.headD "")

instance : DecidableRel HeadStrLE := fun a b =>
  inferInstanceAs (Decidable (StrLE _ _))

/-- `computeParallelGroups`: undirected connected components over the
parallel edges, visited in tie-break order, with the component list finally
sorted by smallest member. -/
def computeParallelGroups (nodes : List FlowNode) (edges : List FlowEdge) :
    ParallelGroupInfo :=
  let sortedNodes := List.insertionSort NodeLE nodes
  let st := sortedNodes.foldl (parallelOuterStep nodes edges) ([], [], fun _ => none)
  { parallelGroupByNodeId := st.2.2,
    componentNodeIds := List.insertionSort HeadStrLE st.2.1 }

/-! ### Identity hashing -/

/-- One character step of `hashToBase36`.  In the source the running value
is xor-ed (a 32-bit operation) with the char code and then summed with five
left-shifts of itself; the double-precision sums are exact below `2^53`,
and the next 32-bit operation (or the final `>>> 0`) truncates the value
`mod 2^32`, so reducing once at the end of the step is faithful. -/
def hashStep (hash c : Nat) : Nat :=
  let x := hash ^^^ c
  (x + (x <<< 1) + (x <<< 4) + (x <<< 7) + (x <<< 8) + (x <<< 24)) % 4294967296

/-- The upper-case base-36 digit alphabet (`Number.prototype.toString(36)`
followed by `toUpperCase`). -/
def base36Digit (n : Nat) : Char :=
  "0123456789ABCDEFGHIJKLMNOPQRSTUVWXYZ".data.getD n '0'

/-- Base-36 digit list, most significant first (`n` itself bounds the
recursion depth, so `n + 1` fuel always suffices). -/
def toBase36Fuel : Nat → Nat → List Char
  | 0, _ => []
  | fuel + 1, n =>
    if n < 36 then [base36Digit n]
    else toBase36Fuel fuel (n / 36) ++ [base36Digit (n % 36)]

/-- Base-36 rendering of a natural number. -/
def toBase36 (n : Nat) : List Char :=
  toBase36Fuel (n + 1) n

/-- `String.prototype.padStart`. -/
def padStart (s : String) (width : Nat) (c : Char) : String :=
  String.mk (List.replicate (width - s.length) c ++ s.data)

/-- `hashToBase36`: the 32-bit rolling hash rendered upper-case base-36,
left-padded with `'0'` to width 7. -/
def hashToBase36 (value : String) : String :=
  let hash := value.data.foldl (fun hash c => hashStep hash c.toNat) 2166136261
  padStart (String.mk (toBase36 hash)) 7 '0'

/-- The sorted signature list of the valid sequential edges
(`"source->target"`), as built inside `computeProjectSequenceId`. -/
def edgeSignatures (nodes : List FlowNode) (edges : List FlowEdge) : List String :=
  List.insertionSort StrLE
    ((edges.filter (fun edge =>
        isSequentialEdge edge && decide (edge.source ∈ nodeIds nodes) &&
          decide (edge.target ∈ nodeIds nodes))).map
      (fun edge => edge.source ++ "->" ++ edge.target))

/-- `computeProjectSequenceId`: hash of
`"v1|order:" ++ orderedIds joined by ">" ++ "|edges:" ++ sorted signatures
joined by "|"`, prefixed with the `"FLOW-"` tag. -/
def computeProjectSequenceId (orderedNodeIds : List String)
    (nodes : List FlowNode) (edges : List FlowEdge) : String :=
  let edgeSignature := joinWith "|" (edgeSignatures nodes edges)
  let payload := "v1|order:" ++ joinWith ">" orderedNodeIds ++
    "|edges:" ++ edgeSignature
  "FLOW-" ++ hashToBase36 payload

/-! ### `computeFlowOrdering` assembly -/

/-- The result record of `computeFlowOrdering`. -/
structure FlowOrderingResult where
  orderedNodeIds : List String
  sequentialOrderedNodeIds : List String
  sequenceByNodeId : String → Option Nat
  parallelGroupByNodeId : String → Option String
  hasCycle : Bool

/-- `Number.MAX_SAFE_INTEGER`. -/
def MAX_SAFE_INTEGER : Nat := 9007199254740991

/-- The comparator sorting nodes by (final sequence number, tie-break
comparator), as a sort relation (`cmp(a, b) ≤ 0`). -/
def SeqLE (seqMap : String → Option Nat) (a b : FlowNode) : Prop :=
  if (seqMap a.id).getD MAX_SAFE_INTEGER ≠ (seqMap b.id).getD MAX_SAFE_INTEGER then
    (seqMap a.id).getD MAX_SAFE_INTEGER ≤ (seqMap b.id).getD MAX_SAFE_INTEGER
  else NodeLE a b

instance (seqMap : String → Option Nat) : DecidableRel (SeqLE seqMap) := fun a b => by
  unfold SeqLE
  infer_instance

/-- The emission order of Kahn's algorithm (before the cycle fallback). -/
def kahnOrder (nodes : List FlowNode) (edges : List FlowEdge) : List String :=
  let graph := seqGraph nodes edges
  let available :=
    List.insertionSort NodeLE (nodes.filter (fun node => decide (graph.2 node.id = 0)))
  kahnLoopFuel nodes graph.1
    (available.length + phiIndeg (nodeIds nodes).dedup graph.2 + 1)
    available graph.2 []

/-- The full `orderedNodeIds` list of `computeFlowOrdering`: the Kahn
emission order, followed (when a cycle kept some nodes unemitted) by the
unresolved nodes sorted with the tie-break comparator. -/
def sequentialOrder (nodes : List FlowNode) (edges : List FlowEdge) : List String :=
  let orderedNodeIds := kahnOrder nodes edges
  if orderedNodeIds.length ≠ nodes.length then
    orderedNodeIds ++
      (List.insertionSort NodeLE
        (nodes.filter (fun node => decide (node.id ∉ orderedNodeIds)))).map FlowNode.id
  else orderedNodeIds

/-- `sequenceByNodeId` before parallel normalization: each id of the ordered
list maps to its 1-based index (later duplicates overwrite earlier ones, as
the `reduce` in the source does). -/
def baseSequence (ordered : List String) : String → Option Nat :=
  ordered.enum.foldl (fun acc p => Function.update acc p.2 (some (p.1 + 1)))
    (fun _ => none)

/-- One component-normalization step: when the component has members with a
sequence number, every member adopts the minimum number found among them. -/
def normalizeComponentStep (seqMap : String → Option Nat) (component : List String) :
    String → Option Nat :=
  match component.filterMap seqMap with
  | [] => seqMap
  | v :: vs =>
    let normalizedIndex := vs.foldl min v
    component.foldl
      (fun m nodeId => Function.update m nodeId (some normalizedIndex)) seqMap

/-- `computeFlowOrdering`. -/
def computeFlowOrdering (nodes : List FlowNode) (edges : List FlowEdge) :
    FlowOrderingResult :=
  let orderedNodeIds := sequentialOrder nodes edges
  let parallelGroupInfo := computeParallelGroups nodes edges
  let sequenceByNodeId :=
    parallelGroupInfo.componentNodeIds.foldl normalizeComponentStep
      (baseSequence orderedNodeIds)
  let orderedNodeIdsBySequence :=
    (List.insertionSort (SeqLE sequenceByNodeId) nodes).map FlowNode.id
  { orderedNodeIds := orderedNodeIdsBySequence,
    sequentialOrderedNodeIds := orderedNodeIds,
    sequenceByNodeId := sequenceByNodeId,
    parallelGroupByNodeId := parallelGroupInfo.parallelGroupByNodeId,
    hasCycle := decide ((kahnOrder nodes edges).length ≠ nodes.length) }

/-! ### CSV codec -/

/-- `FLAT_EXPORT_COLUMNS`: the fixed, ordered column enumeration shared by
export and import. -/
def FLAT_EXPORT_COLUMNS : List String :=
  ["session_activeAccountId", "session_activeProjectId", "session_view",
   "session_editorMode", "account_id", "account_code", "project_id",
   "project_name", "project_createdAt", "project_updatedAt",
   "project_sequence_id", "node_id", "node_order_id", "sequence_index",
   "parallel_group_id", "position_x", "position_y", "title", "body_text",
   "primary_cta", "secondary_cta", "helper_text", "error_text", "tone",
   "polarity", "reversibility", "concept", "notes", "action_type_name",
   "action_type_color", "card_style", "node_shape", "node_type",
   "menu_config_json", "project_admin_options_json",
   "project_controlled_language_json", "project_edges_json"]

/-- A flat export row: a total record from column name to cell text
(`row[column] ?? ""` in the source never distinguishes a missing key from
an empty cell on the export side). -/
def FlatExportRow : Type := String → String

/-- `value.replace(/"/g, '""')`. -/
def doubleQuotes : List Char → List Char
  | [] => []
  | c :: rest => if c = '"' then '"' :: '"' :: doubleQuotes rest else c :: doubleQuotes rest

/-- `escapeCsvCell`: quote a cell containing a quote, comma or line break,
doubling embedded quotes. -/
def escapeCsvCell (value : String) : String :=
  if value.data.any (fun c => c = '"' || c = ',' || c = '\n' || c = '\r') then
    "\"" ++ String.mk (doubleQuotes value.data) ++ "\""
  else value

/-- `buildCsvFromRows`: the header line followed by one escaped line per
row, joined with `"\n"`. -/
def buildCsvFromRows (rows : List FlatExportRow) : String :=
  joinWith "\n"
    (joinWith "," FLAT_EXPORT_COLUMNS ::
      rows.map (fun row =>
        joinWith "," (FLAT_EXPORT_COLUMNS.map (fun column => escapeCsvCell (row column)))))

/-- The character-level CSV state machine of `parseCsvText`, splitting the
text into rows of raw cells.  Arguments mirror the source's mutable state:
`inQuotes`, `currentCell`, `currentRow`, `rows`. -/
def parseCsvLoop : List Char → Bool → List Char → List String → List (List String) →
    List (List String)
  | [], _, currentCell, currentRow, rows =>
    rows ++ [currentRow ++ [String.mk currentCell]]
  | '"' :: '"' :: rest2, true, currentCell, currentRow, rows =>
    parseCsvLoop rest2 true (currentCell ++ ['"']) currentRow rows
  | '"' :: rest, true, currentCell, currentRow, rows =>
    parseCsvLoop rest false currentCell currentRow rows
  | c :: rest, true, currentCell, currentRow, rows =>
    parseCsvLoop rest true (currentCell ++ [c]) currentRow rows
  | '"' :: rest, false, currentCell, currentRow, rows =>
    parseCsvLoop rest true currentCell currentRow rows
  | ',' :: rest, false, currentCell, currentRow, rows =>
    parseCsvLoop rest false [] (currentRow ++ [String.mk currentCell]) rows
  | '\r' :: '\n' :: rest2, false, currentCell, currentRow, rows =>
    parseCsvLoop rest2 false [] [] (rows ++ [currentRow ++ [String.mk currentCell]])
  | '\r' :: rest, false, currentCell, currentRow, rows =>
    parseCsvLoop rest false [] [] (rows ++ [currentRow ++ [String.mk currentCell]])
  | '\n' :: rest, false, currentCell, currentRow, rows =>
    parseCsvLoop rest false [] [] (rows ++ [currentRow ++ [String.mk currentCell]])
  | c :: rest, false, currentCell, currentRow, rows =>
    parseCsvLoop rest false (currentCell ++ [c]) currentRow rows

/-- A parsed record: a JavaScript object with string keys, i.e. an ordered
key/value list where assigning an existing key updates it in place. -/
def recordSet : List (String × String) → String → String → List (String × String)
  | [], key, value => [(key, value)]
  | (k, v) :: rest, key, value =>
    if k = key then (k, value) :: rest else (k, v) :: recordSet rest key value

/-- Object property read. -/
def recordGet (record : List (String × String)) (key : String) : Option String :=
  (record.find? (fun entry => entry.1 == key)).map Prod.snd

/-- `replace(/^﻿/, "")`. -/
def stripLeadingBom (s : String) : String :=
  match s.data with
  | '﻿' :: rest => String.mk rest
  | _ => s

/-- The payload produced by the tabular parsers. -/
structure ParsedTabularPayload where
  rows : List (List (String × String))
  headers : List String

/-- `parseCsvText`: run the state machine, trim the headers (stripping a
leading BOM from the first), drop body rows whose every cell is blank, and
zip each remaining row with the headers (empty header names are skipped). -/
def parseCsvText (text : String) : ParsedTabularPayload :=
  let rows := parseCsvLoop text.data false [] [] []
  match rows with
  | [] => ⟨[], []⟩
  | rawHeaders :: bodyRows =>
    let headers := rawHeaders.enum.map (fun p =>
      if p.1 = 0 then jsTrim (stripLeadingBom p.2) else jsTrim p.2)
    let parsedRows :=
      (bodyRows.filter (fun row => row.any (fun cell => decide (0 < (jsTrim cell).length)))).map
        (fun row =>
          headers.enum.foldl (fun record p =>
            if p.2 = "" then record else recordSet record p.2 (row.getD p.1 "")) [])
    ⟨parsedRows, headers⟩

/-! ### Import reconciliation -/

/-- `normalizeFlatRowKeys`: trim every key (stripping a BOM from the first
entry), dropping entries whose normalized key is empty. -/
def normalizeFlatRowKeys (rawRow : List (String × String)) : List (String × String) :=
  rawRow.enum.foldl (fun normalizedRow p =>
    let normalizedKey := if p.1 = 0 then jsTrim (stripLeadingBom p.2.1) else jsTrim p.2.1
    if normalizedKey = "" then normalizedRow
    else recordSet normalizedRow normalizedKey p.2.2) []

/-- Value of a digit run. -/
def digitsToNat (l : List Char) : Nat :=
  l.foldl (fun acc c => acc * 10 + (c.toNat - 48)) 0

/-- Unsigned decimal literal accepted by `Number(...)`: digits with an
optional fraction part (scientific, hexadecimal and infinity forms are not
modelled; nothing in the flows proved here produces them). -/
def jsUnsignedNumber (l : List Char) : Option Rat :=
  let intPart := l.takeWhile (fun c => c ≠ '.')
  match l.dropWhile (fun c => c ≠ '.') with
  | [] =>
    if intPart ≠ [] ∧ intPart.all Char.isDigit then some (digitsToNat intPart : Nat)
    else none
  | _ :: fracPart =>
    if (intPart ≠ [] ∨ fracPart ≠ []) ∧ intPart.all Char.isDigit ∧
        fracPart.all Char.isDigit then
      some ((digitsToNat intPart : Nat) + (digitsToNat fracPart : Nat) /
        ((10 : Nat) ^ fracPart.length : Nat))
    else none

/-- `Number(value)` for a string: trims whitespace, an empty remainder is
`0`, otherwise an optionally signed decimal literal; anything else is `NaN`
(`none`). -/
def jsNumber (s : String) : Option Rat :=
  match (jsTrim s).data with
  | [] => some 0
  | '-' :: r => (jsUnsignedNumber r).map Neg.neg
  | '+' :: r => jsUnsignedNumber r
  | l => jsUnsignedNumber l

/-- `toNumeric`: `null` for a nullish or empty (falsy) input, else
`Number(value)` when it is finite. -/
def toNumeric (value : Option String) : Option Rat :=
  match value with
  | none => none
  | some v =>
    if v = "" then none
    else jsNumber v

/-- The imported node assembled from one row (`importProjectDataFromFile`):
id from the row (rows with a blank id never reach this point, so the
`createNodeId()` fallback for a blank id is modelled as the empty id),
position from `position_x`/`position_y` with the deterministic
left-to-right fallback layout.  Of the verbatim-copied content fields only
`title` and `body_text` are carried; the remaining ones are copied the same
way and are never read by the properties below. -/
structure SerializableFlowNode where
  id : String
  x : Rat
  y : Rat
  title : String
  body_text : String
  deriving DecidableEq, Repr

/-- Rows with a non-empty `node_id` become node candidates. -/
def nodeRecords (projectRows : List (List (String × String))) :
    List (List (String × String)) :=
  projectRows.filter (fun row =>
    match recordGet row "node_id" with
    | some v => decide (0 < (jsTrim v).length)
    | none => false)

/-- `sortWeight`: the numeric order key of a row — `node_order_id ??
sequence_index` parsed numerically, else the 1-based original position. -/
def sortWeight (row : List (String × String)) (fallbackIndex : Nat) : Rat :=
  let orderValue := toNumeric
    (match recordGet row "node_order_id" with
     | some v => some v
     | none => recordGet row "sequence_index")
  match orderValue with
  | some v => v
  | none => ((fallbackIndex + 1 : Nat) : Rat)

/-- The sort relation of the node-candidate sort (`sortWeight(a) -
sortWeight(b) ≤ 0` over (original index, row) pairs). -/
def ImportOrderLE (a b : Nat × List (String × String)) : Prop :=
  sortWeight a.2 a.1 ≤ sortWeight b.2 b.1

instance : DecidableRel ImportOrderLE := fun a b =>
  inferInstanceAs (Decidable (_ ≤ _))

/-- The node candidates paired with their original indices and sorted by
the numeric order key (stable, as `Array.prototype.sort` is). -/
def sortedNodeRecords (projectRows : List (List (String × String))) :
    List (Nat × List (String × String)) :=
  List.insertionSort ImportOrderLE (nodeRecords projectRows).enum

/-- Build the imported node of one sorted row at its new index. -/
def buildImportedNode (row : List (String × String)) (index : Nat) :
    SerializableFlowNode :=
  let rowNodeId := jsTrim ((recordGet row "node_id").getD "")
  let x := toNumeric (recordGet row "position_x")
  let y := toNumeric (recordGet row "position_y")
  { id := if 0 < rowNodeId.length then rowNodeId else "",
    x := x.getD ((120 + index * 220 : Nat) : Rat),
    y := y.getD ((120 : Nat) : Rat),
    title := (recordGet row "title").getD "",
    body_text := (recordGet row "body_text").getD "" }

/-- The classified outcome of an import whose file already parsed into a
tabular payload.  The success payload carries the imported nodes and the
raw JSON blob columns of the first matching row; their hydration
(`sanitizePersistedNodes`, `sanitizeEdges`, vocabulary merging) happens in
the caller's success handler. -/
inductive ImportOutcome where
  | emptyInfo
  | noMatch (message : String)
  | success (nodes : List SerializableFlowNode) (projectEdgesJson : String)
      (projectAdminOptionsJson : String) (projectControlledLanguageJson : String)
  deriving DecidableEq, Repr

/-- The reconciliation core of `importProjectDataFromFile`, from the parsed
payload on: classify empty payloads, filter to the active project's rows
(trimmed `project_id` match), fail when none match, else sort the node
candidates and assemble the imported nodes plus the first row's blobs. -/
def reconcileImport (parsed : ParsedTabularPayload) (activeProjectId : String) :
    ImportOutcome :=
  if parsed.rows.length = 0 then .emptyInfo
  else
    let normalizedRows := parsed.rows.map normalizeFlatRowKeys
    let projectRows := normalizedRows.filter (fun row =>
      match recordGet row "project_id" with
      | some v => decide (jsTrim v = activeProjectId)
      | none => false)
    if projectRows.length = 0 then
      .noMatch ("No rows matched active project " ++ activeProjectId ++ ".")
    else
      let sorted := sortedNodeRecords projectRows
      let importedNodes := sorted.enum.map (fun p => buildImportedNode p.2.2 p.1)
      let firstRow := projectRows.headD []
      .success importedNodes
        ((recordGet firstRow "project_edges_json").getD "")
        ((recordGet firstRow "project_admin_options_json").getD "")
        ((recordGet firstRow "project_controlled_language_json").getD "")

/-- The caller-side state touched by `importProjectDataFromFile`. -/
structure AppState where
  nodes : List FlowNode
  edges : List FlowEdge
  adminOptions : List (String × List String)
  transferFeedback : Option (Bool × String)

/-- How the caller applies an import outcome: the info/error outcomes only
set `transferFeedback` (the source returns before any graph state setter
runs); a success outcome is handed to the success handler, which performs
the hydration and state updates. -/
def applyImportOutcome
    (applySuccess : List SerializableFlowNode → String → String → String →
      AppState → AppState)
    (outcome : ImportOutcome) (st : AppState) : AppState :=
  match outcome with
  | .emptyInfo => { st with transferFeedback := some (false, "Import file has no data rows.") }
  | .noMatch message => { st with transferFeedback := some (true, message) }
  | .success importedNodes e a c => applySuccess importedNodes e a c st

/-! ### Congruence: the core reads edges only through source, target and
kind -/

/-- The projection of an edge actually consumed by the ordering, grouping
and identity code. -/
def edgeView (edge : FlowEdge) : String × String × EdgeKind :=
  (edge.source, edge.target, getEdgeKind edge)

lemma edgeView_source {e₁ e₂ : FlowEdge} (h : edgeView e₁ = edgeView e₂) :
    e₁.source = e₂.source := congrArg Prod.fst h

lemma edgeView_target {e₁ e₂ : FlowEdge} (h : edgeView e₁ = edgeView e₂) :
    e₁.target = e₂.target := congrArg (fun p => p.2.1) h

lemma edgeView_kind {e₁ e₂ : FlowEdge} (h : edgeView e₁ = edgeView e₂) :
    getEdgeKind e₁ = getEdgeKind e₂ := congrArg (fun p => p.2.2) h

lemma isSequentialEdge_congr {e₁ e₂ : FlowEdge} (h : edgeView e₁ = edgeView e₂) :
    isSequentialEdge e₁ = isSequentialEdge e₂ := by
  unfold isSequentialEdge
  rw [edgeView_kind h]

lemma isParallelEdge_congr {e₁ e₂ : FlowEdge} (h : edgeView e₁ = edgeView e₂) :
    isParallelEdge e₁ = isParallelEdge e₂ := by
  unfold isParallelEdge
  rw [edgeView_kind h]

lemma seqGraphStep_congr (nodes : List FlowNode)
    (st : (String → List String) × (String → Int)) {e₁ e₂ : FlowEdge}
    (h : edgeView e₁ = edgeView e₂) :
    seqGraphStep nodes st e₁ = seqGraphStep nodes st e₂ := by
  unfold seqGraphStep
  rw [edgeView_source h, edgeView_target h]

lemma seqGraph_fold_congr (nodes : List FlowNode) :
    ∀ {l₁ l₂ : List FlowEdge}, l₁.map edgeView = l₂.map edgeView →
    ∀ acc, (l₁.filter isSequentialEdge).foldl (seqGraphStep nodes) acc =
      (l₂.filter isSequentialEdge).foldl (seqGraphStep nodes) acc := by
  intro l₁
  induction l₁ with
  | nil =>
    intro l₂ hv acc
    cases l₂ with
    | nil => rfl
    | cons e₂ t₂ => cases hv
  | cons e₁ t₁ ih =>
    intro l₂ hv acc
    cases l₂ with
    | nil => cases hv
    | cons e₂ t₂ =>
      simp only [List.map_cons, List.cons.injEq] at hv
      obtain ⟨hview, htail⟩ := hv
      simp only [List.filter_cons]
      rw [isSequentialEdge_congr hview]
      by_cases hseq : isSequentialEdge e₂ = true
      · rw [if_pos hseq, if_pos hseq]
        simp only [List.foldl_cons]
        rw [seqGraphStep_congr nodes acc hview]
        exact ih htail _
      · rw [if_neg hseq, if_neg hseq]
        exact ih htail acc

lemma seqGraph_congr (nodes : List FlowNode) {edges₁ edges₂ : List FlowEdge}
    (hv : edges₁.map edgeView = edges₂.map edgeView) :
    seqGraph nodes edges₁ = seqGraph nodes edges₂ :=
  seqGraph_fold_congr nodes hv _

lemma parAdjStep_congr (nodes : List FlowNode) (adjacency : String → List String)
    {e₁ e₂ : FlowEdge} (h : edgeView e₁ = edgeView e₂) :
    parAdjStep nodes adjacency e₁ = parAdjStep nodes adjacency e₂ := by
  unfold parAdjStep
  rw [edgeView_source h, edgeView_target h, isParallelEdge_congr h]

lemma parAdj_congr (nodes : List FlowNode) {edges₁ edges₂ : List FlowEdge}
    (hv : edges₁.map edgeView = edges₂.map edgeView) :
    parAdj nodes edges₁ = parAdj nodes edges₂ := by
  unfold parAdj
  suffices h : ∀ {l₁ l₂ : List FlowEdge}, l₁.map edgeView = l₂.map edgeView →
      ∀ acc : String → List String,
        l₁.foldl (parAdjStep nodes) acc = l₂.foldl (parAdjStep nodes) acc by
    exact h hv _
  intro l₁
  induction l₁ with
  | nil =>
    intro l₂ hv acc
    cases l₂ with
    | nil => rfl
    | cons e₂ t₂ => cases hv
  | cons e₁ t₁ ih =>
    intro l₂ hv acc
    cases l₂ with
    | nil => cases hv
    | cons e₂ t₂ =>
      simp only [List.map_cons, List.cons.injEq] at hv
      obtain ⟨hview, htail⟩ := hv
      simp only [List.foldl_cons]
      rw [parAdjStep_congr nodes acc hview]
      exact ih htail _

lemma computeParallelGroups_congr (nodes : List FlowNode)
    {edges₁ edges₂ : List FlowEdge}
    (hv : edges₁.map edgeView = edges₂.map edgeView) :
    computeParallelGroups nodes edges₁ = computeParallelGroups nodes edges₂ := by
  have hpar := parAdj_congr nodes hv
  have hstep : parallelOuterStep nodes edges₁ = parallelOuterStep nodes edges₂ := by
    funext st node
    unfold parallelOuterStep
    rw [hpar]
  unfold computeParallelGroups
  rw [hstep]

lemma kahnOrder_congr (nodes : List FlowNode) {edges₁ edges₂ : List FlowEdge}
    (hv : edges₁.map edgeView = edges₂.map edgeView) :
    kahnOrder nodes edges₁ = kahnOrder nodes edges₂ := by
  unfold kahnOrder
  rw [seqGraph_congr nodes hv]

lemma sequentialOrder_congr (nodes : List FlowNode) {edges₁ edges₂ : List FlowEdge}
    (hv : edges₁.map edgeView = edges₂.map edgeView) :
    sequentialOrder nodes edges₁ = sequentialOrder nodes edges₂ := by
  unfold sequentialOrder
  rw [kahnOrder_congr nodes hv]

lemma computeFlowOrdering_view_congr (nodes : List FlowNode)
    {edges₁ edges₂ : List FlowEdge}
    (hv : edges₁.map edgeView = edges₂.map edgeView) :
    computeFlowOrdering nodes edges₁ = computeFlowOrdering nodes edges₂ := by
  unfold computeFlowOrdering
  rw [sequentialOrder_congr nodes hv, computeParallelGroups_congr nodes hv,
    kahnOrder_congr nodes hv]

lemma edgeSignatures_congr (nodes : List FlowNode) {edges₁ edges₂ : List FlowEdge}
    (hv : edges₁.map edgeView = edges₂.map edgeView) :
    edgeSignatures nodes edges₁ = edgeSignatures nodes edges₂ := by
  unfold edgeSignatures
  congr 1
  induction edges₁ generalizing edges₂ with
  | nil =>
    cases edges₂ with
    | nil => rfl
    | cons e₂ t₂ => cases hv
  | cons e₁ t₁ ih =>
    cases edges₂ with
    | nil => cases hv
    | cons e₂ t₂ =>
      simp only [List.map_cons, List.cons.injEq] at hv
      obtain ⟨hview, htail⟩ := hv
      simp only [List.filter_cons]
      rw [isSequentialEdge_congr hview, edgeView_source hview, edgeView_target hview]
      by_cases hkeep : (isSequentialEdge e₂ && decide (e₂.source ∈ nodeIds nodes) &&
          decide (e₂.target ∈ nodeIds nodes)) = true
      · rw [if_pos hkeep, if_pos hkeep]
        simp only [List.map_cons]
        rw [edgeView_source hview, edgeView_target hview, ih htail]
      · rw [if_neg hkeep, if_neg hkeep]
        exact ih htail

lemma computeProjectSequenceId_congr (orderedNodeIds : List String)
    (nodes : List FlowNode) {edges₁ edges₂ : List FlowEdge}
    (hv : edges₁.map edgeView = edges₂.map edgeView) :
    computeProjectSequenceId orderedNodeIds nodes edges₁ =
      computeProjectSequenceId orderedNodeIds nodes edges₂ := by
  unfold computeProjectSequenceId
  rw [edgeSignatures_congr nodes hv]

/-- Rewriting the `is_reversed` flag of every edge's data with an arbitrary
per-edge value (covering toggling any single edge's flag). -/
def setEdgeReversed (value : FlowEdge → Option Bool) (edge : FlowEdge) : FlowEdge :=
  { edge with data := edge.data.map (fun d => { d with is_reversed := value edge }) }

lemma edgeView_setEdgeReversed (value : FlowEdge → Option Bool) (edge : FlowEdge) :
    edgeView (setEdgeReversed value edge) = edgeView edge := by
  unfold edgeView setEdgeReversed getEdgeKind
  cases edge.data with
  | none => rfl
  | some d => rfl

/-- C10: toggling the `is_reversed` flag on edge data changes neither the
ordering result nor the project sequence identity token: both functions
read an edge only through its source, target and kind, so the
reversed-direction setting is visual-only. -/
theorem is_reversed_is_visual_only (nodes : List FlowNode) (edges : List FlowEdge)
    (value : FlowEdge → Option Bool) (orderedNodeIds : List String) :
    computeFlowOrdering nodes (edges.map (setEdgeReversed value)) =
        computeFlowOrdering nodes edges ∧
      computeProjectSequenceId orderedNodeIds nodes (edges.map (setEdgeReversed value)) =
        computeProjectSequenceId orderedNodeIds nodes edges := by
  have hv : (edges.map (setEdgeReversed value)).map edgeView = edges.map edgeView := by
    rw [List.map_map]
    exact List.map_congr_left (fun e _ => edgeView_setEdgeReversed value e)
  exact ⟨computeFlowOrdering_view_congr nodes hv,
    computeProjectSequenceId_congr orderedNodeIds nodes hv⟩

/-! ### The project sequence identity token (C4) -/

/-- The app-level `projectSequenceId`:
`computeProjectSequenceId(ordering.sequentialOrderedNodeIds, nodes, edges)`. -/
def projectSequenceId (nodes : List FlowNode) (edges : List FlowEdge) : String :=
  computeProjectSequenceId (computeFlowOrdering nodes edges).sequentialOrderedNodeIds
    nodes edges

lemma computeFlowOrdering_sequentialOrderedNodeIds (nodes : List FlowNode)
    (edges : List FlowEdge) :
    (computeFlowOrdering nodes edges).sequentialOrderedNodeIds =
      sequentialOrder nodes edges := rfl

lemma isSequentialEdge_eq_false_of_parallel {edge : FlowEdge}
    (h : isParallelEdge edge = true) : isSequentialEdge edge = false := by
  unfold isParallelEdge at h
  unfold isSequentialEdge
  rw [beq_iff_eq] at h
  rw [h]
  rfl

lemma filter_seq_append_parallel (edges : List FlowEdge) {pe : FlowEdge}
    (hpe : isParallelEdge pe = true) :
    (edges ++ [pe]).filter isSequentialEdge = edges.filter isSequentialEdge := by
  rw [List.filter_append]
  simp [isSequentialEdge_eq_false_of_parallel hpe]

lemma seqGraph_append_parallel (nodes : List FlowNode) (edges : List FlowEdge)
    {pe : FlowEdge} (hpe : isParallelEdge pe = true) :
    seqGraph nodes (edges ++ [pe]) = seqGraph nodes edges := by
  unfold seqGraph
  rw [filter_seq_append_parallel edges hpe]

lemma sequentialOrder_append_parallel (nodes : List FlowNode) (edges : List FlowEdge)
    {pe : FlowEdge} (hpe : isParallelEdge pe = true) :
    sequentialOrder nodes (edges ++ [pe]) = sequentialOrder nodes edges := by
  unfold sequentialOrder kahnOrder
  rw [seqGraph_append_parallel nodes edges hpe]

lemma edgeSignatures_append_parallel (nodes : List FlowNode) (edges : List FlowEdge)
    {pe : FlowEdge} (hpe : isParallelEdge pe = true) :
    edgeSignatures nodes (edges ++ [pe]) = edgeSignatures nodes edges := by
  unfold edgeSignatures
  rw [List.filter_append]
  simp [isSequentialEdge_eq_false_of_parallel hpe]

/-- `edgeSignatures` reads nodes only through their id list. -/
lemma edgeSignatures_nodes_congr {nodes₁ nodes₂ : List FlowNode}
    (h : nodeIds nodes₁ = nodeIds nodes₂) (edges : List FlowEdge) :
    edgeSignatures nodes₁ edges = edgeSignatures nodes₂ edges := by
  unfold edgeSignatures
  rw [h]

/-- Swapping an edge's endpoints (what "reversing a sequential edge" does to
the stored graph). -/
def reverseEdge (edge : FlowEdge) : FlowEdge :=
  { edge with source := edge.target, target := edge.source }

lemma edgeSignatures_append_valid_sequential (nodes : List FlowNode)
    (edges : List FlowEdge) {e : FlowEdge} (hseq : isSequentialEdge e = true)
    (hs : e.source ∈ nodeIds nodes) (ht : e.target ∈ nodeIds nodes) :
    (edgeSignatures nodes (edges ++ [e])).length =
      (edgeSignatures nodes edges).length + 1 := by
  unfold edgeSignatures
  rw [(List.perm_insertionSort StrLE _).length_eq,
    (List.perm_insertionSort StrLE _).length_eq]
  rw [List.filter_append]
  simp [hseq, hs, ht]

/-- The per-edge signature string. -/
def edgeSignature (edge : FlowEdge) : String :=
  edge.source ++ "->" ++ edge.target

lemma edgeSignatures_count (nodes : List FlowNode) (edges : List FlowEdge)
    (s : String) :
    (edgeSignatures nodes edges).count s =
      (((edges.filter (fun edge =>
          isSequentialEdge edge && decide (edge.source ∈ nodeIds nodes) &&
            decide (edge.target ∈ nodeIds nodes))).map
        (fun edge => edge.source ++ "->" ++ edge.target)).count s) := by
  unfold edgeSignatures
  exact (List.perm_insertionSort StrLE _).count_eq s

lemma edgeSignatures_reverse_ne (nodes : List FlowNode) (l₁ l₂ : List FlowEdge)
    {e : FlowEdge} (hseq : isSequentialEdge e = true)
    (hs : e.source ∈ nodeIds nodes) (ht : e.target ∈ nodeIds nodes)
    (hsig : edgeSignature e ≠ edgeSignature (reverseEdge e)) :
    edgeSignatures nodes (l₁ ++ reverseEdge e :: l₂) ≠
      edgeSignatures nodes (l₁ ++ e :: l₂) := by
  intro hcontra
  have hcount : (edgeSignatures nodes (l₁ ++ reverseEdge e :: l₂)).count (edgeSignature e) =
      (edgeSignatures nodes (l₁ ++ e :: l₂)).count (edgeSignature e) := by
    rw [hcontra]
  rw [edgeSignatures_count, edgeSignatures_count] at hcount
  have hrseq : isSequentialEdge (reverseEdge e) = true := by
    unfold isSequentialEdge getEdgeKind at hseq ⊢
    exact hseq
  have hne : e.target ++ "->" ++ e.source ≠ e.source ++ "->" ++ e.target := by
    intro hh
    exact hsig (by simpa [edgeSignature, reverseEdge] using hh.symm)
  have hlit : isSequentialEdge
      { id := e.id, source := e.target, target := e.source,
        sourceHandle := e.sourceHandle, targetHandle := e.targetHandle,
        data := e.data } = true := hrseq
  simp [List.filter_append, List.filter_cons, List.count_append, List.count_cons,
    hseq, hrseq, hlit, hs, ht, reverseEdge, edgeSignature, hne, beq_iff_eq] at hcount

/-- C4 (amended): the identity token is unchanged by appending a parallel
edge and by node edits that keep the id list and the sequential order; and
the sorted sequential-signature list (the edge component of the hash
payload) always changes when a valid sequential edge is added or removed,
and changes under reversal whenever the two signature strings differ (a
self-loop's reversal is the identity).  The 32-bit token itself can
coincide for distinct payloads, which is why the token-level "changes
whenever" clause fails (see the counterexample). -/
theorem projectSequenceId_invariance_and_signature_change :
    (∀ (nodes : List FlowNode) (edges : List FlowEdge) (pe : FlowEdge),
      isParallelEdge pe = true →
      projectSequenceId nodes (edges ++ [pe]) = projectSequenceId nodes edges) ∧
    (∀ (nodes₁ nodes₂ : List FlowNode) (edges : List FlowEdge),
      nodeIds nodes₁ = nodeIds nodes₂ →
      sequentialOrder nodes₁ edges = sequentialOrder nodes₂ edges →
      projectSequenceId nodes₁ edges = projectSequenceId nodes₂ edges) ∧
    (∀ (nodes : List FlowNode) (edges : List FlowEdge) (e : FlowEdge),
      isSequentialEdge e = true → e.source ∈ nodeIds nodes →
      e.target ∈ nodeIds nodes →
      edgeSignatures nodes (edges ++ [e]) ≠ edgeSignatures nodes edges) ∧
    (∀ (nodes : List FlowNode) (l₁ l₂ : List FlowEdge) (e : FlowEdge),
      isSequentialEdge e = true → e.source ∈ nodeIds nodes →
      e.target ∈ nodeIds nodes →
      edgeSignature e ≠ edgeSignature (reverseEdge e) →
      edgeSignatures nodes (l₁ ++ reverseEdge e :: l₂) ≠
        edgeSignatures nodes (l₁ ++ e :: l₂)) := by
  refine ⟨?_, ?_, ?_, ?_⟩
  · intro nodes edges pe hpe
    unfold projectSequenceId computeProjectSequenceId
    rw [computeFlowOrdering_sequentialOrderedNodeIds,
      computeFlowOrdering_sequentialOrderedNodeIds,
      sequentialOrder_append_parallel nodes edges hpe,
      edgeSignatures_append_parallel nodes edges hpe]
  · intro nodes₁ nodes₂ edges hids horder
    unfold projectSequenceId computeProjectSequenceId
    rw [computeFlowOrdering_sequentialOrderedNodeIds,
      computeFlowOrdering_sequentialOrderedNodeIds, horder,
      edgeSignatures_nodes_congr hids edges]
  · intro nodes edges e hseq hs ht hcontra
    have := congrArg List.length hcontra
    rw [edgeSignatures_append_valid_sequential nodes edges hseq hs ht] at this
    omega
  · intro nodes l₁ l₂ e hseq hs ht hsig
    exact edgeSignatures_reverse_ne nodes l₁ l₂ hseq hs ht hsig

/-! Concrete inputs for the identity-token results. -/

/-- Concrete node `A1` at (0, 0). -/
def demoNodeA1 : FlowNode := ⟨"A1", 0, 0⟩

/-- Concrete node `B1` at (100, 0). -/
def demoNodeB1 : FlowNode := ⟨"B1", 100, 0⟩

/-- Concrete node `BpWR00K` at (200, 0); its id makes the two hash payloads
below collide. -/
def demoNodeU : FlowNode := ⟨"BpWR00K", 200, 0⟩

/-- The sequential edge `A1 → B1`. -/
def demoEdgeA1B1 : FlowEdge :=
  ⟨"e1", "A1", "B1", none, none, some ⟨some EdgeKind.sequential, none⟩⟩

/-- A parallel edge on `A1`. -/
def demoParallelEdge : FlowEdge :=
  ⟨"p1", "A1", "A1", none, none, some ⟨some EdgeKind.parallel, none⟩⟩

/-- Node `A` at (0, 0). -/
def demoNodeAat00 : FlowNode := ⟨"A", 0, 0⟩

/-- Node `A` moved to (5, 7). -/
def demoNodeAat57 : FlowNode := ⟨"A", 5, 7⟩

/-- Concrete node `N` at (0, 0). -/
def demoNodeN : FlowNode := ⟨"N", 0, 0⟩

/-- A sequential self-loop on `N`. -/
def demoSelfLoop : FlowEdge :=
  ⟨"e1", "N", "N", none, none, some ⟨some EdgeKind.sequential, none⟩⟩

set_option maxRecDepth 1000000 in
/-- C4 counterexample: the token does not always change when a sequential
edge is added or reversed.  (1) On nodes `A1`, `B1`, `BpWR00K`, adding the
valid sequential edge `A1 → B1` leaves the token unchanged — the two
distinct hash payloads collide in the 32-bit hash (both yield
`FLOW-04A22IN`).  (2) Reversing a sequential self-loop is the identity, so
the token cannot change. -/
theorem projectSequenceId_change_counterexample :
    (isSequentialEdge demoEdgeA1B1 = true ∧
      projectSequenceId [demoNodeA1, demoNodeB1, demoNodeU] ([] ++ [demoEdgeA1B1]) =
        projectSequenceId [demoNodeA1, demoNodeB1, demoNodeU] []) ∧
    (isSequentialEdge demoSelfLoop = true ∧ reverseEdge demoSelfLoop = demoSelfLoop ∧
      projectSequenceId [demoNodeN] [reverseEdge demoSelfLoop] =
        projectSequenceId [demoNodeN] [demoSelfLoop]) := by
  exact ⟨⟨by decide, by decide⟩, ⟨by decide, by decide, by decide⟩⟩

set_option maxRecDepth 1000000 in
/-- Witness instantiating each conjunct of the amended C4 statement at a
concrete input. -/
theorem projectSequenceId_invariance_witness :
    projectSequenceId [demoNodeA1] ([] ++ [demoParallelEdge]) =
        projectSequenceId [demoNodeA1] [] ∧
      projectSequenceId [demoNodeAat00] [] = projectSequenceId [demoNodeAat57] [] ∧
      edgeSignatures [demoNodeA1, demoNodeB1] ([] ++ [demoEdgeA1B1]) ≠
        edgeSignatures [demoNodeA1, demoNodeB1] [] ∧
      edgeSignatures [demoNodeA1, demoNodeB1] ([] ++ reverseEdge demoEdgeA1B1 :: []) ≠
        edgeSignatures [demoNodeA1, demoNodeB1] ([] ++ demoEdgeA1B1 :: []) :=
  ⟨projectSequenceId_invariance_and_signature_change.1 [demoNodeA1] [] demoParallelEdge
      (by decide),
   projectSequenceId_invariance_and_signature_change.2.1 [demoNodeAat00] [demoNodeAat57]
      [] (by decide) (by decide),
   projectSequenceId_invariance_and_signature_change.2.2.1 [demoNodeA1, demoNodeB1] []
      demoEdgeA1B1 (by decide) (by decide) (by decide),
   projectSequenceId_invariance_and_signature_change.2.2.2 [demoNodeA1, demoNodeB1] [] []
      demoEdgeA1B1 (by decide) (by decide) (by decide) (by decide)⟩

/-! ### Import error handling (C6) -/

/-- The row-matching predicate of the reconciler: the row's (trimmed)
`project_id` equals the active project id. -/
def rowMatchesProject (row : List (String × String)) (activeProjectId : String) : Bool :=
  match recordGet row "project_id" with
  | some v => decide (jsTrim v = activeProjectId)
  | none => false

lemma reconcileImport_filter (parsed : ParsedTabularPayload) (activeProjectId : String) :
    (parsed.rows.map normalizeFlatRowKeys).filter (fun row =>
        match recordGet row "project_id" with
        | some v => decide (jsTrim v = activeProjectId)
        | none => false) =
      (parsed.rows.map normalizeFlatRowKeys).filter
        (fun row => rowMatchesProject row activeProjectId) := rfl

/-- C6: when the parse produced rows but none matches the active project
id, reconciliation returns the user-facing error naming the expected id,
and applying that outcome leaves nodes, edges and admin options untouched
(whatever the success handler would have done). -/
theorem import_no_match_reports_error_and_preserves_state
    (parsed : ParsedTabularPayload) (activeProjectId : String)
    (hnonempty : parsed.rows ≠ [])
    (hnomatch : ∀ row ∈ parsed.rows,
      rowMatchesProject (normalizeFlatRowKeys row) activeProjectId = false) :
    reconcileImport parsed activeProjectId =
        ImportOutcome.noMatch ("No rows matched active project " ++ activeProjectId ++ ".") ∧
      ∀ (applySuccess : List SerializableFlowNode → String → String → String →
          AppState → AppState) (st : AppState),
        (applyImportOutcome applySuccess (reconcileImport parsed activeProjectId) st).nodes =
            st.nodes ∧
          (applyImportOutcome applySuccess (reconcileImport parsed activeProjectId) st).edges =
            st.edges ∧
          (applyImportOutcome applySuccess (reconcileImport parsed activeProjectId)
              st).adminOptions = st.adminOptions ∧
          (applyImportOutcome applySuccess (reconcileImport parsed activeProjectId)
              st).transferFeedback =
            some (true, "No rows matched active project " ++ activeProjectId ++ ".") := by
  have hfilter : (parsed.rows.map normalizeFlatRowKeys).filter
      (fun row => rowMatchesProject row activeProjectId) = [] := by
    rw [List.filter_eq_nil]
    intro row hrow
    obtain ⟨raw, hraw, hmap⟩ := List.mem_map.mp hrow
    rw [← hmap]
    simp [hnomatch raw hraw]
  have hfilter' : (parsed.rows.map normalizeFlatRowKeys).filter
      (fun row =>
        match recordGet row "project_id" with
        | some v => decide (jsTrim v = activeProjectId)
        | none => false) = [] := hfilter
  have houtcome : reconcileImport parsed activeProjectId =
      ImportOutcome.noMatch ("No rows matched active project " ++ activeProjectId ++ ".") := by
    unfold reconcileImport
    rw [if_neg (by simpa using hnonempty)]
    simp [hfilter']
  refine ⟨houtcome, ?_⟩
  intro applySuccess st
  rw [houtcome]
  exact ⟨rfl, rfl, rfl, rfl⟩

/-- One import row tagged `project_id = "PRJ-X"`. -/
def demoImportRow : List (String × String) :=
  [("project_id", "PRJ-X"), ("node_id", "n1"), ("title", "t")]

/-- Witness: importing a payload whose only row is tagged `PRJ-X` into the
active project `PRJ-Y` yields the no-match error and leaves the state's
graph untouched. -/
theorem import_no_match_witness :
    (⟨[demoImportRow], ["project_id", "node_id", "title"]⟩ :
        ParsedTabularPayload).rows ≠ [] ∧
      reconcileImport ⟨[demoImportRow], ["project_id", "node_id", "title"]⟩ "PRJ-Y" =
        ImportOutcome.noMatch "No rows matched active project PRJ-Y." :=
  ⟨by decide,
   (import_no_match_reports_error_and_preserves_state
      ⟨[demoImportRow], ["project_id", "node_id", "title"]⟩ "PRJ-Y"
      (by decide) (by decide)).1⟩

/-! ### Import ordering key (C8) -/

instance : IsTotal (Nat × List (String × String)) ImportOrderLE :=
  ⟨fun a b => le_total (sortWeight a.2 a.1) (sortWeight b.2 b.1)⟩

instance : IsTrans (Nat × List (String × String)) ImportOrderLE :=
  ⟨fun _ _ _ hab hbc => le_trans hab hbc⟩

/-- The order key as the specification describes it: `node_order_id` when it
parses numerically, else (absent or non-numeric) `sequence_index` when that
parses numerically, else the 1-based original row position.  Stated only to
compare against the source's `sortWeight`. -/
def specSortWeight (row : List (String × String)) (fallbackIndex : Nat) : Rat :=
  match toNumeric (recordGet row "node_order_id") with
  | some v => v
  | none =>
    match toNumeric (recordGet row "sequence_index") with
    | some v => v
    | none => ((fallbackIndex + 1 : Nat) : Rat)

/-- The sort relation induced by the specification's key. -/
def SpecImportOrderLE (a b : Nat × List (String × String)) : Prop :=
  specSortWeight a.2 a.1 ≤ specSortWeight b.2 b.1

instance : DecidableRel SpecImportOrderLE := fun a b =>
  inferInstanceAs (Decidable (_ ≤ _))

/-- Two project rows whose `node_order_id` is present but non-numeric and
whose `sequence_index` values order them `n2` before `n1`. -/
def demoOrderRows : List (List (String × String)) :=
  [[("project_id", "P"), ("node_id", "n1"), ("node_order_id", "x"),
    ("sequence_index", "2")],
   [("project_id", "P"), ("node_id", "n2"), ("node_order_id", "x"),
    ("sequence_index", "1")]]

/-- C8 counterexample: with a present but non-numeric `node_order_id`, the
source keeps the original row order (`n1`, `n2`) because `node_order_id ??
sequence_index` never consults `sequence_index`, while the key described by
the claim would sort by `sequence_index` (`n2`, `n1`). -/
theorem import_sort_key_counterexample :
    (sortedNodeRecords demoOrderRows).map (fun p => recordGet p.2 "node_id") =
        [some "n1", some "n2"] ∧
      (List.insertionSort SpecImportOrderLE (nodeRecords demoOrderRows).enum).map
          (fun p => recordGet p.2 "node_id") =
        [some "n2", some "n1"] ∧
      (sortedNodeRecords demoOrderRows).map (fun p => recordGet p.2 "node_id") ≠
        (List.insertionSort SpecImportOrderLE (nodeRecords demoOrderRows).enum).map
          (fun p => recordGet p.2 "node_id") := by
  exact ⟨by decide, by decide, by decide⟩

/-- C8 (amended): the node candidates are sorted (stably) by the numeric
order key, a permutation of the candidate rows in original order; the key
is `node_order_id` parsed numerically whenever that property is present
(falling back to the 1-based original position when it does not parse,
without consulting `sequence_index`), and only an absent `node_order_id`
lets a numeric `sequence_index` supply the key. -/
theorem import_sort_characterization (projectRows : List (List (String × String))) :
    (sortedNodeRecords projectRows).Perm (nodeRecords projectRows).enum ∧
      List.Sorted ImportOrderLE (sortedNodeRecords projectRows) ∧
      (∀ (row : List (String × String)) (i : Nat) (v : String),
        recordGet row "node_order_id" = some v →
        sortWeight row i =
          match toNumeric (some v) with
          | some q => q
          | none => ((i + 1 : Nat) : Rat)) ∧
      (∀ (row : List (String × String)) (i : Nat),
        recordGet row "node_order_id" = none →
        sortWeight row i =
          match toNumeric (recordGet row "sequence_index") with
          | some q => q
          | none => ((i + 1 : Nat) : Rat)) := by
  refine ⟨List.perm_insertionSort ImportOrderLE _, ?_, ?_, ?_⟩
  · exact List.sorted_insertionSort ImportOrderLE _
  · intro row i v hv
    unfold sortWeight
    rw [hv]
  · intro row i hv
    unfold sortWeight
    rw [hv]

/-- Witness for the amended C8 statement: instantiate the sort
characterization at the concrete rows above, checking both fallback cases
of the key. -/
theorem import_sort_characterization_witness :
    (sortedNodeRecords demoOrderRows).Perm (nodeRecords demoOrderRows).enum ∧
      sortWeight [("node_order_id", "x"), ("sequence_index", "2")] 0 = ((1 : Nat) : Rat) ∧
      sortWeight [("sequence_index", "2")] 0 = ((2 : Nat) : Rat) :=
  ⟨(import_sort_characterization demoOrderRows).1,
   by
     rw [(import_sort_characterization demoOrderRows).2.2.1
       [("node_order_id", "x"), ("sequence_index", "2")] 0 "x" (by decide)]
     decide,
   by
     rw [(import_sort_characterization demoOrderRows).2.2.2
       [("sequence_index", "2")] 0 (by decide)]
     decide⟩

/-! ### Characterizing `seqGraph` and the Kahn loop -/

/-- The invariant carried by the adjacency/in-degree fold: endpoints of
recorded pairs are node ids, every neighbor list is duplicate-free, and the
in-degree of `t` counts the distinct sources pointing at it. -/
def SeqGraphInv (nodes : List FlowNode)
    (st : (String → List String) × (String → Int)) : Prop :=
  (∀ s t, t ∈ st.1 s → s ∈ nodeIds nodes ∧ t ∈ nodeIds nodes) ∧
    (∀ s, (st.1 s).Nodup) ∧
    (∀ t, st.2 t =
      (((nodeIds nodes).dedup).filter (fun s => decide (t ∈ st.1 s))).length)

lemma seqGraphStep_inv (nodes : List FlowNode)
    {st : (String → List String) × (String → Int)} (hinv : SeqGraphInv nodes st)
    (edge : FlowEdge) : SeqGraphInv nodes (seqGraphStep nodes st edge) := by
  obtain ⟨hmem, hnd, hcount⟩ := hinv
  unfold seqGraphStep
  by_cases hvalid : (hasNode nodes edge.source && hasNode nodes edge.target) = true
  · rw [if_pos hvalid]
    simp only [Bool.and_eq_true] at hvalid
    have hsrc : edge.source ∈ nodeIds nodes := hasNode_iff.mp hvalid.1
    have htgt : edge.target ∈ nodeIds nodes := hasNode_iff.mp hvalid.2
    by_cases hdup : edge.target ∈ st.1 edge.source
    · rw [if_pos hdup]
      exact ⟨hmem, hnd, hcount⟩
    · rw [if_neg hdup]
      refine ⟨?_, ?_, ?_⟩
      · intro s t ht
        dsimp only at ht
        by_cases hse : s = edge.source
        · subst hse
          rw [Function.update_same] at ht
          rcases List.mem_append.mp ht with h | h
          · exact hmem _ t h
          · simp only [List.mem_singleton] at h
            exact ⟨hsrc, h ▸ htgt⟩
        · rw [Function.update_noteq hse] at ht
          exact hmem s t ht
      · intro s
        dsimp only
        by_cases hse : s = edge.source
        · subst hse
          rw [Function.update_same]
          rw [List.nodup_append]
          refine ⟨hnd _, List.nodup_singleton _, ?_⟩
          intro u hu hus
          exact hdup (List.mem_singleton.mp hus ▸ hu)
        · rw [Function.update_noteq hse]
          exact hnd s
      · intro t
        dsimp only
        by_cases hte : t = edge.target
        · subst hte
          rw [Function.update_same, hcount edge.target]
          have hsplit : ∀ s, (decide (edge.target ∈ Function.update st.1 edge.source
              (st.1 edge.source ++ [edge.target]) s)) =
              (decide (edge.target ∈ st.1 s) || decide (s = edge.source)) := by
            intro s
            by_cases hse : s = edge.source
            · subst hse
              rw [Function.update_same]
              simp [hdup]
            · rw [Function.update_noteq hse]
              simp [hse]
          have hperm : ((nodeIds nodes).dedup).filter
              (fun s => decide (edge.target ∈ Function.update st.1 edge.source
                (st.1 edge.source ++ [edge.target]) s)) =
              ((nodeIds nodes).dedup).filter
                (fun s => decide (edge.target ∈ st.1 s) || decide (s = edge.source)) := by
            apply List.filter_congr
            intro s _
            exact hsplit s
          rw [hperm]
          have hcard : (((nodeIds nodes).dedup).filter
              (fun s => decide (edge.target ∈ st.1 s) || decide (s = edge.source))).length =
              (((nodeIds nodes).dedup).filter
                (fun s => decide (edge.target ∈ st.1 s))).length + 1 := by
            have hkey : ∀ (L : List String), L.Nodup → edge.source ∈ L →
                (L.filter (fun s => decide (edge.target ∈ st.1 s) ||
                  decide (s = edge.source))).length =
                (L.filter (fun s => decide (edge.target ∈ st.1 s))).length + 1 := by
              intro L
              induction L with
              | nil => intro _ h; cases h
              | cons a L ih =>
                intro hnodup hmem'
                rcases List.nodup_cons.mp hnodup with ⟨hnotin, hndL⟩
                rcases List.mem_cons.mp hmem' with heq | hmem''
                · subst heq
                  have hsfalse : decide (edge.target ∈ st.1 edge.source) = false := by
                    simp [hdup]
                  have hLeq : L.filter (fun s => decide (edge.target ∈ st.1 s) ||
                      decide (s = edge.source)) =
                      L.filter (fun s => decide (edge.target ∈ st.1 s)) := by
                    apply List.filter_congr
                    intro s hs
                    have hne : (s = edge.source) ↔ False :=
                      ⟨fun h => hnotin (h ▸ hs), False.elim⟩
                    simp [hne]
                  simp [List.filter_cons, hsfalse, hLeq]
                · have hne : (a = edge.source) ↔ False :=
                    ⟨fun h => hnotin (h ▸ hmem''), False.elim⟩
                  by_cases hta : decide (edge.target ∈ st.1 a) = true
                  · simp [List.filter_cons, hta, hne, ih hndL hmem'']
                  · rw [Bool.not_eq_true] at hta
                    simp [List.filter_cons, hta, hne, ih hndL hmem'']
            exact hkey _ (List.nodup_dedup _) (List.mem_dedup.mpr hsrc)
          rw [hcard]
          omega
        · rw [Function.update_noteq hte, hcount t]
          have hfeq : ((nodeIds nodes).dedup).filter (fun s => decide (t ∈
              Function.update st.1 edge.source (st.1 edge.source ++ [edge.target]) s)) =
              ((nodeIds nodes).dedup).filter (fun s => decide (t ∈ st.1 s)) := by
            apply List.filter_congr
            intro s _
            by_cases hse : s = edge.source
            · subst hse
              rw [Function.update_same]
              simp [List.mem_append, hte]
            · rw [Function.update_noteq hse]
          rw [hfeq]
  · rw [if_neg hvalid]
    exact ⟨hmem, hnd, hcount⟩

lemma seqGraph_spec (nodes : List FlowNode) (edges : List FlowEdge) :
    SeqGraphInv nodes (seqGraph nodes edges) := by
  have hbase : SeqGraphInv nodes (fun _ => [], fun _ => 0) := by
    refine ⟨fun s t ht => absurd ht (List.not_mem_nil t), fun s => List.nodup_nil, ?_⟩
    intro t
    simp
  suffices h : ∀ (l : List FlowEdge) (st), SeqGraphInv nodes st →
      SeqGraphInv nodes (l.foldl (seqGraphStep nodes) st) from
    h _ _ hbase
  intro l
  induction l with
  | nil => intro st h; exact h
  | cons e l ih =>
    intro st h
    exact ih _ (seqGraphStep_inv nodes h e)

lemma kahnNeighborFold_indeg :
    ∀ (nbs : List FlowNode) (indeg : String → Int) (avail : List FlowNode),
      (nbs.map FlowNode.id).Nodup →
      ∀ t, (nbs.foldl kahnNeighborStep (indeg, avail)).1 t =
        if t ∈ nbs.map FlowNode.id then indeg t - 1 else indeg t := by
  intro nbs
  induction nbs with
  | nil =>
    intro indeg avail _ t
    simp
  | cons nb nbs ih =>
    intro indeg avail hnd t
    rw [List.map_cons] at hnd
    rcases List.nodup_cons.mp hnd with ⟨hhead, htail⟩
    simp only [List.foldl_cons, kahnNeighborStep_mk]
    rw [ih _ _ htail t]
    by_cases htin : t ∈ nbs.map FlowNode.id
    · rw [if_pos htin, if_pos (by simp [htin])]
      rw [Function.update_noteq (fun h : t = nb.id => hhead (h ▸ htin))]
    · rw [if_neg htin]
      by_cases htnb : t = nb.id
      · subst htnb
        rw [Function.update_same, if_pos (by simp)]
      · rw [Function.update_noteq htnb, if_neg (by simp [htin, htnb])]

lemma kahnNeighborFold_avail :
    ∀ (nbs : List FlowNode) (indeg : String → Int) (avail : List FlowNode),
      (nbs.map FlowNode.id).Nodup →
      (nbs.foldl kahnNeighborStep (indeg, avail)).2.Perm
        (avail ++ nbs.filter (fun nb => decide (indeg nb.id = 1))) := by
  intro nbs
  induction nbs with
  | nil =>
    intro indeg avail _
    simp
  | cons nb nbs ih =>
    intro indeg avail hnd
    rw [List.map_cons] at hnd
    rcases List.nodup_cons.mp hnd with ⟨hhead, htail⟩
    simp only [List.foldl_cons, kahnNeighborStep_mk]
    have hfiltereq : nbs.filter (fun x => decide
        (Function.update indeg nb.id (indeg nb.id - 1) x.id = 1)) =
        nbs.filter (fun x => decide (indeg x.id = 1)) := by
      apply List.filter_congr
      intro x hx
      rw [Function.update_noteq
        (fun h : x.id = nb.id => hhead (h ▸ List.mem_map_of_mem _ hx))]
    by_cases hone : indeg nb.id = 1
    · rw [if_pos (by omega)]
      refine ((ih _ _ htail).trans ?_)
      rw [hfiltereq]
      have hsorted : (List.insertionSort NodeLE (avail ++ [nb])).Perm (avail ++ [nb]) :=
        List.perm_insertionSort NodeLE _
      refine (hsorted.append_right _).trans ?_
      rw [List.filter_cons, if_pos (by simp [hone]), List.append_assoc]
      rfl
    · rw [if_neg (by omega)]
      refine ((ih _ _ htail).trans ?_)
      rw [hfiltereq, List.filter_cons, if_neg (by simp [hone])]

/-- The ids of the looked-up neighbor nodes are the adjacency entries that
name existing nodes. -/
lemma filterMap_nodeById_ids (nodes : List FlowNode) :
    ∀ l : List String,
      (l.filterMap (nodeById nodes)).map FlowNode.id =
        l.filter (fun s => hasNode nodes s) := by
  intro l
  induction l with
  | nil => rfl
  | cons s l ih =>
    simp only [List.filterMap_cons, List.filter_cons]
    by_cases hh : hasNode nodes s = true
    · obtain ⟨n, hn⟩ := Option.isSome_iff_exists.mp hh
      rw [hn, if_pos hh]
      simp only [List.map_cons, ih]
      rw [(nodeById_eq_some hn).2]
    · have : nodeById nodes s = none := by
        rw [hasNode, Option.isSome_iff_exists] at hh
        push_neg at hh
        cases hcase : nodeById nodes s with
        | none => rfl
        | some n => exact absurd hcase (hh n)
      rw [this, if_neg hh, ih]

lemma counting_le {l L : List String} {p : String → Bool} (hnd : l.Nodup)
    (hsub : ∀ x ∈ l, x ∈ L) :
    (l.filter p).length ≤ (L.filter p).length :=
  ((hnd.filter p).subperm (fun x hx => by
    rw [List.mem_filter] at hx ⊢
    exact ⟨hsub x hx.1, hx.2⟩)).length_le

lemma counting_mem_of_le {l L : List String} {p : String → Bool} (hnd : l.Nodup)
    (hsub : ∀ x ∈ l, x ∈ L)
    (hlen : (L.filter p).length ≤ (l.filter p).length) :
    ∀ x ∈ L, p x = true → x ∈ l := by
  intro x hx hpx
  have hsp : (l.filter p).Subperm (L.filter p) :=
    (hnd.filter p).subperm (fun y hy => by
      rw [List.mem_filter] at hy ⊢
      exact ⟨hsub y hy.1, hy.2⟩)
  have hperm := hsp.perm_of_length_le hlen
  have : x ∈ l.filter p := hperm.mem_iff.mpr (List.mem_filter.mpr ⟨hx, hpx⟩)
  exact (List.mem_filter.mp this).1

lemma counting_exists_of_lt {l L : List String} {p : String → Bool} (hnd : l.Nodup)
    (hndL : L.Nodup) (hsub : ∀ x ∈ l, x ∈ L)
    (hlt : (l.filter p).length < (L.filter p).length) :
    ∃ x, x ∈ L ∧ p x = true ∧ x ∉ l := by
  by_contra hcontra
  push_neg at hcontra
  have hsub' : ∀ y ∈ L.filter p, y ∈ l.filter p := by
    intro y hy
    rw [List.mem_filter] at hy
    rw [List.mem_filter]
    exact ⟨hcontra y hy.1 hy.2, hy.2⟩
  have := ((hndL.filter p).subperm hsub').length_le
  omega

lemma indexOf_append_self {l : List String} {a : String} (h : a ∉ l) :
    (l ++ [a]).indexOf a = l.length := by
  induction l with
  | nil => simp [List.indexOf_cons]
  | cons b l ih =>
    rw [List.cons_append, List.indexOf_cons]
    have hne : (b == a) = false := by
      rw [beq_eq_false_iff_ne]
      intro hh
      exact h (hh ▸ List.mem_cons_self b l)
    rw [hne]
    simp only [cond_false, List.length_cons]
    rw [ih (fun hm => h (List.mem_cons_of_mem _ hm))]

/-- The invariant maintained by the Kahn loop.  `base` is the initial
in-degree table; `ordered` is the emitted prefix, `avail` the zero-degree
frontier. -/
def KahnInv (nodes : List FlowNode) (adj : String → List String)
    (base : String → Int) (avail : List FlowNode) (indeg : String → Int)
    (ordered : List String) : Prop :=
  (∀ n ∈ avail, n ∈ nodes) ∧
    (ordered ++ avail.map FlowNode.id).Nodup ∧
    (∀ s ∈ ordered, s ∈ nodeIds nodes) ∧
    (∀ n ∈ avail, indeg n.id ≤ 0) ∧
    (∀ s ∈ ordered, indeg s ≤ 0) ∧
    (∀ t, indeg t = base t -
      ((ordered.filter (fun s => decide (t ∈ adj s))).length : Int)) ∧
    (∀ n ∈ nodes, n.id ∉ ordered → n.id ∉ avail.map FlowNode.id → 0 < indeg n.id) ∧
    (∀ s t, t ∈ adj s → s ∈ nodeIds nodes → t ∈ ordered →
      s ∈ ordered ∧ ordered.indexOf s < ordered.indexOf t)

/-- Everything the claims need about a finished run of the Kahn loop: the
emitted list is duplicate-free, consists of node ids, every unemitted node
keeps an unemitted predecessor, and emission respects the edges. -/
lemma kahnLoopFuel_spec (nodes : List FlowNode) (adj : String → List String)
    (base : String → Int)
    (hadjmem : ∀ s t, t ∈ adj s → t ∈ nodeIds nodes)
    (hadjnd : ∀ s, (adj s).Nodup)
    (hbase : ∀ t, base t =
      (((nodeIds nodes).dedup.filter (fun s => decide (t ∈ adj s))).length : Int)) :
    ∀ (fuel : Nat) (avail : List FlowNode) (indeg : String → Int)
      (ordered : List String),
      avail.length + phiIndeg (nodeIds nodes).dedup indeg < fuel →
      KahnInv nodes adj base avail indeg ordered →
      (kahnLoopFuel nodes adj fuel avail indeg ordered).Nodup ∧
        (∀ s ∈ kahnLoopFuel nodes adj fuel avail indeg ordered, s ∈ nodeIds nodes) ∧
        (∀ n ∈ nodes, n.id ∉ kahnLoopFuel nodes adj fuel avail indeg ordered →
          ∃ p, p ∈ nodeIds nodes ∧ n.id ∈ adj p ∧
            p ∉ kahnLoopFuel nodes adj fuel avail indeg ordered) ∧
        (∀ s t, t ∈ adj s → s ∈ nodeIds nodes →
          t ∈ kahnLoopFuel nodes adj fuel avail indeg ordered →
          s ∈ kahnLoopFuel nodes adj fuel avail indeg ordered ∧
            (kahnLoopFuel nodes adj fuel avail indeg ordered).indexOf s <
              (kahnLoopFuel nodes adj fuel avail indeg ordered).indexOf t) := by
  intro fuel
  induction fuel with
  | zero =>
    intro avail indeg ordered hfuel _
    omega
  | succ fuel ih =>
    intro avail indeg ordered hfuel hinv
    obtain ⟨inv1, inv2, inv3, inv4, inv5, inv6, inv7, inv8⟩ := hinv
    match avail with
    | [] =>
      simp only [kahnLoopFuel]
      have hnd_ordered : ordered.Nodup := by simpa using inv2
      refine ⟨hnd_ordered, inv3, ?_, inv8⟩
      intro n hn hnotin
      have hpos : 0 < indeg n.id := inv7 n hn hnotin (by simp)
      have hcnt := inv6 n.id
      have hb := hbase n.id
      have hlt : ((ordered.filter (fun s => decide (n.id ∈ adj s))).length) <
          (((nodeIds nodes).dedup.filter (fun s => decide (n.id ∈ adj s))).length) := by
        omega
      obtain ⟨p, hpL, hpadj, hpnot⟩ := counting_exists_of_lt hnd_ordered
        (List.nodup_dedup _) (fun x hx => List.mem_dedup.mpr (inv3 x hx)) hlt
      exact ⟨p, List.mem_dedup.mp hpL, by simpa using hpadj, hpnot⟩
    | current :: rest =>
      simp only [kahnLoopFuel]
      -- Facts about the sorted neighbor list.
      have hnbs_perm0 : (List.insertionSort NodeLE
          ((adj current.id).filterMap (nodeById nodes))).Perm
          ((adj current.id).filterMap (nodeById nodes)) :=
        List.perm_insertionSort NodeLE _
      set nbs := List.insertionSort NodeLE
        ((adj current.id).filterMap (nodeById nodes)) with hnbs_def
      have hnbs_map_perm : (nbs.map FlowNode.id).Perm
          ((adj current.id).filter (fun s => hasNode nodes s)) := by
        rw [← filterMap_nodeById_ids nodes (adj current.id)]
        exact hnbs_perm0.map _
      have hnbs_ids_nodup : (nbs.map FlowNode.id).Nodup :=
        hnbs_map_perm.nodup_iff.mpr ((hadjnd current.id).filter _)
      have hnbs_ids_iff : ∀ t, t ∈ nbs.map FlowNode.id ↔ t ∈ adj current.id := by
        intro t
        rw [hnbs_map_perm.mem_iff, List.mem_filter]
        constructor
        · exact fun h => h.1
        · intro h
          exact ⟨h, hasNode_iff.mpr (hadjmem _ _ h)⟩
      have hnbs_mem_nodes : ∀ nb ∈ nbs, nb ∈ nodes := by
        intro nb hnb
        obtain ⟨s, _, hs⟩ := List.mem_filterMap.mp (hnbs_perm0.mem_iff.mp hnb)
        exact (nodeById_eq_some hs).1
      -- Characterize the fold.
      have hst1 := kahnNeighborFold_indeg nbs indeg rest hnbs_ids_nodup
      have hst2 := kahnNeighborFold_avail nbs indeg rest hnbs_ids_nodup
      set st := nbs.foldl kahnNeighborStep (indeg, rest) with hst_def
      set pushed := nbs.filter (fun nb => decide (indeg nb.id = 1)) with hpushed_def
      have hpushed_sub : ∀ m ∈ pushed, m ∈ nbs ∧ indeg m.id = 1 := by
        intro m hm
        rw [hpushed_def, List.mem_filter] at hm
        exact ⟨hm.1, by simpa using hm.2⟩
      -- Structure of the old nodup invariant.
      have inv2' : (ordered ++ current.id :: rest.map FlowNode.id).Nodup := by
        simpa using inv2
      rw [List.nodup_append] at inv2'
      obtain ⟨hnd_ordered, hnd_ar, hdisj_oa⟩ := inv2'
      rcases List.nodup_cons.mp hnd_ar with ⟨hcur_rest, hnd_rest_ids⟩
      have hcur_not_ordered : current.id ∉ ordered := fun h =>
        hdisj_oa h (List.mem_cons_self _ _)
      have hcur_nodes : current ∈ nodes := inv1 current (List.mem_cons_self _ _)
      have hcur_id_ids : current.id ∈ nodeIds nodes := List.mem_map_of_mem _ hcur_nodes
      -- All recorded predecessors of `current` are already emitted.
      have hpreds : ∀ s, s ∈ nodeIds nodes → current.id ∈ adj s → s ∈ ordered := by
        intro s hsids hsadj
        have hle : indeg current.id ≤ 0 := inv4 current (List.mem_cons_self _ _)
        have hcnt := inv6 current.id
        have hb := hbase current.id
        have hlen : (((nodeIds nodes).dedup.filter
            (fun s => decide (current.id ∈ adj s))).length) ≤
            ((ordered.filter (fun s => decide (current.id ∈ adj s))).length) := by
          omega
        exact counting_mem_of_le hnd_ordered
          (fun x hx => List.mem_dedup.mpr (inv3 x hx)) hlen s
          (List.mem_dedup.mpr hsids) (by simpa using hsadj)
      -- Membership shape of the new available list.
      have hst2_ids : (st.2.map FlowNode.id).Perm
          (rest.map FlowNode.id ++ pushed.map FlowNode.id) := by
        have := hst2.map FlowNode.id
        rwa [List.map_append] at this
      -- indeg facts applied to ids.
      have hindeg_le : ∀ t, st.1 t ≤ indeg t := by
        intro t
        rw [hst1 t]
        split <;> omega
      -- New invariant 1.
      have hinv1' : ∀ n ∈ st.2, n ∈ nodes := by
        intro n hn
        rcases List.mem_append.mp (hst2.mem_iff.mp hn) with h | h
        · exact inv1 n (List.mem_cons_of_mem _ h)
        · exact hnbs_mem_nodes n (hpushed_sub n h).1
      -- New invariant 2.
      have hinv2' : ((ordered ++ [current.id]) ++ st.2.map FlowNode.id).Nodup := by
        have hperm : ((ordered ++ [current.id]) ++ st.2.map FlowNode.id).Perm
            ((ordered ++ [current.id]) ++
              (rest.map FlowNode.id ++ pushed.map FlowNode.id)) :=
          hst2_ids.append_left _
        rw [hperm.nodup_iff]
        have hA : ((ordered ++ [current.id]) ++ rest.map FlowNode.id).Nodup := by
          have : (ordered ++ [current.id]) ++ rest.map FlowNode.id =
              ordered ++ current.id :: rest.map FlowNode.id := by
            rw [List.append_assoc]
            rfl
          rw [this, List.nodup_append]
          exact ⟨hnd_ordered, hnd_ar, hdisj_oa⟩
        have hpushed_nodup : (pushed.map FlowNode.id).Nodup := by
          have hsl : pushed.Sublist nbs := List.filter_sublist _
          exact (hsl.map FlowNode.id).nodup hnbs_ids_nodup
        have hpushed_pos : ∀ x ∈ pushed.map FlowNode.id, indeg x = 1 := by
          intro x hx
          obtain ⟨m, hm, hmx⟩ := List.mem_map.mp hx
          rw [← hmx]
          exact (hpushed_sub m hm).2
        rw [show (ordered ++ [current.id]) ++
            (rest.map FlowNode.id ++ pushed.map FlowNode.id) =
            ((ordered ++ [current.id]) ++ rest.map FlowNode.id) ++
              pushed.map FlowNode.id by simp [List.append_assoc]]
        rw [List.nodup_append]
        refine ⟨hA, hpushed_nodup, ?_⟩
        intro x hx hxp
        have hx1 : indeg x = 1 := hpushed_pos x hxp
        rcases List.mem_append.mp hx with hx' | hxr
        · rcases List.mem_append.mp hx' with hxo | hxc
          · have := inv5 x hxo
            omega
          · have hxc' : x = current.id := List.mem_singleton.mp hxc
            have := inv4 current (List.mem_cons_self _ _)
            rw [hxc'] at hx1
            omega
        · obtain ⟨n, hn, hnx⟩ := List.mem_map.mp hxr
          have := inv4 n (List.mem_cons_of_mem _ hn)
          rw [hnx] at this
          omega
      -- New invariants 3-8.
      have hinv3' : ∀ s ∈ ordered ++ [current.id], s ∈ nodeIds nodes := by
        intro s hs
        rcases List.mem_append.mp hs with h | h
        · exact inv3 s h
        · rw [List.mem_singleton.mp h]
          exact hcur_id_ids
      have hinv4' : ∀ n ∈ st.2, st.1 n.id ≤ 0 := by
        intro n hn
        rcases List.mem_append.mp (hst2.mem_iff.mp hn) with h | h
        · have := inv4 n (List.mem_cons_of_mem _ h)
          have := hindeg_le n.id
          omega
        · obtain ⟨hmn, hm1⟩ := hpushed_sub n h

          rw [hst1 n.id, if_pos (List.mem_map_of_mem _ hmn)]
          omega
      have hinv5' : ∀ s ∈ ordered ++ [current.id], st.1 s ≤ 0 := by
        intro s hs
        have hle := hindeg_le s
        rcases List.mem_append.mp hs with h | h
        · have := inv5 s h
          omega
        · rw [List.mem_singleton.mp h]
          have := inv4 current (List.mem_cons_self _ _)
          have := hindeg_le current.id
          omega
      have hinv6' : ∀ t, st.1 t = base t -
          (((ordered ++ [current.id]).filter (fun s => decide (t ∈ adj s))).length :
            Int) := by
        intro t
        rw [List.filter_append, List.length_append, hst1 t]
        have hsingle : (([current.id].filter (fun s => decide (t ∈ adj s))).length) =
            if t ∈ adj current.id then 1 else 0 := by
          by_cases hmem : t ∈ adj current.id
          · simp [hmem]
          · simp [hmem]
        rw [hsingle]
        have := inv6 t
        by_cases hin : t ∈ nbs.map FlowNode.id
        · rw [if_pos hin, if_pos ((hnbs_ids_iff t).mp hin)]
          push_cast
          omega
        · rw [if_neg hin, if_neg (fun hmem => hin ((hnbs_ids_iff t).mpr hmem))]
          push_cast
          omega
      have hinv7' : ∀ n ∈ nodes, n.id ∉ ordered ++ [current.id] →
          n.id ∉ st.2.map FlowNode.id → 0 < st.1 n.id := by
        intro n hn hno hna
        have hno' : n.id ∉ ordered := fun h => hno (List.mem_append.mpr (Or.inl h))
        have hnc : n.id ≠ current.id := fun h =>
          hno (List.mem_append.mpr (Or.inr (List.mem_singleton.mpr h)))
        have hnrest : n.id ∉ rest.map FlowNode.id := by
          intro h
          exact hna (hst2_ids.mem_iff.mpr (List.mem_append.mpr (Or.inl h)))
        have hnpushed : n.id ∉ pushed.map FlowNode.id := by
          intro h
          exact hna (hst2_ids.mem_iff.mpr (List.mem_append.mpr (Or.inr h)))
        have hold : 0 < indeg n.id := by
          refine inv7 n hn hno' ?_
          rw [List.map_cons]
          intro h
          rcases List.mem_cons.mp h with h' | h'
          · exact hnc h'
          · exact hnrest h'
        rw [hst1 n.id]
        by_cases hin : n.id ∈ nbs.map FlowNode.id
        · rw [if_pos hin]
          obtain ⟨m, hm, hmid⟩ := List.mem_map.mp hin
          have hne1 : indeg n.id ≠ 1 := by
            intro h1
            apply hnpushed
            have hmp : m ∈ pushed := by
              rw [hpushed_def, List.mem_filter]
              refine ⟨hm, ?_⟩
              rw [hmid, h1]
              simp
            rw [← hmid]
            exact List.mem_map_of_mem _ hmp
          omega
        · rw [if_neg hin]
          omega
      have hinv8' : ∀ s t, t ∈ adj s → s ∈ nodeIds nodes →
          t ∈ ordered ++ [current.id] →
          s ∈ ordered ++ [current.id] ∧
            (ordered ++ [current.id]).indexOf s <
              (ordered ++ [current.id]).indexOf t := by
        intro s t hadj hsids ht
        rcases List.mem_append.mp ht with hto | htc
        · obtain ⟨hso, hidx⟩ := inv8 s t hadj hsids hto
          refine ⟨List.mem_append.mpr (Or.inl hso), ?_⟩
          rw [List.indexOf_append_of_mem hso, List.indexOf_append_of_mem hto]
          exact hidx
        · have htc' : t = current.id := List.mem_singleton.mp htc
          subst htc'
          have hso : s ∈ ordered := hpreds s hsids hadj
          refine ⟨List.mem_append.mpr (Or.inl hso), ?_⟩
          rw [List.indexOf_append_of_mem hso, indexOf_append_self hcur_not_ordered]
          exact List.indexOf_lt_length.mpr hso
      -- Measure decrease and induction.
      have hmem_dedup : ∀ nb ∈ nbs, nb.id ∈ (nodeIds nodes).dedup := by
        intro nb hnb
        exact List.mem_dedup.mpr (List.mem_map_of_mem _ (hnbs_mem_nodes nb hnb))
      have hmeasure := kahnNeighborFold_measure (List.nodup_dedup _) nbs indeg rest
        hmem_dedup
      rw [← hst_def] at hmeasure
      simp only [List.length_cons] at hfuel
      apply ih st.2 st.1 (ordered ++ [current.id]) (by omega)
      exact ⟨hinv1', hinv2', hinv3', hinv4', hinv5', hinv6', hinv7', hinv8'⟩

lemma map_id_filter_comp (nodes : List FlowNode) (p : String → Bool) :
    (nodes.filter (fun n => p n.id)).map FlowNode.id =
      (nodes.map FlowNode.id).filter p := by
  induction nodes with
  | nil => rfl
  | cons n nodes ih =>
    simp only [List.filter_cons, List.map_cons]
    by_cases hp : p n.id = true
    · rw [if_pos hp, if_pos hp, List.map_cons, ih]
    · rw [if_neg hp, if_neg hp, ih]

/-- The conclusions of `kahnLoopFuel_spec` instantiated at `kahnOrder`'s
actual initial state. -/
lemma kahnOrder_spec (nodes : List FlowNode) (edges : List FlowEdge)
    (hnodup : (nodeIds nodes).Nodup) :
    (kahnOrder nodes edges).Nodup ∧
      (∀ s ∈ kahnOrder nodes edges, s ∈ nodeIds nodes) ∧
      (∀ n ∈ nodes, n.id ∉ kahnOrder nodes edges →
        ∃ p, p ∈ nodeIds nodes ∧ n.id ∈ (seqGraph nodes edges).1 p ∧
          p ∉ kahnOrder nodes edges) ∧
      (∀ s t, t ∈ (seqGraph nodes edges).1 s → s ∈ nodeIds nodes →
        t ∈ kahnOrder nodes edges →
        s ∈ kahnOrder nodes edges ∧
          (kahnOrder nodes edges).indexOf s < (kahnOrder nodes edges).indexOf t) := by
  obtain ⟨hmem, hnd, hcount⟩ := seqGraph_spec nodes edges
  have hadjmem : ∀ s t, t ∈ (seqGraph nodes edges).1 s → t ∈ nodeIds nodes :=
    fun s t ht => (hmem s t ht).2
  have havail_perm : (List.insertionSort NodeLE (nodes.filter
      (fun node => decide ((seqGraph nodes edges).2 node.id = 0)))).Perm
      (nodes.filter (fun node => decide ((seqGraph nodes edges).2 node.id = 0))) :=
    List.perm_insertionSort NodeLE _
  have hinv : KahnInv nodes (seqGraph nodes edges).1 (seqGraph nodes edges).2
      (List.insertionSort NodeLE (nodes.filter
        (fun node => decide ((seqGraph nodes edges).2 node.id = 0))))
      (seqGraph nodes edges).2 [] := by
    refine ⟨?_, ?_, ?_, ?_, ?_, ?_, ?_, ?_⟩
    · intro n hn
      exact (List.mem_filter.mp (havail_perm.mem_iff.mp hn)).1
    · rw [List.nil_append]
      have hperm := havail_perm.map FlowNode.id
      rw [hperm.nodup_iff,
        map_id_filter_comp nodes (fun s => decide ((seqGraph nodes edges).2 s = 0))]
      exact hnodup.filter _
    · intro s hs
      cases hs
    · intro n hn
      have := (List.mem_filter.mp (havail_perm.mem_iff.mp hn)).2
      simp only [decide_eq_true_eq] at this
      omega
    · intro s hs
      cases hs
    · intro t
      simp
    · intro n hn _ hnotavail
      have hge : 0 ≤ (seqGraph nodes edges).2 n.id := by
        rw [hcount n.id]
        positivity

      rcases lt_or_eq_of_le hge with h | h
      · exact h
      · exfalso
        apply hnotavail
        have : n ∈ nodes.filter (fun node =>
            decide ((seqGraph nodes edges).2 node.id = 0)) :=
          List.mem_filter.mpr ⟨hn, by simp [← h]⟩
        exact List.mem_map_of_mem _ (havail_perm.mem_iff.mpr this)
    · intro s t _ _ ht
      cases ht
  have hfuel : (List.insertionSort NodeLE (nodes.filter
      (fun node => decide ((seqGraph nodes edges).2 node.id = 0)))).length +
      phiIndeg (nodeIds nodes).dedup (seqGraph nodes edges).2 <
      (List.insertionSort NodeLE (nodes.filter
        (fun node => decide ((seqGraph nodes edges).2 node.id = 0)))).length +
        phiIndeg (nodeIds nodes).dedup (seqGraph nodes edges).2 + 1 := by
    omega
  exact kahnLoopFuel_spec nodes (seqGraph nodes edges).1 (seqGraph nodes edges).2
    hadjmem hnd hcount _ _ _ [] hfuel hinv

/-- `sequentialOrder` lists every node id exactly once. -/
lemma sequentialOrder_perm (nodes : List FlowNode) (edges : List FlowEdge)
    (hnodup : (nodeIds nodes).Nodup) :
    (sequentialOrder nodes edges).Perm (nodeIds nodes) ∧
      (sequentialOrder nodes edges).Nodup := by
  obtain ⟨hknd, hksub, _, _⟩ := kahnOrder_spec nodes edges hnodup
  unfold sequentialOrder
  by_cases hc : (kahnOrder nodes edges).length ≠ nodes.length
  · rw [if_pos hc]
    have htail_perm : ((List.insertionSort NodeLE (nodes.filter
        (fun node => decide (node.id ∉ kahnOrder nodes edges)))).map FlowNode.id).Perm
        ((nodeIds nodes).filter (fun s => decide (s ∉ kahnOrder nodes edges))) := by
      have := (List.perm_insertionSort NodeLE (nodes.filter
        (fun node => decide (node.id ∉ kahnOrder nodes edges)))).map FlowNode.id
      rwa [map_id_filter_comp nodes
        (fun s => decide (s ∉ kahnOrder nodes edges))] at this
    have hk_perm : (kahnOrder nodes edges).Perm
        ((nodeIds nodes).filter (fun s => decide (s ∈ kahnOrder nodes edges))) := by
      rw [List.perm_ext_iff_of_nodup hknd (hnodup.filter _)]
      intro a
      rw [List.mem_filter]
      constructor
      · intro h
        exact ⟨hksub a h, by simpa using h⟩
      · intro h
        simpa using h.2
    have hsplit : (((nodeIds nodes).filter
        (fun s => decide (s ∈ kahnOrder nodes edges))) ++
        ((nodeIds nodes).filter (fun s => decide (s ∉ kahnOrder nodes edges)))).Perm
        (nodeIds nodes) := by
      have := List.filter_append_perm
        (fun s => decide (s ∈ kahnOrder nodes edges)) (nodeIds nodes)
      refine List.Perm.trans ?_ this
      apply List.Perm.append_left
      apply List.Perm.of_eq
      apply List.filter_congr
      intro x _
      simp
    have hperm : (kahnOrder nodes edges ++
        ((List.insertionSort NodeLE (nodes.filter
          (fun node => decide (node.id ∉ kahnOrder nodes edges)))).map
            FlowNode.id)).Perm (nodeIds nodes) :=
      ((hk_perm.append htail_perm).trans hsplit)
    refine ⟨hperm, ?_⟩
    rw [List.nodup_append]
    refine ⟨hknd, htail_perm.nodup_iff.mpr ((hnodup.filter _)), ?_⟩
    intro a ha hat
    have := (List.mem_filter.mp (htail_perm.mem_iff.mp hat)).2
    simp only [decide_eq_true_eq] at this
    exact this ha
  · rw [if_neg hc]
    push_neg at hc
    have hsub : (kahnOrder nodes edges).Subperm (nodeIds nodes) :=
      hknd.subperm hksub
    have hperm : (kahnOrder nodes edges).Perm (nodeIds nodes) := by
      apply hsub.perm_of_length_le
      rw [hc]
      simp [nodeIds]
    exact ⟨hperm, hknd⟩

/-- Adjacency membership is exactly the existence of a valid sequential
edge. -/
lemma seqGraph_adj_iff (nodes : List FlowNode) (edges : List FlowEdge)
    (s t : String) :
    t ∈ (seqGraph nodes edges).1 s ↔
      ∃ e ∈ edges, isSequentialEdge e = true ∧ e.source = s ∧ e.target = t ∧
        hasNode nodes s = true ∧ hasNode nodes t = true := by
  have key : ∀ (l : List FlowEdge) (acc : (String → List String) × (String → Int)),
      (t ∈ (l.foldl (seqGraphStep nodes) acc).1 s ↔
        t ∈ acc.1 s ∨ ∃ e ∈ l, e.source = s ∧ e.target = t ∧
          hasNode nodes s = true ∧ hasNode nodes t = true) := by
    intro l
    induction l with
    | nil =>
      intro acc
      simp
    | cons e l ih =>
      intro acc
      simp only [List.foldl_cons]
      rw [ih]
      simp only [seqGraphStep]
      constructor
      · intro h
        rcases h with h | ⟨e', he', rest⟩
        · split at h
          case isTrue hval =>
            simp only [Bool.and_eq_true] at hval
            split at h
            · exact Or.inl h
            · dsimp only at h
              by_cases hse : e.source = s
              · subst hse
                rw [Function.update_same] at h
                rcases List.mem_append.mp h with h' | h'
                · exact Or.inl h'
                · refine Or.inr ⟨e, List.mem_cons_self _ _, rfl,
                    (List.mem_singleton.mp h').symm, hval.1, ?_⟩
                  rw [List.mem_singleton.mp h']
                  exact hval.2
              · rw [Function.update_noteq (fun h' => hse h'.symm)] at h
                exact Or.inl h
          case isFalse => exact Or.inl h
        · exact Or.inr ⟨e', List.mem_cons_of_mem _ he', rest⟩
      · intro h
        rcases h with h | ⟨e', he', hes, het, hs, ht⟩
        · left
          split
          case isTrue hval =>
            split
            · exact h
            · dsimp only
              by_cases hse : e.source = s
              · subst hse
                rw [Function.update_same]
                exact List.mem_append.mpr (Or.inl h)
              · rw [Function.update_noteq (fun h' => hse h'.symm)]
                exact h
          case isFalse => exact h
        · rcases List.mem_cons.mp he' with rfl | he''
          · left
            rw [hes, het]
            rw [if_pos (by simp [hs, ht])]
            by_cases hdup : t ∈ acc.1 s
            · rw [if_pos hdup]
              exact hdup
            · rw [if_neg hdup]
              dsimp only
              rw [Function.update_same]
              exact List.mem_append.mpr (Or.inr (List.mem_singleton.mpr rfl))
          · exact Or.inr ⟨e', he'', hes, het, hs, ht⟩
  unfold seqGraph
  rw [key]
  constructor
  · intro h
    rcases h with h | ⟨e, he, rest⟩
    · cases h
    · obtain ⟨he', hseq⟩ := List.mem_filter.mp he
      exact ⟨e, he', hseq, rest⟩
  · intro ⟨e, he, hseq, rest⟩
    exact Or.inr ⟨e, List.mem_filter.mpr ⟨he, hseq⟩, rest⟩

/-- C1: for every input the ordering returns (totally — the model is a
total function) lists containing each node id exactly once, in both the
display order and the engine order; `hasCycle` holds exactly when Kahn's
loop emitted fewer ids than there are nodes, and in that case the engine
order is the emitted prefix followed by the unemitted nodes sorted by the
tie-break comparator. -/
theorem ordering_total_and_cycle_fallback (nodes : List FlowNode)
    (edges : List FlowEdge) (hnodup : (nodeIds nodes).Nodup) :
    (computeFlowOrdering nodes edges).orderedNodeIds.Perm (nodeIds nodes) ∧
      (computeFlowOrdering nodes edges).sequentialOrderedNodeIds.Perm (nodeIds nodes) ∧
      ((computeFlowOrdering nodes edges).hasCycle = true ↔
        (kahnOrder nodes edges).length ≠ nodes.length) ∧
      ((computeFlowOrdering nodes edges).hasCycle = true →
        (computeFlowOrdering nodes edges).sequentialOrderedNodeIds =
          kahnOrder nodes edges ++
            (List.insertionSort NodeLE (nodes.filter
              (fun node => decide (node.id ∉ kahnOrder nodes edges)))).map
              FlowNode.id) := by
  refine ⟨?_, ?_, ?_, ?_⟩
  · show ((List.insertionSort (SeqLE _) nodes).map FlowNode.id).Perm (nodeIds nodes)
    exact (List.perm_insertionSort _ nodes).map FlowNode.id
  · exact (sequentialOrder_perm nodes edges hnodup).1
  · show (decide ((kahnOrder nodes edges).length ≠ nodes.length) = true) ↔ _
    exact decide_eq_true_iff
  · intro hc
    have hc' : (kahnOrder nodes edges).length ≠ nodes.length := by
      have : (decide ((kahnOrder nodes edges).length ≠ nodes.length) = true) := hc
      exact of_decide_eq_true this
    show sequentialOrder nodes edges = _
    unfold sequentialOrder
    rw [if_pos hc']

/-- Witness for C1 at the spec's cycle example: three nodes with a 2-cycle
`A → B → A`. -/
theorem ordering_total_witness :
    (nodeIds [demoNodeAat00, ⟨"B", 100, 0⟩, ⟨"C", 200, 0⟩]).Nodup ∧
      (computeFlowOrdering [demoNodeAat00, ⟨"B", 100, 0⟩, ⟨"C", 200, 0⟩]
        [⟨"e1", "A", "B", none, none, some ⟨some EdgeKind.sequential, none⟩⟩,
         ⟨"e2", "B", "A", none, none, some ⟨some EdgeKind.sequential, none⟩⟩]
        ).sequentialOrderedNodeIds.Perm
        (nodeIds [demoNodeAat00, ⟨"B", 100, 0⟩, ⟨"C", 200, 0⟩]) :=
  ⟨by decide,
   (ordering_total_and_cycle_fallback [demoNodeAat00, ⟨"B", 100, 0⟩, ⟨"C", 200, 0⟩]
      [⟨"e1", "A", "B", none, none, some ⟨some EdgeKind.sequential, none⟩⟩,
       ⟨"e2", "B", "A", none, none, some ⟨some EdgeKind.sequential, none⟩⟩]
      (by decide)).2.1⟩

/-! ### Acyclic graphs (C2) -/

/-- The one-step sequential reachability relation: a valid sequential edge
from `a` to `b`. -/
def seqEdgeRel (nodes : List FlowNode) (edges : List FlowEdge) (a b : String) : Prop :=
  ∃ e ∈ edges, isSequentialEdge e = true ∧ e.source = a ∧ e.target = b ∧
    hasNode nodes a = true ∧ hasNode nodes b = true

lemma seqGraph_adj_iff_rel (nodes : List FlowNode) (edges : List FlowEdge)
    (s t : String) :
    t ∈ (seqGraph nodes edges).1 s ↔ seqEdgeRel nodes edges s t :=
  seqGraph_adj_iff nodes edges s t

/-- A rank function strictly increasing along a relation makes its
transitive closure irreflexive (used to certify acyclicity of concrete
graphs). -/
lemma irrefl_transGen_of_rank {α : Type} (rel : α → α → Prop) (rank : α → Nat)
    (h : ∀ a b, rel a b → rank a < rank b) :
    Irreflexive (Relation.TransGen rel) := by
  have hmono : ∀ a b, Relation.TransGen rel a b → rank a < rank b := by
    intro a b htg
    induction htg with
    | single h' => exact h _ _ h'
    | tail _ h' ih => exact lt_trans ih (h _ _ h')
  intro a ha
  exact lt_irrefl _ (hmono a a ha)

/-- On an acyclic sequential graph, Kahn's loop emits every node. -/
lemma kahnOrder_complete (nodes : List FlowNode) (edges : List FlowEdge)
    (hnodup : (nodeIds nodes).Nodup)
    (hacyc : Irreflexive (Relation.TransGen (seqEdgeRel nodes edges))) :
    (kahnOrder nodes edges).length = nodes.length := by
  by_contra hne
  obtain ⟨hknd, hksub, hpred, _⟩ := kahnOrder_spec nodes edges hnodup
  have hexists : ∃ n ∈ nodes, n.id ∉ kahnOrder nodes edges := by
    by_contra hall
    push_neg at hall
    have hsub : ∀ s ∈ nodeIds nodes, s ∈ kahnOrder nodes edges := by
      intro s hs
      obtain ⟨n, hn, hid⟩ := List.mem_map.mp hs
      exact hid ▸ hall n hn
    have hperm : (kahnOrder nodes edges).Perm (nodeIds nodes) := by
      rw [List.perm_ext_iff_of_nodup hknd hnodup]
      exact fun a => ⟨fun h => hksub a h, fun h => hsub a h⟩
    have : (kahnOrder nodes edges).length = (nodeIds nodes).length := hperm.length_eq
    simp only [nodeIds, List.length_map] at this
    exact hne this
  obtain ⟨n₀, hn₀, hn₀k⟩ := hexists
  have hstep : ∀ s ∈ (nodeIds nodes).filter
      (fun s => decide (s ∉ kahnOrder nodes edges)),
      ∃ p ∈ (nodeIds nodes).filter (fun s => decide (s ∉ kahnOrder nodes edges)),
        seqEdgeRel nodes edges p s := by
    intro s hs
    rw [List.mem_filter] at hs
    obtain ⟨hsids, hsk⟩ := hs
    simp only [decide_eq_true_eq] at hsk
    obtain ⟨n, hn, hnid⟩ := List.mem_map.mp hsids
    obtain ⟨p, hpids, hpadj, hpk⟩ := hpred n hn (hnid ▸ hsk)
    refine ⟨p, List.mem_filter.mpr ⟨hpids, by simpa using hpk⟩, ?_⟩
    rw [← seqGraph_adj_iff_rel]
    exact hnid ▸ hpadj
  set S := (nodeIds nodes).filter (fun s => decide (s ∉ kahnOrder nodes edges))
    with hS_def
  have hn₀S : n₀.id ∈ S.toFinset := by
    rw [List.mem_toFinset, hS_def, List.mem_filter]
    exact ⟨List.mem_map_of_mem _ hn₀, by simpa using hn₀k⟩
  let rel' : {x // x ∈ S.toFinset} → {x // x ∈ S.toFinset} → Prop :=
    fun a b => Relation.TransGen (seqEdgeRel nodes edges) a.1 b.1
  haveI : IsTrans {x // x ∈ S.toFinset} rel' :=
    ⟨fun _ _ _ hab hbc => Relation.TransGen.trans hab hbc⟩
  haveI : IsIrrefl {x // x ∈ S.toFinset} rel' := ⟨fun a ha => hacyc a.1 ha⟩
  have hwf : WellFounded rel' := Finite.wellFounded_of_trans_of_irrefl rel'
  obtain ⟨m, _, hmin⟩ := hwf.has_min Set.univ ⟨⟨n₀.id, hn₀S⟩, Set.mem_univ _⟩
  obtain ⟨p, hpS, hprel⟩ := hstep m.1 (List.mem_toFinset.mp m.2)
  exact hmin ⟨p, List.mem_toFinset.mpr hpS⟩ (Set.mem_univ _)
    (Relation.TransGen.single hprel)

/-- C2: on an acyclic sequential graph the ordering emits every node
exactly once, reports no cycle, and the engine order (the topological
output of §4.2) places every valid sequential edge's source before its
target. -/
theorem acyclic_ordering_is_topological (nodes : List FlowNode)
    (edges : List FlowEdge) (hnodup : (nodeIds nodes).Nodup)
    (hacyc : Irreflexive (Relation.TransGen (seqEdgeRel nodes edges))) :
    (computeFlowOrdering nodes edges).hasCycle = false ∧
      (computeFlowOrdering nodes edges).sequentialOrderedNodeIds.Perm
        (nodeIds nodes) ∧
      (computeFlowOrdering nodes edges).orderedNodeIds.Perm (nodeIds nodes) ∧
      ∀ e ∈ edges, isSequentialEdge e = true → e.source ∈ nodeIds nodes →
        e.target ∈ nodeIds nodes →
        (computeFlowOrdering nodes edges).sequentialOrderedNodeIds.indexOf
            e.source <
          (computeFlowOrdering nodes edges).sequentialOrderedNodeIds.indexOf
            e.target := by
  have hcomplete := kahnOrder_complete nodes edges hnodup hacyc
  obtain ⟨hknd, hksub, _, htopo⟩ := kahnOrder_spec nodes edges hnodup
  have hseq_eq : sequentialOrder nodes edges = kahnOrder nodes edges := by
    unfold sequentialOrder
    rw [if_neg (by omega)]
  have hkperm : (kahnOrder nodes edges).Perm (nodeIds nodes) := by
    apply (hknd.subperm hksub).perm_of_length_le
    rw [hcomplete]
    simp [nodeIds]
  refine ⟨?_, ?_, ?_, ?_⟩
  · show decide ((kahnOrder nodes edges).length ≠ nodes.length) = false
    simp [hcomplete]
  · show (sequentialOrder nodes edges).Perm (nodeIds nodes)
    rw [hseq_eq]
    exact hkperm
  · exact (List.perm_insertionSort _ nodes).map FlowNode.id
  · intro e he hseq hs ht
    show (sequentialOrder nodes edges).indexOf e.source <
      (sequentialOrder nodes edges).indexOf e.target
    rw [hseq_eq]
    have hadj : e.target ∈ (seqGraph nodes edges).1 e.source := by
      rw [seqGraph_adj_iff_rel]
      exact ⟨e, he, hseq, rfl, rfl, hasNode_iff.mpr hs, hasNode_iff.mpr ht⟩
    have htK : e.target ∈ kahnOrder nodes edges := hkperm.mem_iff.mpr ht
    exact (htopo e.source e.target hadj hs htK).2

/-- Witness for C2 at the spec's basic example: `A(0,0)`, `B(100,0)`,
sequential edge `A → B`. -/
theorem acyclic_ordering_witness :
    (nodeIds [demoNodeAat00, ⟨"B", 100, 0⟩]).Nodup ∧
      (computeFlowOrdering [demoNodeAat00, ⟨"B", 100, 0⟩]
          [⟨"e1", "A", "B", none, none, some ⟨some EdgeKind.sequential, none⟩⟩]
        ).hasCycle = false :=
  ⟨by decide,
   (acyclic_ordering_is_topological [demoNodeAat00, ⟨"B", 100, 0⟩]
      [⟨"e1", "A", "B", none, none, some ⟨some EdgeKind.sequential, none⟩⟩]
      (by decide)
      (irrefl_transGen_of_rank _ (fun s => if s = "A" then 0 else 1)
        (by
          rintro a b ⟨e, he, -, hes, het, -, -⟩
          rw [List.mem_singleton] at he
          subst he
          subst hes
          subst het
          decide))).1⟩

/-! ### Sequence numbers as ranks (C7)

`computeFlowOrdering` first assigns each id its 1-based index in the
sequential order, then lets every parallel component adopt the minimum
number among its members, and finally re-sorts the nodes by the resulting
numbers.  Without parallel edges the grouping pass is a no-op and the
re-sort reproduces the sequential order, so the sequence number is exactly
the 1-based rank in the returned `orderedNodeIds`; a parallel component
breaks this, since its non-minimal members keep a number smaller than
their rank. -/

lemma parAdj_foldl_const (nodes : List FlowNode) :
    ∀ l : List FlowEdge, (∀ e ∈ l, isParallelEdge e = false) →
      ∀ acc : String → List String, l.foldl (parAdjStep nodes) acc = acc := by
  intro l
  induction l with
  | nil => intro _ acc; rfl
  | cons e l ih =>
    intro h acc
    rw [List.foldl_cons]
    have hstep : parAdjStep nodes acc e = acc := by
      unfold parAdjStep
      rw [h e (List.mem_cons_self _ _)]
      simp
    rw [hstep]
    exact ih (fun e' he' => h e' (List.mem_cons_of_mem _ he')) acc

lemma parAdj_no_parallel (nodes : List FlowNode) (edges : List FlowEdge)
    (h : ∀ e ∈ edges, isParallelEdge e = false) :
    parAdj nodes edges = fun _ => [] :=
  parAdj_foldl_const nodes edges h _

lemma parallelOuter_foldl_snd (nodes : List FlowNode) (edges : List FlowEdge)
    (hadj : ∀ s, parAdj nodes edges s = []) :
    ∀ (l : List FlowNode)
      (st : List String × List (List String) × (String → Option String)),
      (l.foldl (parallelOuterStep nodes edges) st).2 = st.2 := by
  intro l
  induction l with
  | nil => intro st; rfl
  | cons n l ih =>
    intro st
    rw [List.foldl_cons, ih]
    unfold parallelOuterStep
    by_cases hv : n.id ∈ st.1
    · rw [if_pos hv]
    · rw [if_neg hv]
      simp [hadj]

/-- Without parallel edges, `computeParallelGroups` finds no component and
assigns no group. -/
lemma computeParallelGroups_no_parallel (nodes : List FlowNode)
    (edges : List FlowEdge) (h : ∀ e ∈ edges, isParallelEdge e = false) :
    computeParallelGroups nodes edges =
      { parallelGroupByNodeId := fun _ => none, componentNodeIds := [] } := by
  have hadj : ∀ s, parAdj nodes edges s = [] := by
    intro s
    rw [parAdj_no_parallel nodes edges h]
  have hsnd := parallelOuter_foldl_snd nodes edges hadj
    (List.insertionSort NodeLE nodes) ([], [], fun _ => none)
  simp only [computeParallelGroups]
  rw [hsnd]
  rfl

lemma foldl_nodeById_of_none (s : String) :
    ∀ (l : List FlowNode) (acc : Option FlowNode), (∀ m ∈ l, m.id ≠ s) →
      l.foldl (fun acc n => if n.id = s then some n else acc) acc = acc := by
  intro l
  induction l with
  | nil => intro acc _; rfl
  | cons a l ih =>
    intro acc h
    rw [List.foldl_cons, if_neg (h a (List.mem_cons_self _ _))]
    exact ih acc (fun m hm => h m (List.mem_cons_of_mem _ hm))

/-- With unique ids, looking a member node up by its own id finds it. -/
lemma nodeById_mem_nodup :
    ∀ nodes : List FlowNode, (nodeIds nodes).Nodup →
      ∀ n ∈ nodes, nodeById nodes n.id = some n := by
  intro nodes
  induction nodes with
  | nil => intro _ n hn; cases hn
  | cons a l ih =>
    intro hnodup n hn
    have hna : a.id ∉ nodeIds l := (List.nodup_cons.mp hnodup).1
    rcases List.mem_cons.mp hn with heq | hm
    · subst heq
      unfold nodeById
      rw [List.foldl_cons, if_pos rfl]
      exact foldl_nodeById_of_none n.id l (some n)
        (fun m hm hid => hna (hid ▸ List.mem_map_of_mem FlowNode.id hm))
    · have hane : a.id ≠ n.id :=
        fun hh => hna (hh ▸ List.mem_map_of_mem FlowNode.id hm)
      unfold nodeById
      rw [List.foldl_cons, if_neg hane]
      exact ih (List.nodup_cons.mp hnodup).2 n hm

lemma baseSequence_append (l : List String) (a : String) :
    baseSequence (l ++ [a]) =
      Function.update (baseSequence l) a (some (l.length + 1)) := by
  unfold baseSequence
  rw [List.enum_append, List.foldl_append]
  rfl

/-- On a duplicate-free id list, `baseSequence` is the 1-based rank. -/
lemma baseSequence_eq_of_nodup :
    ∀ l : List String, l.Nodup → ∀ s,
      baseSequence l s = if s ∈ l then some (l.indexOf s + 1) else none := by
  intro l
  induction l using List.reverseRecOn with
  | nil => intro _ s; simp [baseSequence]
  | append_singleton l a ih =>
    intro hnd s
    have hparts := List.nodup_append.mp hnd
    have hna : a ∉ l := fun hm => hparts.2.2 hm (List.mem_singleton_self a)
    rw [baseSequence_append]
    by_cases hsa : s = a
    · subst hsa
      rw [Function.update_same,
        if_pos (List.mem_append.mpr (Or.inr (List.mem_singleton_self s))),
        indexOf_append_self hna]
    · rw [Function.update_noteq hsa, ih hparts.1 s]
      by_cases hsl : s ∈ l
      · rw [if_pos hsl, if_pos (List.mem_append.mpr (Or.inl hsl)),
          List.indexOf_append_of_mem hsl]
      · rw [if_neg hsl, if_neg (fun hm => by
          rcases List.mem_append.mp hm with hh | hh
          · exact hsl hh
          · exact hsa (List.mem_singleton.mp hh))]

lemma baseSequence_getElem {l : List String} (hnd : l.Nodup) {i : Nat}
    (hi : i < l.length) : baseSequence l l[i] = some (i + 1) := by
  rw [baseSequence_eq_of_nodup l hnd, if_pos (List.getElem_mem hi),
    List.indexOf_getElem hnd i hi]

instance (seqMap : String → Option Nat) : IsTotal FlowNode (SeqLE seqMap) :=
  ⟨fun a b => by
    unfold SeqLE
    by_cases h : (seqMap a.id).getD MAX_SAFE_INTEGER =
        (seqMap b.id).getD MAX_SAFE_INTEGER
    · rw [if_neg (not_not_intro h), if_neg (not_not_intro h.symm)]
      exact IsTotal.total a b
    · rcases Nat.le_total ((seqMap a.id).getD MAX_SAFE_INTEGER)
        ((seqMap b.id).getD MAX_SAFE_INTEGER) with hle | hle
      · left
        rw [if_pos h]
        exact hle
      · right
        rw [if_pos (Ne.symm h)]
        exact hle⟩

instance (seqMap : String → Option Nat) : IsTrans FlowNode (SeqLE seqMap) :=
  ⟨fun a b c hab hbc => by
    unfold SeqLE at hab hbc ⊢
    by_cases hxy : (seqMap a.id).getD MAX_SAFE_INTEGER =
        (seqMap b.id).getD MAX_SAFE_INTEGER <;>
      by_cases hyz : (seqMap b.id).getD MAX_SAFE_INTEGER =
        (seqMap c.id).getD MAX_SAFE_INTEGER
    · rw [if_neg (not_not_intro hxy)] at hab
      rw [if_neg (not_not_intro hyz)] at hbc
      rw [if_neg (not_not_intro (hxy.trans hyz))]
      exact IsTrans.trans a b c hab hbc
    · rw [if_pos hyz] at hbc
      rw [if_pos (fun hh : _ = _ => hyz ((hxy.symm.trans hh)))]
      omega
    · rw [if_pos hxy] at hab
      rw [if_pos (fun hh : _ = _ => hxy (hh.trans hyz.symm))]
      omega
    · rw [if_pos hxy] at hab
      rw [if_pos hyz] at hbc
      rw [if_pos (by omega)]
      omega⟩

instance (seqMap : String → Option Nat) : IsAntisymm FlowNode (SeqLE seqMap) :=
  ⟨fun a b hab hba => by
    unfold SeqLE at hab hba
    by_cases h : (seqMap a.id).getD MAX_SAFE_INTEGER =
        (seqMap b.id).getD MAX_SAFE_INTEGER
    · rw [if_neg (not_not_intro h)] at hab
      rw [if_neg (not_not_intro h.symm)] at hba
      exact IsAntisymm.antisymm a b hab hba
    · rw [if_pos h] at hab
      rw [if_pos (Ne.symm h)] at hba
      exact absurd (Nat.le_antisymm hab hba) h⟩

/-- Re-sorting the nodes by the 1-based ranks of an ordered id list (a
permutation of the unique node ids) reproduces that list. -/
lemma insertionSort_seqLE_rank (nodes : List FlowNode) (ordered : List String)
    (hnodup : (nodeIds nodes).Nodup) (hperm : ordered.Perm (nodeIds nodes)) :
    (List.insertionSort (SeqLE (baseSequence ordered)) nodes).map FlowNode.id =
      ordered := by
  have hond : ordered.Nodup := hperm.nodup_iff.mpr hnodup
  have hmap : (ordered.filterMap (nodeById nodes)).map FlowNode.id = ordered := by
    rw [filterMap_nodeById_ids]
    apply List.filter_eq_self.mpr
    intro s hs
    exact hasNode_iff.mpr (hperm.subset hs)
  have hNnodup : (ordered.filterMap (nodeById nodes)).Nodup := by
    apply List.Nodup.of_map FlowNode.id
    rw [hmap]
    exact hond
  have hnodes_nodup : nodes.Nodup := List.Nodup.of_map FlowNode.id hnodup
  have hperm_nodes : (ordered.filterMap (nodeById nodes)).Perm nodes := by
    rw [List.perm_ext_iff_of_nodup hNnodup hnodes_nodup]
    intro n
    constructor
    · intro hn
      obtain ⟨s, _, hsome⟩ := List.mem_filterMap.mp hn
      exact (nodeById_eq_some hsome).1
    · intro hn
      exact List.mem_filterMap.mpr
        ⟨n.id, hperm.mem_iff.mpr (List.mem_map_of_mem FlowNode.id hn),
          nodeById_mem_nodup nodes hnodup n hn⟩
  have hlen : ordered.length = (ordered.filterMap (nodeById nodes)).length := by
    conv_lhs => rw [← hmap]
    rw [List.length_map]
  have hval : ∀ (k : Nat) (hk : k < (ordered.filterMap (nodeById nodes)).length),
      baseSequence ordered ((ordered.filterMap (nodeById nodes)).get ⟨k, hk⟩).id =
        some (k + 1) := by
    intro k hk
    have hk2 : k < ordered.length := by omega
    have h1 := List.getElem_of_eq hmap (by rw [List.length_map]; exact hk)
    rw [List.getElem_map] at h1
    rw [List.get_eq_getElem, h1]
    exact baseSequence_getElem hond hk2
  have hsorted : List.Sorted (SeqLE (baseSequence ordered))
      (ordered.filterMap (nodeById nodes)) := by
    show List.Pairwise _ _
    rw [List.pairwise_iff_getElem]
    intro i j hi hj hij
    have hvi := hval i hi
    have hvj := hval j hj
    rw [List.get_eq_getElem] at hvi hvj
    unfold SeqLE
    rw [hvi, hvj]
    simp only [Option.getD_some]
    rw [if_pos (by omega)]
    omega
  have hSperm : (List.insertionSort (SeqLE (baseSequence ordered)) nodes).Perm
      (ordered.filterMap (nodeById nodes)) :=
    (List.perm_insertionSort _ nodes).trans hperm_nodes.symm
  rw [List.eq_of_perm_of_sorted hSperm
    (List.sorted_insertionSort _ nodes) hsorted, hmap]

set_option maxRecDepth 1000000 in
/-- C7 counterexample: with the parallel edge `A – B`, both nodes adopt the
minimum sequence number 1, yet `B` has rank 2 in the returned
`orderedNodeIds` list `["A", "B"]`. -/
theorem sequence_rank_counterexample :
    (computeFlowOrdering [demoNodeAat00, ⟨"B", 100, 0⟩]
        [⟨"p2", "A", "B", none, none, some ⟨some EdgeKind.parallel, none⟩⟩]
      ).orderedNodeIds = ["A", "B"] ∧
    (computeFlowOrdering [demoNodeAat00, ⟨"B", 100, 0⟩]
        [⟨"p2", "A", "B", none, none, some ⟨some EdgeKind.parallel, none⟩⟩]
      ).sequenceByNodeId "B" = some 1 ∧
    some ((computeFlowOrdering [demoNodeAat00, ⟨"B", 100, 0⟩]
        [⟨"p2", "A", "B", none, none, some ⟨some EdgeKind.parallel, none⟩⟩]
      ).orderedNodeIds.indexOf "B" + 1) = some 2 := by
  refine ⟨by decide, by decide, by decide⟩

/-- C7 (amended): without parallel edges the sequence number of every node
is its 1-based rank in the returned `orderedNodeIds` list. -/
theorem sequence_number_is_rank_without_parallel (nodes : List FlowNode)
    (edges : List FlowEdge) (hnodup : (nodeIds nodes).Nodup)
    (hnopar : ∀ e ∈ edges, isParallelEdge e = false) :
    ∀ n ∈ nodes,
      (computeFlowOrdering nodes edges).sequenceByNodeId n.id =
        some ((computeFlowOrdering nodes edges).orderedNodeIds.indexOf n.id
          + 1) := by
  intro n hn
  have hgroups := computeParallelGroups_no_parallel nodes edges hnopar
  obtain ⟨hperm, hond⟩ := sequentialOrder_perm nodes edges hnodup
  have hseqmap : (computeFlowOrdering nodes edges).sequenceByNodeId =
      baseSequence (sequentialOrder nodes edges) := by
    show (computeParallelGroups nodes edges).componentNodeIds.foldl
        normalizeComponentStep (baseSequence (sequentialOrder nodes edges)) =
      baseSequence (sequentialOrder nodes edges)
    rw [hgroups]
    rfl
  have hord : (computeFlowOrdering nodes edges).orderedNodeIds =
      sequentialOrder nodes edges := by
    show (List.insertionSort
        (SeqLE ((computeFlowOrdering nodes edges).sequenceByNodeId)) nodes).map
          FlowNode.id = sequentialOrder nodes edges
    rw [hseqmap]
    exact insertionSort_seqLE_rank nodes _ hnodup hperm
  have hmem : n.id ∈ sequentialOrder nodes edges :=
    hperm.mem_iff.mpr (List.mem_map_of_mem FlowNode.id hn)
  rw [hseqmap, hord, baseSequence_eq_of_nodup _ hond, if_pos hmem]

set_option maxRecDepth 1000000 in
/-- Witness instantiating the amended C7 statement on `A(0,0)`, `B(100,0)`
with a sequential edge `A → B`. -/
theorem sequence_number_rank_witness :
    (computeFlowOrdering [demoNodeAat00, ⟨"B", 100, 0⟩]
        [⟨"e2", "A", "B", none, none, some ⟨some EdgeKind.sequential, none⟩⟩]
      ).sequenceByNodeId "B" =
      some ((computeFlowOrdering [demoNodeAat00, ⟨"B", 100, 0⟩]
        [⟨"e2", "A", "B", none, none, some ⟨some EdgeKind.sequential, none⟩⟩]
      ).orderedNodeIds.indexOf "B" + 1) :=
  sequence_number_is_rank_without_parallel [demoNodeAat00, ⟨"B", 100, 0⟩]
    [⟨"e2", "A", "B", none, none, some ⟨some EdgeKind.sequential, none⟩⟩]
    (by decide) (by decide) ⟨"B", 100, 0⟩ (by decide)

/-! ### Determinism under input presentation (C9)

Permuting the node and edge arrays never changes the result: every list the
algorithm iterates over is either sorted first (nodes by the tie-break
comparator, neighbor sets by id) or consumed with set semantics (adjacency
membership, in-degree counts), so only the underlying sets matter. -/

lemma nodeById_eq_none {nodes : List FlowNode} {s : String}
    (h : s ∉ nodeIds nodes) : nodeById nodes s = none := by
  cases hcase : nodeById nodes s with
  | none => rfl
  | some n =>
    obtain ⟨hm, hid⟩ := nodeById_eq_some hcase
    exact absurd (hid ▸ List.mem_map_of_mem FlowNode.id hm) h

lemma nodeById_perm_eq {nodes₁ nodes₂ : List FlowNode} (hp : nodes₁.Perm nodes₂)
    (hnodup : (nodeIds nodes₁).Nodup) : nodeById nodes₁ = nodeById nodes₂ := by
  have hnodup₂ : (nodeIds nodes₂).Nodup := (hp.map FlowNode.id).nodup_iff.mp hnodup
  funext s
  by_cases hs : s ∈ nodeIds nodes₁
  · obtain ⟨n, hm, hid⟩ := List.mem_map.mp hs
    subst hid
    rw [nodeById_mem_nodup nodes₁ hnodup n hm,
      nodeById_mem_nodup nodes₂ hnodup₂ n (hp.mem_iff.mp hm)]
  · rw [nodeById_eq_none hs,
      nodeById_eq_none (fun hh => hs ((hp.map FlowNode.id).mem_iff.mpr hh))]

lemma hasNode_perm_eq {nodes₁ nodes₂ : List FlowNode} (hp : nodes₁.Perm nodes₂)
    (hnodup : (nodeIds nodes₁).Nodup) : hasNode nodes₁ = hasNode nodes₂ := by
  funext s
  unfold hasNode
  rw [nodeById_perm_eq hp hnodup]

/-- A sort with an antisymmetric comparator is canonical: permuted inputs
sort to the same list. -/
lemma insertionSort_eq_of_perm {α : Type} (r : α → α → Prop) [DecidableRel r]
    [IsTotal α r] [IsTrans α r] [IsAntisymm α r] {l₁ l₂ : List α}
    (h : l₁.Perm l₂) : List.insertionSort r l₁ = List.insertionSort r l₂ :=
  List.eq_of_perm_of_sorted
    ((List.perm_insertionSort r l₁).trans
      (h.trans (List.perm_insertionSort r l₂).symm))
    (List.sorted_insertionSort r l₁) (List.sorted_insertionSort r l₂)

lemma seqGraph_adj_perm {nodes₁ nodes₂ : List FlowNode}
    {edges₁ edges₂ : List FlowEdge} (hn : nodes₁.Perm nodes₂)
    (he : edges₁.Perm edges₂) (hnodup : (nodeIds nodes₁).Nodup) (s : String) :
    ((seqGraph nodes₁ edges₁).1 s).Perm ((seqGraph nodes₂ edges₂).1 s) := by
  rw [List.perm_ext_iff_of_nodup ((seqGraph_spec nodes₁ edges₁).2.1 s)
    ((seqGraph_spec nodes₂ edges₂).2.1 s)]
  intro t
  rw [seqGraph_adj_iff, seqGraph_adj_iff]
  have hh := hasNode_perm_eq hn hnodup
  constructor
  · rintro ⟨e, hee, h1, h2, h3, h4, h5⟩
    rw [hh] at h4 h5
    exact ⟨e, he.mem_iff.mp hee, h1, h2, h3, h4, h5⟩
  · rintro ⟨e, hee, h1, h2, h3, h4, h5⟩
    rw [← hh] at h4 h5
    exact ⟨e, he.mem_iff.mpr hee, h1, h2, h3, h4, h5⟩

lemma seqGraph_indeg_eq {nodes₁ nodes₂ : List FlowNode}
    {edges₁ edges₂ : List FlowEdge} (hn : nodes₁.Perm nodes₂)
    (he : edges₁.Perm edges₂) (hnodup : (nodeIds nodes₁).Nodup) :
    (seqGraph nodes₁ edges₁).2 = (seqGraph nodes₂ edges₂).2 := by
  funext t
  rw [(seqGraph_spec nodes₁ edges₁).2.2 t, (seqGraph_spec nodes₂ edges₂).2.2 t]
  have h1 : ((nodeIds nodes₁).dedup).filter
      (fun s => decide (t ∈ (seqGraph nodes₁ edges₁).1 s)) =
      ((nodeIds nodes₁).dedup).filter
        (fun s => decide (t ∈ (seqGraph nodes₂ edges₂).1 s)) := by
    apply List.filter_congr
    intro s _
    simp only [decide_eq_decide]
    exact (seqGraph_adj_perm hn he hnodup s).mem_iff
  have hlen := (((hn.map FlowNode.id).dedup).filter
    (fun s => decide (t ∈ (seqGraph nodes₂ edges₂).1 s))).length_eq
  rw [h1]
  exact_mod_cast hlen

/-- The Kahn loop reads its inputs only through the sorted resolved neighbor
lists, so two graphs with the same sorted neighbor lists run identically. -/
lemma kahnLoopFuel_graph_congr (nodes₁ nodes₂ : List FlowNode)
    (adj₁ adj₂ : String → List String)
    (hadj : ∀ s, List.insertionSort NodeLE ((adj₁ s).filterMap (nodeById nodes₁)) =
      List.insertionSort NodeLE ((adj₂ s).filterMap (nodeById nodes₂))) :
    ∀ (fuel : Nat) (avail : List FlowNode) (indeg : String → Int)
      (ordered : List String),
      kahnLoopFuel nodes₁ adj₁ fuel avail indeg ordered =
        kahnLoopFuel nodes₂ adj₂ fuel avail indeg ordered := by
  intro fuel
  induction fuel with
  | zero => intro avail indeg ordered; rfl
  | succ fuel ih =>
    intro avail indeg ordered
    match avail with
    | [] => rfl
    | current :: rest =>
      simp only [kahnLoopFuel]
      rw [hadj current.id]
      exact ih _ _ _

lemma kahnOrder_perm_eq {nodes₁ nodes₂ : List FlowNode}
    {edges₁ edges₂ : List FlowEdge} (hn : nodes₁.Perm nodes₂)
    (he : edges₁.Perm edges₂) (hnodup : (nodeIds nodes₁).Nodup) :
    kahnOrder nodes₁ edges₁ = kahnOrder nodes₂ edges₂ := by
  have hnb := nodeById_perm_eq hn hnodup
  have hind := seqGraph_indeg_eq hn he hnodup
  have hadj : ∀ s, List.insertionSort NodeLE
      (((seqGraph nodes₁ edges₁).1 s).filterMap (nodeById nodes₁)) =
      List.insertionSort NodeLE
        (((seqGraph nodes₂ edges₂).1 s).filterMap (nodeById nodes₂)) := by
    intro s
    rw [hnb]
    exact insertionSort_eq_of_perm NodeLE
      ((seqGraph_adj_perm hn he hnodup s).filterMap (nodeById nodes₂))
  have hphi : phiIndeg (nodeIds nodes₁).dedup (seqGraph nodes₂ edges₂).2 =
      phiIndeg (nodeIds nodes₂).dedup (seqGraph nodes₂ edges₂).2 := by
    unfold phiIndeg
    exact (((hn.map FlowNode.id).dedup).map
      (fun s => (((seqGraph nodes₂ edges₂).2 s)).toNat)).sum_eq
  simp only [kahnOrder]
  rw [hind,
    insertionSort_eq_of_perm NodeLE
      (hn.filter (fun node => decide ((seqGraph nodes₂ edges₂).2 node.id = 0))),
    hphi]
  exact kahnLoopFuel_graph_congr nodes₁ nodes₂ _ _ hadj _ _ _ _

lemma sequentialOrder_perm_eq {nodes₁ nodes₂ : List FlowNode}
    {edges₁ edges₂ : List FlowEdge} (hn : nodes₁.Perm nodes₂)
    (he : edges₁.Perm edges₂) (hnodup : (nodeIds nodes₁).Nodup) :
    sequentialOrder nodes₁ edges₁ = sequentialOrder nodes₂ edges₂ := by
  have hk := kahnOrder_perm_eq hn he hnodup
  simp only [sequentialOrder]
  rw [hk, hn.length_eq]
  by_cases hc : (kahnOrder nodes₂ edges₂).length ≠ nodes₂.length
  · rw [if_pos hc, if_pos hc,
      insertionSort_eq_of_perm NodeLE
        (hn.filter (fun node => decide (node.id ∉ kahnOrder nodes₂ edges₂)))]
  · rw [if_neg hc, if_neg hc]

/-- Set-`add` of an undirected half-edge: the members grow by exactly the
added pair. -/
lemma addUndirected_mem (adj : String → List String) (u v x w : String) :
    w ∈ (if v ∈ adj u then adj
      else Function.update adj u (adj u ++ [v])) x ↔
      w ∈ adj x ∨ (u = x ∧ v = w) := by
  by_cases hdup : v ∈ adj u
  · rw [if_pos hdup]
    constructor
    · exact Or.inl
    · rintro (h | ⟨rfl, rfl⟩)
      · exact h
      · exact hdup
  · rw [if_neg hdup, Function.update_apply]
    by_cases hx : x = u
    · subst hx
      rw [if_pos rfl, List.mem_append, List.mem_singleton]
      constructor
      · rintro (h | rfl)
        · exact Or.inl h
        · exact Or.inr ⟨rfl, rfl⟩
      · rintro (h | ⟨-, rfl⟩)
        · exact Or.inl h
        · exact Or.inr rfl
    · rw [if_neg hx]
      constructor
      · exact Or.inl
      · rintro (h | ⟨rfl, -⟩)
        · exact h
        · exact absurd rfl hx

lemma addUndirected_nodup (adj : String → List String)
    (h : ∀ s, (adj s).Nodup) (u v : String) :
    ∀ s, ((if v ∈ adj u then adj
      else Function.update adj u (adj u ++ [v])) s).Nodup := by
  intro s
  by_cases hdup : v ∈ adj u
  · rw [if_pos hdup]
    exact h s
  · rw [if_neg hdup, Function.update_apply]
    by_cases hx : s = u
    · rw [if_pos hx, List.nodup_append]
      refine ⟨h u, List.nodup_singleton _, ?_⟩
      intro w hw hws
      rw [List.mem_singleton] at hws
      subst hws
      exact hdup hw
    · rw [if_neg hx]
      exact h s

lemma parAdjStep_mem (nodes : List FlowNode) (acc : String → List String)
    (e : FlowEdge) (s t : String) :
    t ∈ parAdjStep nodes acc e s ↔ t ∈ acc s ∨
      ((isParallelEdge e && hasNode nodes e.source && hasNode nodes e.target)
          = true ∧
        ((e.source = s ∧ e.target = t) ∨ (e.source = t ∧ e.target = s))) := by
  unfold parAdjStep
  by_cases hval : (isParallelEdge e && hasNode nodes e.source &&
      hasNode nodes e.target) = true
  · rw [if_pos hval]
    have h1 := addUndirected_mem acc e.source e.target s t
    have h2 := addUndirected_mem
      (if e.target ∈ acc e.source then acc
        else Function.update acc e.source (acc e.source ++ [e.target]))
      e.target e.source s t
    constructor
    · intro h
      rcases h2.mp h with hh | ⟨hts, hst⟩
      · rcases h1.mp hh with hacc | ⟨hus, hvt⟩
        · exact Or.inl hacc
        · exact Or.inr ⟨hval, Or.inl ⟨hus, hvt⟩⟩
      · exact Or.inr ⟨hval, Or.inr ⟨hst, hts⟩⟩
    · intro h
      apply h2.mpr
      rcases h with hacc | ⟨-, hcase⟩
      · exact Or.inl (h1.mpr (Or.inl hacc))
      · rcases hcase with ⟨hus, hvt⟩ | ⟨hut, hvs⟩
        · exact Or.inl (h1.mpr (Or.inr ⟨hus, hvt⟩))
        · exact Or.inr ⟨hvs, hut⟩
  · rw [if_neg hval]
    simp [hval]

lemma parAdjStep_nodup (nodes : List FlowNode) (acc : String → List String)
    (h : ∀ s, (acc s).Nodup) (e : FlowEdge) :
    ∀ s, (parAdjStep nodes acc e s).Nodup := by
  intro s
  unfold parAdjStep
  by_cases hval : (isParallelEdge e && hasNode nodes e.source &&
      hasNode nodes e.target) = true
  · rw [if_pos hval]
    exact addUndirected_nodup _
      (addUndirected_nodup acc h e.source e.target) e.target e.source s
  · rw [if_neg hval]
    exact h s

lemma parAdj_nodup (nodes : List FlowNode) (edges : List FlowEdge) :
    ∀ s, (parAdj nodes edges s).Nodup := by
  suffices h : ∀ (l : List FlowEdge) (acc : String → List String),
      (∀ s, (acc s).Nodup) → ∀ s, ((l.foldl (parAdjStep nodes) acc) s).Nodup by
    exact h edges _ (fun _ => List.nodup_nil)
  intro l
  induction l with
  | nil => intro acc h s; exact h s
  | cons e l ih =>
    intro acc h s
    rw [List.foldl_cons]
    exact ih _ (parAdjStep_nodup nodes acc h e) s

/-- Membership in the parallel adjacency sets is exactly the existence of a
valid parallel edge between the two ids (in either direction). -/
lemma parAdj_mem_iff (nodes : List FlowNode) (edges : List FlowEdge)
    (s t : String) :
    t ∈ parAdj nodes edges s ↔ ∃ e ∈ edges,
      (isParallelEdge e && hasNode nodes e.source && hasNode nodes e.target)
          = true ∧
        ((e.source = s ∧ e.target = t) ∨ (e.source = t ∧ e.target = s)) := by
  have key : ∀ (l : List FlowEdge) (acc : String → List String),
      t ∈ (l.foldl (parAdjStep nodes) acc) s ↔ t ∈ acc s ∨ ∃ e ∈ l,
        (isParallelEdge e && hasNode nodes e.source && hasNode nodes e.target)
            = true ∧
          ((e.source = s ∧ e.target = t) ∨ (e.source = t ∧ e.target = s)) := by
    intro l
    induction l with
    | nil => intro acc; simp
    | cons e l ih =>
      intro acc
      rw [List.foldl_cons, ih, parAdjStep_mem]
      constructor
      · rintro ((h | h) | ⟨e', he', rest⟩)
        · exact Or.inl h
        · exact Or.inr ⟨e, List.mem_cons_self _ _, h⟩
        · exact Or.inr ⟨e', List.mem_cons_of_mem _ he', rest⟩
      · rintro (h | ⟨e', he', rest⟩)
        · exact Or.inl (Or.inl h)
        · rcases List.mem_cons.mp he' with rfl | he''
          · exact Or.inl (Or.inr rest)
          · exact Or.inr ⟨e', he'', rest⟩
  rw [parAdj, key]
  simp

lemma parAdj_perm {nodes₁ nodes₂ : List FlowNode} {edges₁ edges₂ : List FlowEdge}
    (hn : nodes₁.Perm nodes₂) (he : edges₁.Perm edges₂)
    (hnodup : (nodeIds nodes₁).Nodup) (s : String) :
    (parAdj nodes₁ edges₁ s).Perm (parAdj nodes₂ edges₂ s) := by
  rw [List.perm_ext_iff_of_nodup (parAdj_nodup nodes₁ edges₁ s)
    (parAdj_nodup nodes₂ edges₂ s)]
  intro t
  rw [parAdj_mem_iff, parAdj_mem_iff]
  have hh := hasNode_perm_eq hn hnodup
  constructor
  · rintro ⟨e, hee, hval, hcase⟩
    rw [hh] at hval
    exact ⟨e, he.mem_iff.mp hee, hval, hcase⟩
  · rintro ⟨e, hee, hval, hcase⟩
    rw [← hh] at hval
    exact ⟨e, he.mem_iff.mpr hee, hval, hcase⟩

lemma isEmpty_eq_of_perm {l₁ l₂ : List String} (h : l₁.Perm l₂) :
    l₁.isEmpty = l₂.isEmpty := by
  cases l₁ <;> cases l₂ <;> simp_all

/-- The depth-first traversal reads the adjacency only through the sorted
neighbor lists. -/
lemma dfsLoopFuel_congr (adj₁ adj₂ : String → List String)
    (hadj : ∀ s, List.insertionSort StrLE (adj₁ s) =
      List.insertionSort StrLE (adj₂ s)) :
    ∀ (fuel : Nat) (stack visited component : List String),
      dfsLoopFuel adj₁ fuel stack visited component =
        dfsLoopFuel adj₂ fuel stack visited component := by
  intro fuel
  induction fuel with
  | zero => intro stack visited component; rfl
  | succ fuel ih =>
    intro stack visited component
    match stack with
    | [] => rfl
    | current :: rest =>
      simp only [dfsLoopFuel]
      by_cases hcur : current = ""
      · rw [if_pos hcur, if_pos hcur]
        exact ih _ _ _
      · rw [if_neg hcur, if_neg hcur, hadj current]
        exact ih _ _ _

lemma computeParallelGroups_perm_eq {nodes₁ nodes₂ : List FlowNode}
    {edges₁ edges₂ : List FlowEdge} (hn : nodes₁.Perm nodes₂)
    (he : edges₁.Perm edges₂) (hnodup : (nodeIds nodes₁).Nodup) :
    computeParallelGroups nodes₁ edges₁ = computeParallelGroups nodes₂ edges₂ := by
  have hadjp : ∀ s, (parAdj nodes₁ edges₁ s).Perm (parAdj nodes₂ edges₂ s) :=
    parAdj_perm hn he hnodup
  have hsort : ∀ s, List.insertionSort StrLE (parAdj nodes₁ edges₁ s) =
      List.insertionSort StrLE (parAdj nodes₂ edges₂ s) :=
    fun s => insertionSort_eq_of_perm StrLE (hadjp s)
  have hdfs : ∀ (stack visited component : List String),
      dfsLoopFuel (parAdj nodes₁ edges₁) (2 * nodes₂.length + 2)
          stack visited component =
        dfsLoopFuel (parAdj nodes₂ edges₂) (2 * nodes₂.length + 2)
          stack visited component :=
    fun a b c =>
      dfsLoopFuel_congr (parAdj nodes₁ edges₁) (parAdj nodes₂ edges₂) hsort _ a b c
  have hstep : parallelOuterStep nodes₁ edges₁ = parallelOuterStep nodes₂ edges₂ := by
    funext st node
    simp only [parallelOuterStep]
    by_cases hv : node.id ∈ st.1
    · rw [if_pos hv, if_pos hv]
    · rw [if_neg hv, if_neg hv, isEmpty_eq_of_perm (hadjp node.id), hn.length_eq]
      by_cases hiso : (parAdj nodes₂ edges₂ node.id).isEmpty = true
      · rw [if_pos hiso, if_pos hiso]
      · rw [if_neg hiso, if_neg hiso, hdfs [node.id] (node.id :: st.1) []]
  simp only [computeParallelGroups]
  rw [insertionSort_eq_of_perm NodeLE hn, hstep]

/-- C9: the ordering is deterministic with respect to input presentation —
permuting the node and edge arrays leaves the entire result (both id lists,
the sequence numbers, the group assignments and the cycle flag) unchanged. -/
theorem ordering_deterministic (nodes₁ nodes₂ : List FlowNode)
    (edges₁ edges₂ : List FlowEdge) (hn : nodes₁.Perm nodes₂)
    (he : edges₁.Perm edges₂) (hnodup : (nodeIds nodes₁).Nodup) :
    computeFlowOrdering nodes₁ edges₁ = computeFlowOrdering nodes₂ edges₂ := by
  have hseq := sequentialOrder_perm_eq hn he hnodup
  have hpg := computeParallelGroups_perm_eq hn he hnodup
  have hk := kahnOrder_perm_eq hn he hnodup
  simp only [computeFlowOrdering]
  rw [hseq, hpg, hk, hn.length_eq,
    insertionSort_eq_of_perm
      (SeqLE ((computeParallelGroups nodes₂ edges₂).componentNodeIds.foldl
        normalizeComponentStep (baseSequence (sequentialOrder nodes₂ edges₂))))
      hn]

set_option maxRecDepth 1000000 in
/-- Witness for determinism: swapping the two nodes of the basic example
leaves the result unchanged. -/
theorem ordering_deterministic_witness :
    computeFlowOrdering [demoNodeAat00, ⟨"B", 100, 0⟩]
        [⟨"e1", "A", "B", none, none, some ⟨some EdgeKind.sequential, none⟩⟩] =
      computeFlowOrdering [⟨"B", 100, 0⟩, demoNodeAat00]
        [⟨"e1", "A", "B", none, none, some ⟨some EdgeKind.sequential, none⟩⟩] :=
  ordering_deterministic [demoNodeAat00, ⟨"B", 100, 0⟩]
    [⟨"B", 100, 0⟩, demoNodeAat00] _ _
    (List.Perm.swap ⟨"B", 100, 0⟩ demoNodeAat00 [])
    (List.Perm.refl _) (by decide)

/-! ### CSV round-trip (C5)

The serializer escapes exactly the cells containing a quote, comma or line
break; the parser state machine undoes the escaping character by character.
The round-trip is exact for every surviving cell — but `parseCsvText` drops
body rows whose every cell is blank, so a row of empty cells does not
survive the trip. -/

lemma string_append_comma_data (a b : String) :
    (a ++ "," ++ b).data = a.data ++ (',' :: b.data) := by
  show (a.data ++ [',']) ++ b.data = a.data ++ (',' :: b.data)
  rw [List.append_assoc]
  rfl

lemma string_append_nl_data (a b : String) :
    (a ++ "\n" ++ b).data = a.data ++ ('\n' :: b.data) := by
  show (a.data ++ ['\n']) ++ b.data = a.data ++ ('\n' :: b.data)
  rw [List.append_assoc]
  rfl

/-- Outside quotes, ordinary characters accumulate into the current cell. -/
lemma parseCsvLoop_plain :
    ∀ (l rest : List Char) (cc : List Char) (cr : List String)
      (rows : List (List String)),
      (∀ c ∈ l, c ≠ '"' ∧ c ≠ ',' ∧ c ≠ '\r' ∧ c ≠ '\n') →
      parseCsvLoop (l ++ rest) false cc cr rows =
        parseCsvLoop rest false (cc ++ l) cr rows := by
  intro l
  induction l with
  | nil => intro rest cc cr rows _; rw [List.nil_append, List.append_nil]
  | cons c l ih =>
    intro rest cc cr rows h
    obtain ⟨h1, h2, h3, h4⟩ := h c (List.mem_cons_self _ _)
    rw [List.cons_append,
      parseCsvLoop.eq_10 _ _ _ _ _ h1 h2 (fun _ hc _ => h3 hc) h3 h4,
      ih rest _ cr rows (fun x hx => h x (List.mem_cons_of_mem _ hx)),
      List.append_assoc]
    rfl

/-- Inside quotes, the doubled-quote encoding of a cell value accumulates
the original value, and the single closing quote leaves quoted mode
(provided the next character is not another quote). -/
lemma parseCsvLoop_quoted :
    ∀ (l : List Char) (k : List Char) (cc : List Char) (cr : List String)
      (rows : List (List String)),
      (∀ k2, k ≠ '"' :: k2) →
      parseCsvLoop (doubleQuotes l ++ '"' :: k) true cc cr rows =
        parseCsvLoop k false (cc ++ l) cr rows := by
  intro l
  induction l with
  | nil =>
    intro k cc cr rows hk
    rw [show doubleQuotes [] = [] from rfl, List.nil_append,
      parseCsvLoop.eq_3 _ _ _ _ (fun k2 hkk => hk k2 hkk), List.append_nil]
  | cons a l ih =>
    intro k cc cr rows hk
    by_cases ha : a = '"'
    · subst ha
      rw [show doubleQuotes ('"' :: l) = '"' :: '"' :: doubleQuotes l from rfl,
        List.cons_append, List.cons_append, parseCsvLoop.eq_2,
        ih k _ cr rows hk, List.append_assoc]
      rfl
    · rw [show doubleQuotes (a :: l) = a :: doubleQuotes l from by
        simp [doubleQuotes, ha],
        List.cons_append, parseCsvLoop.eq_4 _ _ _ _ _ (fun _ hc _ => ha hc) ha,
        ih k _ cr rows hk, List.append_assoc]
      rfl

/-- One escaped cell parses back to the original value, leaving the rest of
the input (which never starts with a quote) to continue. -/
lemma parseCsvLoop_cell (v : String) (k : List Char) (cc : List Char)
    (cr : List String) (rows : List (List String))
    (hk : ∀ k2, k ≠ '"' :: k2) :
    parseCsvLoop ((escapeCsvCell v).data ++ k) false cc cr rows =
      parseCsvLoop k false (cc ++ v.data) cr rows := by
  unfold escapeCsvCell
  by_cases hq : v.data.any
      (fun c => c = '"' || c = ',' || c = '\n' || c = '\r') = true
  · rw [if_pos hq]
    have hdata : ("\"" ++ String.mk (doubleQuotes v.data) ++ "\"").data =
        '"' :: (doubleQuotes v.data ++ ['"']) := rfl
    rw [hdata, List.cons_append, List.append_assoc, parseCsvLoop.eq_5]
    exact parseCsvLoop_quoted v.data k cc cr rows hk
  · rw [if_neg hq]
    apply parseCsvLoop_plain
    intro c hc
    rw [Bool.not_eq_true, List.any_eq_false] at hq
    have hthis := hq c hc
    rw [Bool.not_eq_true] at hthis
    simp only [Bool.or_eq_false_iff, decide_eq_false_iff_not] at hthis
    exact ⟨hthis.1.1.1, hthis.1.1.2, hthis.2, hthis.1.2⟩

/-- A final line of escaped cells parses to one appended row. -/
lemma parseCsvLoop_line_end :
    ∀ (cells : List String) (c : String) (cr : List String)
      (rows : List (List String)),
      parseCsvLoop ((joinWith "," ((c :: cells).map escapeCsvCell)).data)
        false [] cr rows = rows ++ [cr ++ (c :: cells)] := by
  intro cells
  induction cells with
  | nil =>
    intro c cr rows
    have h1 := parseCsvLoop_cell c [] [] cr rows (fun k2 h => List.noConfusion h)
    rw [List.append_nil] at h1
    rw [show joinWith "," ([c].map escapeCsvCell) = escapeCsvCell c from rfl, h1,
      parseCsvLoop.eq_1]
    rfl
  | cons c2 cells ih =>
    intro c cr rows
    rw [show joinWith "," ((c :: c2 :: cells).map escapeCsvCell) =
        escapeCsvCell c ++ "," ++ joinWith "," ((c2 :: cells).map escapeCsvCell)
      from rfl,
      string_append_comma_data,
      parseCsvLoop_cell c _ [] cr rows (fun k2 h => by simp at h),
      parseCsvLoop.eq_6, ih c2 _ rows, List.append_assoc]
    rfl

/-- A newline-terminated line of escaped cells parses to one appended row,
continuing with the rest of the text. -/
lemma parseCsvLoop_line_nl :
    ∀ (cells : List String) (c : String) (k : List Char) (cr : List String)
      (rows : List (List String)),
      parseCsvLoop ((joinWith "," ((c :: cells).map escapeCsvCell)).data ++
        '\n' :: k) false [] cr rows =
        parseCsvLoop k false [] [] (rows ++ [cr ++ (c :: cells)]) := by
  intro cells
  induction cells with
  | nil =>
    intro c k cr rows
    rw [show joinWith "," ([c].map escapeCsvCell) = escapeCsvCell c from rfl,
      parseCsvLoop_cell c _ [] cr rows (fun k2 h => by simp at h),
      parseCsvLoop.eq_9]
    rfl
  | cons c2 cells ih =>
    intro c k cr rows
    rw [show joinWith "," ((c :: c2 :: cells).map escapeCsvCell) =
        escapeCsvCell c ++ "," ++ joinWith "," ((c2 :: cells).map escapeCsvCell)
      from rfl,
      string_append_comma_data, List.append_assoc,
      parseCsvLoop_cell c _ [] cr rows (fun k2 h => by simp at h),
      List.cons_append, parseCsvLoop.eq_6, ih c2 k _ rows, List.append_assoc]
    rfl

/-- The whole serialized text parses to exactly its lines' cells. -/
lemma parseCsvLoop_text :
    ∀ (ls : List (List String)) (first : List String)
      (rows : List (List String)),
      first ≠ [] → (∀ l ∈ ls, l ≠ []) →
      parseCsvLoop ((joinWith "\n" ((first :: ls).map (fun cells =>
          joinWith "," (cells.map escapeCsvCell)))).data) false [] [] rows =
        rows ++ (first :: ls) := by
  intro ls
  induction ls with
  | nil =>
    intro first rows hf _
    match first, hf with
    | c :: cells, _ =>
      exact parseCsvLoop_line_end cells c [] rows
  | cons second ls ih =>
    intro first rows hf hls
    match first, hf with
    | c :: cells, _ =>
      rw [show joinWith "\n" (((c :: cells) :: second :: ls).map (fun cells =>
          joinWith "," (cells.map escapeCsvCell))) =
          joinWith "," ((c :: cells).map escapeCsvCell) ++ "\n" ++
            joinWith "\n" ((second :: ls).map (fun cells =>
              joinWith "," (cells.map escapeCsvCell))) from rfl,
        string_append_nl_data,
        parseCsvLoop_line_nl cells c _ [] rows,
        ih second _ (hls second (List.mem_cons_self _ _))
          (fun l hl => hls l (List.mem_cons_of_mem _ hl)),
        List.append_assoc]
      rfl

lemma recordSet_fresh :
    ∀ (acc : List (String × String)) (key value : String),
      (∀ pr ∈ acc, pr.1 ≠ key) → recordSet acc key value = acc ++ [(key, value)] := by
  intro acc
  induction acc with
  | nil => intro key value _; rfl
  | cons pr acc ih =>
    intro key value h
    rw [show recordSet (pr :: acc) key value =
        (if pr.1 = key then (pr.1, value) :: acc
          else (pr.1, pr.2) :: recordSet acc key value) from rfl,
      if_neg (h pr (List.mem_cons_self _ _)),
      ih key value (fun pr' hpr' => h pr' (List.mem_cons_of_mem _ hpr'))]
    rfl

lemma getD_map_str :
    ∀ (l : List String) (row : String → String) (i : Nat), i < l.length →
      (l.map row).getD i "" = row (l.getD i "") := by
  intro l
  induction l with
  | nil => intro row i h; exact absurd h (by simp)
  | cons a l ih =>
    intro row i h
    cases i with
    | zero => rfl
    | succ i => exact ih row i (by simp at h; omega)

/-- The header-driven record fold writes the fresh, non-empty headers in
order, pairing each with the cell at its index. -/
lemma buildRecord_gen :
    ∀ (hs : List String) (vals : List String) (k : Nat) (row : String → String)
      (acc : List (String × String)),
      (∀ h ∈ hs, h ≠ "") → hs.Nodup →
      (∀ h ∈ hs, ∀ pr ∈ acc, pr.1 ≠ h) →
      (∀ i, i < hs.length → vals.getD (k + i) "" = row (hs.getD i "")) →
      (List.enumFrom k hs).foldl (fun record p =>
        if p.2 = "" then record else recordSet record p.2 (vals.getD p.1 "")) acc =
        acc ++ hs.map (fun c => (c, row c)) := by
  intro hs
  induction hs with
  | nil => intro vals k row acc _ _ _ _; simp
  | cons h0 hs ih =>
    intro vals k row acc hne hnd hfresh halign
    rw [show List.enumFrom k (h0 :: hs) = (k, h0) :: List.enumFrom (k + 1) hs
      from rfl, List.foldl_cons]
    rw [if_neg (hne h0 (List.mem_cons_self _ _))]
    have hval0 : vals.getD k "" = row h0 := by
      have := halign 0 (by simp)
      simpa using this
    rw [show vals.getD (k, h0).1 "" = vals.getD k "" from rfl, hval0,
      recordSet_fresh acc h0 (row h0)
        (fun pr hpr => hfresh h0 (List.mem_cons_self _ _) pr hpr)]
    rw [ih vals (k + 1) row (acc ++ [(h0, row h0)])
      (fun h hm => hne h (List.mem_cons_of_mem _ hm))
      (List.nodup_cons.mp hnd).2
      (fun h hm pr hpr => by
        rcases List.mem_append.mp hpr with hacc | hsingle
        · exact hfresh h (List.mem_cons_of_mem _ hm) pr hacc
        · rw [List.mem_singleton] at hsingle
          subst hsingle
          intro heq
          have h0h : h0 = h := heq
          exact (List.nodup_cons.mp hnd).1 (h0h ▸ hm))
      (fun i hi => by
        rw [show k + 1 + i = k + (i + 1) from by omega]
        exact halign (i + 1) (by simp; omega)),
      List.append_assoc]
    rfl

lemma any_blank_map (row : FlatExportRow) :
    (FLAT_EXPORT_COLUMNS.map row).any (fun cell => decide (0 < (jsTrim cell).length)) =
      FLAT_EXPORT_COLUMNS.any (fun c => decide (0 < (jsTrim (row c)).length)) := by
  rw [List.any_map]
  rfl

set_option maxRecDepth 1000000 in
lemma buildRecord_columns (row : FlatExportRow) :
    FLAT_EXPORT_COLUMNS.enum.foldl (fun record p =>
      if p.2 = "" then record
      else recordSet record p.2 ((FLAT_EXPORT_COLUMNS.map row).getD p.1 "")) [] =
      FLAT_EXPORT_COLUMNS.map (fun c => (c, row c)) := by
  have h := buildRecord_gen FLAT_EXPORT_COLUMNS (FLAT_EXPORT_COLUMNS.map row) 0 row []
    (by decide) (by decide) (fun h _ pr hpr => absurd hpr (List.not_mem_nil _))
    (fun i hi => by
      rw [Nat.zero_add]
      exact getD_map_str FLAT_EXPORT_COLUMNS row i hi)
  rw [show FLAT_EXPORT_COLUMNS.enum = List.enumFrom 0 FLAT_EXPORT_COLUMNS from rfl,
    h, List.nil_append]

lemma roundtrip_rows :
    ∀ (rows : List FlatExportRow),
      ((rows.map (fun row => FLAT_EXPORT_COLUMNS.map row)).filter
          (fun row' => row'.any (fun cell => decide (0 < (jsTrim cell).length)))).map
        (fun row' => FLAT_EXPORT_COLUMNS.enum.foldl (fun record p =>
          if p.2 = "" then record else recordSet record p.2 (row'.getD p.1 "")) []) =
      (rows.filter (fun row => FLAT_EXPORT_COLUMNS.any
          (fun c => decide (0 < (jsTrim (row c)).length)))).map
        (fun row => FLAT_EXPORT_COLUMNS.map (fun c => (c, row c))) := by
  intro rows
  induction rows with
  | nil => rfl
  | cons row rows ih =>
    rw [List.map_cons, List.filter_cons, List.filter_cons]
    have hk := any_blank_map row
    by_cases hks : FLAT_EXPORT_COLUMNS.any
        (fun c => decide (0 < (jsTrim (row c)).length)) = true
    · rw [if_pos (by rw [hk]; exact hks), if_pos hks, List.map_cons, ih,
        buildRecord_columns row]
      rfl
    · rw [if_neg (by rw [hk]; exact hks), if_neg hks, ih]

set_option maxRecDepth 1000000 in
/-- C5 counterexample: a body row whose every cell is empty is dropped by
the parser's blank-row filter, so its cells are not reproduced — the
round-trip of one all-empty row yields no rows at all. -/
theorem csv_roundtrip_counterexample :
    (parseCsvText (buildCsvFromRows [fun _ => ""])).rows = [] ∧
      ([fun _ => ""] : List FlatExportRow).length = 1 :=
  ⟨by decide, rfl⟩

set_option maxRecDepth 1000000 in
/-- C5 (amended): the parse of the serialized CSV recovers the exact header
list, and recovers exactly the rows having some non-blank cell, each as the
full column-to-original-value record — commas, quotes and newlines
included; rows whose every cell is blank are dropped. -/
theorem csv_roundtrip_characterization (rows : List FlatExportRow) :
    (parseCsvText (buildCsvFromRows rows)).headers = FLAT_EXPORT_COLUMNS ∧
    (parseCsvText (buildCsvFromRows rows)).rows =
      (rows.filter (fun row => FLAT_EXPORT_COLUMNS.any
          (fun c => decide (0 < (jsTrim (row c)).length)))).map
        (fun row => FLAT_EXPORT_COLUMNS.map (fun c => (c, row c))) := by
  have hhead : joinWith "," FLAT_EXPORT_COLUMNS =
      joinWith "," (FLAT_EXPORT_COLUMNS.map escapeCsvCell) := by decide
  have hbuild : buildCsvFromRows rows = joinWith "\n"
      ((FLAT_EXPORT_COLUMNS :: rows.map (fun row =>
        FLAT_EXPORT_COLUMNS.map row)).map
        (fun cells => joinWith "," (cells.map escapeCsvCell))) := by
    simp only [buildCsvFromRows, List.map_cons, List.map_map]
    rw [hhead]
    rfl
  have hloop : parseCsvLoop (buildCsvFromRows rows).data false [] [] [] =
      FLAT_EXPORT_COLUMNS :: rows.map (fun row => FLAT_EXPORT_COLUMNS.map row) := by
    rw [hbuild]
    have h := parseCsvLoop_text (rows.map (fun row => FLAT_EXPORT_COLUMNS.map row))
      FLAT_EXPORT_COLUMNS [] (by decide) (fun l hl => by
        obtain ⟨row, -, hrow⟩ := List.mem_map.mp hl
        intro hnil
        rw [← hrow, List.map_eq_nil] at hnil
        exact absurd hnil (by decide))
    simpa using h
  have hheaders : (FLAT_EXPORT_COLUMNS.enum.map (fun p =>
      if p.1 = 0 then jsTrim (stripLeadingBom p.2) else jsTrim p.2)) =
      FLAT_EXPORT_COLUMNS := by decide
  constructor
  · simp only [parseCsvText]
    rw [hloop]
    exact hheaders
  · simp only [parseCsvText]
    rw [hloop]
    show ((rows.map (fun row => FLAT_EXPORT_COLUMNS.map row)).filter
        (fun row' => row'.any (fun cell => decide (0 < (jsTrim cell).length)))).map
      (fun row' => ((FLAT_EXPORT_COLUMNS.enum.map (fun p =>
          if p.1 = 0 then jsTrim (stripLeadingBom p.2) else jsTrim p.2)).enum).foldl
        (fun record p => if p.2 = "" then record
          else recordSet record p.2 (row'.getD p.1 "")) []) = _
    rw [hheaders]
    exact roundtrip_rows rows

/-! ### Parallel grouping correctness (C3)

`computeParallelGroups` explores the undirected parallel adjacency depth-
first from each not-yet-visited node in tie-break order; a falsy (empty)
id popped from the stack is skipped without being collected or expanded.
We prove that when no node id is empty the traversal collects exactly the
connected component of its start node, that every member of a component is
mapped to the component's `"PG-"` id, that nodes without parallel
neighbors stay unmapped, and that the sequence normalization gives every
member the minimum of the members' base ranks; with an empty-id node the
sharing claim fails (see the counterexample). -/

/-- Marking one fresh id shrinks the unvisited count by exactly one. -/
lemma count_visit :
    ∀ (ids : List String), ids.Nodup → ∀ (x : String), x ∈ ids →
      ∀ (visited : List String), x ∉ visited →
      (ids.filter (fun y => decide (y ∉ x :: visited))).length + 1 =
        (ids.filter (fun y => decide (y ∉ visited))).length := by
  intro ids
  induction ids with
  | nil => intro _ x hx; cases hx
  | cons a ids ih =>
    intro hnd x hx visited hnv
    rcases List.nodup_cons.mp hnd with ⟨ha, hnd'⟩
    rw [List.filter_cons, List.filter_cons]
    rcases List.mem_cons.mp hx with rfl | hx'
    · have hrest : ids.filter (fun y => decide (y ∉ x :: visited)) =
          ids.filter (fun y => decide (y ∉ visited)) := by
        apply List.filter_congr
        intro y hy
        have hyx : y ≠ x := fun hh => ha (hh ▸ hy)
        simp [List.mem_cons, hyx]
      rw [if_neg (by simp), if_pos (by simpa using hnv), hrest]
      simp
    · have hax : a ≠ x := fun hh => ha (hh ▸ hx')
      have hih := ih hnd' x hx' visited hnv
      by_cases hav : a ∈ visited
      · rw [if_neg (by simp [hav]), if_neg (by simp [hav])]
        exact hih
      · rw [if_pos (by simp [List.mem_cons, hax, hav]), if_pos (by simpa using hav)]
        simp only [List.length_cons]
        omega

/-- What one sorted-neighbor sweep of the depth-first traversal does: it
marks and pushes exactly the unvisited neighbors, keeps the stack fresh and
duplicate-free, and reduces the loop measure by one per fresh push. -/
lemma dfsFold_spec (ids : List String) (hnd : ids.Nodup) :
    ∀ (nbs : List String) (visited rest C : List String),
      (∀ x ∈ nbs, x ∈ ids) →
      (∀ x ∈ rest, x ∈ visited) →
      (∀ x ∈ C, x ∈ visited) →
      (C ++ rest).Nodup →
      (∀ x, x ∈ (nbs.foldl dfsNeighborStep (visited, rest)).1 ↔
        (x ∈ visited ∨ x ∈ nbs)) ∧
      (∀ x, x ∈ (nbs.foldl dfsNeighborStep (visited, rest)).2 ↔
        (x ∈ rest ∨ (x ∈ nbs ∧ x ∉ visited))) ∧
      (∀ x ∈ (nbs.foldl dfsNeighborStep (visited, rest)).2,
        x ∈ (nbs.foldl dfsNeighborStep (visited, rest)).1) ∧
      (C ++ (nbs.foldl dfsNeighborStep (visited, rest)).2).Nodup ∧
      ((nbs.foldl dfsNeighborStep (visited, rest)).2.length +
          2 * (ids.filter (fun y =>
            decide (y ∉ (nbs.foldl dfsNeighborStep (visited, rest)).1))).length ≤
        rest.length + 2 * (ids.filter (fun y => decide (y ∉ visited))).length) := by
  intro nbs
  induction nbs with
  | nil =>
    intro visited rest C _ hrv hCv hnodup
    exact ⟨fun x => by simp, fun x => by simp, fun x hx => hrv x hx, hnodup, le_rfl⟩
  | cons nb nbs ih =>
    intro visited rest C hni hrv hCv hnodup
    rw [List.foldl_cons]
    rw [show dfsNeighborStep (visited, rest) nb =
      (if nb ∈ visited then (visited, rest) else (nb :: visited, nb :: rest))
      from rfl]
    by_cases hv : nb ∈ visited
    · rw [if_pos hv]
      obtain ⟨m1, m2, m3, m4, m5⟩ := ih visited rest C
        (fun x hx => hni x (List.mem_cons_of_mem _ hx)) hrv hCv hnodup
      refine ⟨?_, ?_, m3, m4, m5⟩
      · intro x
        rw [m1]
        constructor
        · rintro (h | h)
          · exact Or.inl h
          · exact Or.inr (List.mem_cons_of_mem _ h)
        · rintro (h | h)
          · exact Or.inl h
          · rcases List.mem_cons.mp h with rfl | h'
            · exact Or.inl hv
            · exact Or.inr h'
      · intro x
        rw [m2]
        constructor
        · rintro (h | ⟨h1, h2⟩)
          · exact Or.inl h
          · exact Or.inr ⟨List.mem_cons_of_mem _ h1, h2⟩
        · rintro (h | ⟨h1, h2⟩)
          · exact Or.inl h
          · rcases List.mem_cons.mp h1 with rfl | h'
            · exact absurd hv h2
            · exact Or.inr ⟨h', h2⟩
    · rw [if_neg hv]
      have hnbC : nb ∉ C := fun hh => hv (hCv nb hh)
      have hnbr : nb ∉ rest := fun hh => hv (hrv nb hh)
      obtain ⟨m1, m2, m3, m4, m5⟩ := ih (nb :: visited) (nb :: rest) C
        (fun x hx => hni x (List.mem_cons_of_mem _ hx))
        (fun x hx => by
          rcases List.mem_cons.mp hx with rfl | h'
          · exact List.mem_cons_self _ _
          · exact List.mem_cons_of_mem _ (hrv x h'))
        (fun x hx => List.mem_cons_of_mem _ (hCv x hx))
        (by
          rw [List.nodup_append] at hnodup ⊢
          refine ⟨hnodup.1, List.nodup_cons.mpr ⟨hnbr, hnodup.2.1⟩, ?_⟩
          intro u hu hur
          rcases List.mem_cons.mp hur with rfl | hur'
          · exact hnbC hu
          · exact hnodup.2.2 hu hur')
      refine ⟨?_, ?_, m3, m4, ?_⟩
      · intro x
        rw [m1]
        simp only [List.mem_cons]
        tauto
      · intro x
        rw [m2]
        simp only [List.mem_cons]
        constructor
        · rintro ((rfl | h) | ⟨h1, h2⟩)
          · exact Or.inr ⟨Or.inl rfl, hv⟩
          · exact Or.inl h
          · exact Or.inr ⟨Or.inr h1, fun hh => h2 (Or.inr hh)⟩
        · rintro (h | ⟨(rfl | h1), h2⟩)
          · exact Or.inl (Or.inr h)
          · exact Or.inl (Or.inl rfl)
          · by_cases hxnb : x = nb
            · exact Or.inl (Or.inl hxnb)
            · exact Or.inr ⟨h1, fun hh => by
                rcases hh with hh | hh
                · exact hxnb hh
                · exact h2 hh⟩
      · refine le_trans m5 ?_
        have hc := count_visit ids hnd nb (hni nb (List.mem_cons_self _ _)) visited hv
        simp only [List.length_cons]
        omega

/-- The depth-first loop invariant: the visited set is the prior visited
ids plus the collected component plus the pending stack; everything
collected or pending is connected to the start; collected nodes have all
neighbors visited; the start is collected or pending; no pending id is
empty (so the loop's falsy-skip never fires). -/
def DfsInv (adj : String → List String) (start : String) (prior : List String)
    (stack visited component : List String) : Prop :=
  (∀ x, x ∈ visited ↔ (x ∈ start :: prior ∨ x ∈ component ∨ x ∈ stack)) ∧
  (∀ x ∈ stack, Relation.ReflTransGen (fun a b => b ∈ adj a) start x) ∧
  (∀ x ∈ component, Relation.ReflTransGen (fun a b => b ∈ adj a) start x) ∧
  (∀ x ∈ component, ∀ y ∈ adj x, y ∈ visited) ∧
  (start ∈ component ∨ start ∈ stack) ∧
  (component ++ stack).Nodup ∧
  (∀ x ∈ stack, x ≠ "")

set_option maxHeartbeats 1000000 in
/-- Run to completion, the depth-first loop returns a duplicate-free
component containing the start, closed under adjacency inside the final
visited set, with every member connected to the start; the final visited
set is the prior ids plus the component. -/
lemma dfsLoopFuel_spec (ids : List String) (hnd : ids.Nodup)
    (adj : String → List String) (hadj_ids : ∀ a b, b ∈ adj a → b ∈ ids)
    (hadj_ne : ∀ a b, b ∈ adj a → b ≠ "")
    (start : String) (prior : List String) :
    ∀ (fuel : Nat) (stack visited component : List String),
      DfsInv adj start prior stack visited component →
      stack.length + 2 * (ids.filter (fun y => decide (y ∉ visited))).length < fuel →
      (∀ x, x ∈ (dfsLoopFuel adj fuel stack visited component).2 ↔
        (x ∈ start :: prior ∨ x ∈ (dfsLoopFuel adj fuel stack visited component).1)) ∧
      (∀ x ∈ (dfsLoopFuel adj fuel stack visited component).1,
        Relation.ReflTransGen (fun a b => b ∈ adj a) start x) ∧
      (∀ x ∈ (dfsLoopFuel adj fuel stack visited component).1,
        ∀ y ∈ adj x, y ∈ (dfsLoopFuel adj fuel stack visited component).2) ∧
      start ∈ (dfsLoopFuel adj fuel stack visited component).1 ∧
      (dfsLoopFuel adj fuel stack visited component).1.Nodup := by
  intro fuel
  induction fuel with
  | zero => intro stack visited component _ hm; omega
  | succ fuel ih =>
    intro stack visited component hinv hm
    obtain ⟨i1, i2, i3, i4, i5, i6, i7⟩ := hinv
    match stack with
    | [] =>
      rw [show dfsLoopFuel adj (fuel + 1) [] visited component =
        (component, visited) from rfl]
      refine ⟨?_, i3, i4, ?_, by simpa using i6⟩
      · intro x
        rw [i1]
        simp
      · rcases i5 with h | h
        · exact h
        · cases h
    | current :: rest =>
      have hcur_ne : current ≠ "" := i7 current (List.mem_cons_self _ _)
      rw [show dfsLoopFuel adj (fuel + 1) (current :: rest) visited component =
        (if current = "" then dfsLoopFuel adj fuel rest visited component
         else dfsLoopFuel adj fuel
          ((List.insertionSort StrLE (adj current)).foldl dfsNeighborStep
            (visited, rest)).2
          ((List.insertionSort StrLE (adj current)).foldl dfsNeighborStep
            (visited, rest)).1
          (component ++ [current])) from rfl, if_neg hcur_ne]
      have hcur_v : current ∈ visited := by
        rw [i1]
        exact Or.inr (Or.inr (List.mem_cons_self _ _))
      have hrest_v : ∀ x ∈ rest, x ∈ visited := by
        intro x hx
        rw [i1]
        exact Or.inr (Or.inr (List.mem_cons_of_mem _ hx))
      have hcomp_v : ∀ x ∈ component ++ [current], x ∈ visited := by
        intro x hx
        rcases List.mem_append.mp hx with h | h
        · rw [i1]; exact Or.inr (Or.inl h)
        · rw [List.mem_singleton] at h; exact h ▸ hcur_v
      have hnodup' : ((component ++ [current]) ++ rest).Nodup := by
        rw [List.append_assoc]
        exact i6
      obtain ⟨m1, m2, m3, m4, m5⟩ := dfsFold_spec ids hnd
        (List.insertionSort StrLE (adj current)) visited rest (component ++ [current])
        (fun x hx => hadj_ids current x (mem_of_mem_insertionSort hx))
        hrest_v hcomp_v hnodup'
      have hnbs_mem : ∀ x, x ∈ List.insertionSort StrLE (adj current) ↔
          x ∈ adj current :=
        fun x => (List.perm_insertionSort StrLE (adj current)).mem_iff
      have hconn_cur : Relation.ReflTransGen (fun a b => b ∈ adj a)
          start current := i2 current (List.mem_cons_self _ _)
      refine ih _ _ _ ⟨?_, ?_, ?_, ?_, ?_, m4, ?_⟩ ?_
      · intro x
        rw [m1, m2, hnbs_mem, i1]
        simp only [List.mem_append, List.mem_singleton, List.mem_cons]
        tauto
      · intro x hx
        rw [m2] at hx
        rcases hx with h | ⟨h1, _⟩
        · exact i2 x (List.mem_cons_of_mem _ h)
        · rw [hnbs_mem] at h1
          exact Relation.ReflTransGen.tail hconn_cur h1
      · intro x hx
        rcases List.mem_append.mp hx with h | h
        · exact i3 x h
        · rw [List.mem_singleton] at h
          exact h ▸ hconn_cur
      · intro x hx y hy
        rcases List.mem_append.mp hx with h | h
        · rw [m1]
          exact Or.inl (i4 x h y hy)
        · rw [List.mem_singleton] at h
          subst h
          rw [m1]
          exact Or.inr ((hnbs_mem y).mpr hy)
      · rcases i5 with h | h
        · exact Or.inl (List.mem_append.mpr (Or.inl h))
        · rcases List.mem_cons.mp h with rfl | h'
          · exact Or.inl (List.mem_append.mpr (Or.inr (List.mem_singleton_self _)))
          · refine Or.inr ?_
            rw [m2]
            exact Or.inl h'
      · intro x hx
        rw [m2] at hx
        rcases hx with h | ⟨h1, -⟩
        · exact i7 x (List.mem_cons_of_mem _ h)
        · exact hadj_ne current x ((hnbs_mem x).mp h1)
      · simp only [List.length_cons] at hm
        omega

/-- Parallel adjacency is symmetric: the source builds both directions. -/
lemma parAdj_symm (nodes : List FlowNode) (edges : List FlowEdge) {a b : String}
    (h : b ∈ parAdj nodes edges a) : a ∈ parAdj nodes edges b := by
  rw [parAdj_mem_iff] at h ⊢
  obtain ⟨e, he, hval, hcase⟩ := h
  exact ⟨e, he, hval, hcase.symm⟩

lemma parAdj_mem_ids (nodes : List FlowNode) (edges : List FlowEdge) {a b : String}
    (h : b ∈ parAdj nodes edges a) : a ∈ nodeIds nodes ∧ b ∈ nodeIds nodes := by
  rw [parAdj_mem_iff] at h
  obtain ⟨e, _, hval, hcase⟩ := h
  simp only [Bool.and_eq_true] at hval
  have hs := hasNode_iff.mp hval.1.2
  have ht := hasNode_iff.mp hval.2
  rcases hcase with ⟨h1, h2⟩ | ⟨h1, h2⟩
  · exact ⟨h1 ▸ hs, h2 ▸ ht⟩
  · exact ⟨h2 ▸ ht, h1 ▸ hs⟩

/-- Reachability through the parallel adjacency. -/
def parReach (nodes : List FlowNode) (edges : List FlowEdge) (a b : String) : Prop :=
  Relation.ReflTransGen (fun u v => v ∈ parAdj nodes edges u) a b

/-- An adjacency-closed id set absorbs every path starting inside it. -/
lemma closed_reach {adj : String → List String} {prior : List String}
    (hclosed : ∀ p ∈ prior, ∀ q ∈ adj p, q ∈ prior) {a b : String}
    (h : Relation.ReflTransGen (fun x y => y ∈ adj x) a b) (ha : a ∈ prior) :
    b ∈ prior := by
  induction h with
  | refl => exact ha
  | tail _ hstep ih => exact hclosed _ ih _ hstep

/-- The collected component is complete: it absorbs every id reachable from
the start, because the previously visited ids are adjacency-closed and do
not contain the start. -/
lemma dfs_complete {adj : String → List String}
    (hsymm : ∀ a b, b ∈ adj a → a ∈ adj b)
    {start : String} {prior C visited_f : List String}
    (hset : ∀ x, x ∈ visited_f ↔ (x ∈ start :: prior ∨ x ∈ C))
    (hclosure : ∀ x ∈ C, ∀ y ∈ adj x, y ∈ visited_f)
    (hstart : start ∈ C)
    (hprior_closed : ∀ p ∈ prior, ∀ q ∈ adj p, q ∈ prior)
    (hstart_prior : start ∉ prior) :
    ∀ x, Relation.ReflTransGen (fun a b => b ∈ adj a) start x → x ∈ C := by
  intro x h
  induction h with
  | refl => exact hstart
  | tail hpre hstep ih =>
    have hz := hclosure _ ih _ hstep
    rw [hset] at hz
    rcases hz with hz | hz
    · rcases List.mem_cons.mp hz with rfl | hz'
      · exact hstart
      · exfalso
        have hconn := Relation.ReflTransGen.tail hpre hstep
        have hback := Relation.ReflTransGen.symmetric
          (fun a b hab => hsymm a b hab) hconn
        exact hstart_prior (closed_reach hprior_closed hback hz')
    · exact hz

lemma updateFold_not_mem {β : Type} (v : β) :
    ∀ (L : List String) (m : String → β) (x : String), x ∉ L →
      (L.foldl (fun m nodeId => Function.update m nodeId v) m) x = m x := by
  intro L
  induction L with
  | nil => intro m x _; rfl
  | cons a L ih =>
    intro m x hx
    rw [List.foldl_cons, ih _ x (fun h => hx (List.mem_cons_of_mem _ h)),
      Function.update_noteq (fun h => hx (by rw [h]; exact List.mem_cons_self _ _))]

lemma updateFold_mem {β : Type} (v : β) :
    ∀ (L : List String) (m : String → β) (x : String), x ∈ L →
      (L.foldl (fun m nodeId => Function.update m nodeId v) m) x = v := by
  intro L
  induction L with
  | nil => intro m x hx; cases hx
  | cons a L ih =>
    intro m x hx
    rw [List.foldl_cons]
    by_cases hxL : x ∈ L
    · exact ih _ x hxL
    · have hxa : x = a := by
        rcases List.mem_cons.mp hx with h | h
        · exact h
        · exact absurd h hxL
      rw [updateFold_not_mem v L _ x hxL]
      subst hxa
      rw [Function.update_same]

/-- The invariant of the `sortedNodes.forEach` sweep: the visited set is
adjacency-closed; the recorded components are duplicate-free, pairwise
disjoint, each the reachability class of one of its members, all members
mapped to their component's group id; unrecorded ids are unmapped; every
visited id with parallel neighbors belongs to a recorded component, and
every component member has parallel neighbors. -/
def GroupInv (nodes : List FlowNode) (edges : List FlowEdge)
    (st : List String × List (List String) × (String → Option String)) : Prop :=
  (∀ x ∈ st.1, ∀ y ∈ parAdj nodes edges x, y ∈ st.1) ∧
  (∀ C ∈ st.2.1, ∀ x ∈ C, x ∈ st.1) ∧
  (∀ C ∈ st.2.1, C.Nodup) ∧
  List.Pairwise (fun C D => ∀ x ∈ C, x ∉ D) st.2.1 ∧
  (∀ C ∈ st.2.1, ∃ rep ∈ C, ∀ x, x ∈ C ↔ parReach nodes edges rep x) ∧
  (∀ C ∈ st.2.1, ∀ x ∈ C, st.2.2 x = some (buildParallelGroupId C)) ∧
  (∀ x, (∀ C ∈ st.2.1, x ∉ C) → st.2.2 x = none) ∧
  (∀ x ∈ st.1, parAdj nodes edges x ≠ [] → ∃ C ∈ st.2.1, x ∈ C) ∧
  (∀ C ∈ st.2.1, ∀ x ∈ C, parAdj nodes edges x ≠ [])

set_option maxHeartbeats 1000000 in
/-- One grouping step on a fresh node with parallel neighbors preserves the
invariant, recording the new component. -/
lemma outerStep_dfs (nodes : List FlowNode) (edges : List FlowEdge)
    (hne : ("" : String) ∉ nodeIds nodes)
    {st : List String × List (List String) × (String → Option String)}
    (hinv : GroupInv nodes edges st)
    (node : FlowNode) (hnid : node.id ≠ "") (hv : node.id ∉ st.1)
    (hiso : ¬(parAdj nodes edges node.id).isEmpty = true) :
    GroupInv nodes edges
      ((dfsLoopFuel (parAdj nodes edges) (2 * nodes.length + 2)
          [node.id] (node.id :: st.1) []).2,
       st.2.1 ++ [List.insertionSort StrLE
         (dfsLoopFuel (parAdj nodes edges) (2 * nodes.length + 2)
           [node.id] (node.id :: st.1) []).1],
       (List.insertionSort StrLE
         (dfsLoopFuel (parAdj nodes edges) (2 * nodes.length + 2)
           [node.id] (node.id :: st.1) []).1).foldl
         (fun m nodeId => Function.update m nodeId
           (some (buildParallelGroupId (List.insertionSort StrLE
             (dfsLoopFuel (parAdj nodes edges) (2 * nodes.length + 2)
               [node.id] (node.id :: st.1) []).1)))) st.2.2) ∧
    (∀ x ∈ st.1, x ∈ (dfsLoopFuel (parAdj nodes edges) (2 * nodes.length + 2)
      [node.id] (node.id :: st.1) []).2) ∧
    node.id ∈ (dfsLoopFuel (parAdj nodes edges) (2 * nodes.length + 2)
      [node.id] (node.id :: st.1) []).2 := by
  obtain ⟨g1, g2, g3, g4, g5, g6, g7, g8, g9⟩ := hinv
  have hini : DfsInv (parAdj nodes edges) node.id st.1 [node.id]
      (node.id :: st.1) [] := by
    refine ⟨?_, ?_, ?_, ?_, Or.inr (List.mem_cons_self _ _), by simp, ?_⟩
    · intro x
      simp only [List.mem_cons, List.mem_singleton, List.not_mem_nil]
      tauto
    · intro x hx
      rw [List.mem_singleton] at hx
      exact hx ▸ Relation.ReflTransGen.refl
    · intro x hx
      cases hx
    · intro x hx
      cases hx
    · intro x hx
      rw [List.mem_singleton] at hx
      exact hx ▸ hnid
  have hmeas : ([node.id] : List String).length +
      2 * (((nodeIds nodes).dedup).filter
        (fun y => decide (y ∉ node.id :: st.1))).length < 2 * nodes.length + 2 := by
    have h1 := List.length_filter_le
      (fun y => decide (y ∉ node.id :: st.1)) ((nodeIds nodes).dedup)
    have h2 := (List.dedup_sublist (nodeIds nodes)).length_le
    have h3 : (nodeIds nodes).length = nodes.length := by simp [nodeIds]
    simp only [List.length_singleton]
    omega
  obtain ⟨f1, f2, f3, f4, f5⟩ := dfsLoopFuel_spec ((nodeIds nodes).dedup)
    (List.nodup_dedup _) (parAdj nodes edges)
    (fun a b hb => List.mem_dedup.mpr (parAdj_mem_ids nodes edges hb).2)
    (fun a b hb hbe => hne (hbe ▸ (parAdj_mem_ids nodes edges hb).2))
    node.id st.1 (2 * nodes.length + 2) [node.id] (node.id :: st.1) [] hini hmeas
  have hsymR : ∀ a b, b ∈ parAdj nodes edges a → a ∈ parAdj nodes edges b :=
    fun a b hab => parAdj_symm nodes edges hab
  have hcompl := dfs_complete hsymR f1 f3 f4 g1 hv
  have hmemC : ∀ x, x ∈ (dfsLoopFuel (parAdj nodes edges) (2 * nodes.length + 2)
      [node.id] (node.id :: st.1) []).1 ↔ parReach nodes edges node.id x :=
    fun x => ⟨f2 x, hcompl x⟩
  have hCprior : ∀ x ∈ (dfsLoopFuel (parAdj nodes edges) (2 * nodes.length + 2)
      [node.id] (node.id :: st.1) []).1, x ∉ st.1 := by
    intro x hx hxp
    have hback := Relation.ReflTransGen.symmetric
      (fun a b hab => hsymR a b hab) (f2 x hx)
    exact hv (closed_reach g1 hback hxp)
  have hCnbrs : ∀ x ∈ (dfsLoopFuel (parAdj nodes edges) (2 * nodes.length + 2)
      [node.id] (node.id :: st.1) []).1, parAdj nodes edges x ≠ [] := by
    intro x hx
    rcases Relation.ReflTransGen.cases_tail (f2 x hx) with heq | ⟨c, _, hc⟩
    · subst heq
      intro hnil
      rw [hnil] at hiso
      exact hiso rfl
    · intro hnil
      have := hsymR c x hc
      rw [hnil] at this
      cases this
  have hprior_sub : ∀ x ∈ st.1, x ∈ (dfsLoopFuel (parAdj nodes edges)
      (2 * nodes.length + 2) [node.id] (node.id :: st.1) []).2 := by
    intro x hx
    rw [f1]
    exact Or.inl (List.mem_cons_of_mem _ hx)
  have hstart_vis : node.id ∈ (dfsLoopFuel (parAdj nodes edges)
      (2 * nodes.length + 2) [node.id] (node.id :: st.1) []).2 := by
    rw [f1]
    exact Or.inl (List.mem_cons_self _ _)
  have hC_vis : ∀ x ∈ (dfsLoopFuel (parAdj nodes edges)
      (2 * nodes.length + 2) [node.id] (node.id :: st.1) []).1,
      x ∈ (dfsLoopFuel (parAdj nodes edges)
        (2 * nodes.length + 2) [node.id] (node.id :: st.1) []).2 := by
    intro x hx
    rw [f1]
    exact Or.inr hx
  have hNmem : ∀ x, x ∈ List.insertionSort StrLE (dfsLoopFuel (parAdj nodes edges)
      (2 * nodes.length + 2) [node.id] (node.id :: st.1) []).1 ↔
      x ∈ (dfsLoopFuel (parAdj nodes edges) (2 * nodes.length + 2)
        [node.id] (node.id :: st.1) []).1 :=
    fun x => (List.perm_insertionSort StrLE _).mem_iff
  have hNdisj : ∀ C ∈ st.2.1, ∀ x ∈ C,
      x ∉ List.insertionSort StrLE (dfsLoopFuel (parAdj nodes edges)
        (2 * nodes.length + 2) [node.id] (node.id :: st.1) []).1 := by
    intro C hC x hxC hxN
    exact hCprior x ((hNmem x).mp hxN) (g2 C hC x hxC)
  refine ⟨⟨?_, ?_, ?_, ?_, ?_, ?_, ?_, ?_, ?_⟩, hprior_sub, hstart_vis⟩
  · intro x hx y hy
    rw [f1] at hx
    rcases hx with hx | hx
    · rcases List.mem_cons.mp hx with rfl | hx'
      · exact f3 node.id f4 y hy
      · exact hprior_sub y (g1 x hx' y hy)
    · exact f3 x hx y hy
  · intro C hC x hx
    rcases List.mem_append.mp hC with h | h
    · exact hprior_sub x (g2 C h x hx)
    · rw [List.mem_singleton] at h
      subst h
      exact hC_vis x ((hNmem x).mp hx)
  · intro C hC
    rcases List.mem_append.mp hC with h | h
    · exact g3 C h
    · rw [List.mem_singleton] at h
      subst h
      exact (List.perm_insertionSort StrLE _).nodup_iff.mpr f5
  · rw [List.pairwise_append]
    refine ⟨g4, List.pairwise_singleton _ _, ?_⟩
    intro C hC D hD
    rw [List.mem_singleton] at hD
    subst hD
    exact fun x hxC => hNdisj C hC x hxC
  · intro C hC
    rcases List.mem_append.mp hC with h | h
    · exact g5 C h
    · rw [List.mem_singleton] at h
      subst h
      refine ⟨node.id, (hNmem _).mpr f4, ?_⟩
      intro x
      rw [hNmem x]
      exact hmemC x
  · intro C hC x hx
    rcases List.mem_append.mp hC with h | h
    · exact (updateFold_not_mem _ _ _ x (hNdisj C h x hx)).trans (g6 C h x hx)
    · rw [List.mem_singleton] at h
      subst h
      exact updateFold_mem _ _ _ x hx
  · intro x hx
    have hxN : x ∉ List.insertionSort StrLE (dfsLoopFuel (parAdj nodes edges)
        (2 * nodes.length + 2) [node.id] (node.id :: st.1) []).1 :=
      hx _ (List.mem_append.mpr (Or.inr (List.mem_singleton_self _)))
    exact (updateFold_not_mem _ _ _ x hxN).trans
      (g7 x (fun C hC => hx C (List.mem_append.mpr (Or.inl hC))))
  · intro x hx hne
    rw [f1] at hx
    rcases hx with hx | hx
    · rcases List.mem_cons.mp hx with rfl | hx'
      · exact ⟨_, List.mem_append.mpr (Or.inr (List.mem_singleton_self _)),
          (hNmem node.id).mpr f4⟩
      · obtain ⟨C, hC, hxC⟩ := g8 x hx' hne
        exact ⟨C, List.mem_append.mpr (Or.inl hC), hxC⟩
    · exact ⟨_, List.mem_append.mpr (Or.inr (List.mem_singleton_self _)),
        (hNmem x).mpr hx⟩
  · intro C hC x hx
    rcases List.mem_append.mp hC with h | h
    · exact g9 C h x hx
    · rw [List.mem_singleton] at h
      subst h
      exact hCnbrs x ((hNmem x).mp hx)

/-- One grouping step preserves the invariant, keeps the visited set
growing, and leaves the processed node visited. -/
lemma parallelOuterStep_inv (nodes : List FlowNode) (edges : List FlowEdge)
    (hne : ("" : String) ∉ nodeIds nodes)
    {st : List String × List (List String) × (String → Option String)}
    (hinv : GroupInv nodes edges st) (node : FlowNode) (hnid : node.id ≠ "") :
    GroupInv nodes edges (parallelOuterStep nodes edges st node) ∧
      (∀ x ∈ st.1, x ∈ (parallelOuterStep nodes edges st node).1) ∧
      node.id ∈ (parallelOuterStep nodes edges st node).1 := by
  obtain ⟨g1, g2, g3, g4, g5, g6, g7, g8, g9⟩ := hinv
  unfold parallelOuterStep
  by_cases hv : node.id ∈ st.1
  · rw [if_pos hv]
    exact ⟨⟨g1, g2, g3, g4, g5, g6, g7, g8, g9⟩, fun x hx => hx, hv⟩
  · rw [if_neg hv]
    by_cases hiso : (parAdj nodes edges node.id).isEmpty = true
    · rw [if_pos hiso]
      have hadj_nil : parAdj nodes edges node.id = [] := by
        cases hcase : parAdj nodes edges node.id with
        | nil => rfl
        | cons a l =>
          rw [hcase] at hiso
          cases hiso
      refine ⟨⟨?_, ?_, g3, g4, g5, g6, g7, ?_, g9⟩, ?_, ?_⟩
      · intro x hx y hy
        rcases List.mem_cons.mp hx with rfl | hx'
        · rw [hadj_nil] at hy
          cases hy
        · exact List.mem_cons_of_mem _ (g1 x hx' y hy)
      · intro C hC x hx
        exact List.mem_cons_of_mem _ (g2 C hC x hx)
      · intro x hx hne
        rcases List.mem_cons.mp hx with rfl | hx'
        · exact absurd hadj_nil hne
        · exact g8 x hx' hne
      · exact fun x hx => List.mem_cons_of_mem _ hx
      · exact List.mem_cons_self _ _
    · rw [if_neg hiso]
      exact outerStep_dfs nodes edges hne ⟨g1, g2, g3, g4, g5, g6, g7, g8, g9⟩
        node hnid hv hiso

lemma groupFold_inv (nodes : List FlowNode) (edges : List FlowEdge)
    (hne : ("" : String) ∉ nodeIds nodes) :
    ∀ (l : List FlowNode), (∀ nd ∈ l, nd.id ≠ "") →
    ∀ (st : List String × List (List String) × (String → Option String)),
      GroupInv nodes edges st →
      GroupInv nodes edges (l.foldl (parallelOuterStep nodes edges) st) ∧
      (∀ x ∈ st.1, x ∈ (l.foldl (parallelOuterStep nodes edges) st).1) ∧
      (∀ node ∈ l, node.id ∈ (l.foldl (parallelOuterStep nodes edges) st).1) := by
  intro l
  induction l with
  | nil =>
    intro _ st h
    exact ⟨h, fun x hx => hx, fun node hnode => absurd hnode (List.not_mem_nil _)⟩
  | cons nd l ih =>
    intro hlne st h
    rw [List.foldl_cons]
    obtain ⟨h1, h2, h3⟩ := parallelOuterStep_inv nodes edges hne h nd
      (hlne nd (List.mem_cons_self _ _))
    obtain ⟨k1, k2, k3⟩ := ih (fun nd' hnd' => hlne nd' (List.mem_cons_of_mem _ hnd')) _ h1
    refine ⟨k1, fun x hx => k2 _ (h2 x hx), ?_⟩
    intro node hnode
    rcases List.mem_cons.mp hnode with rfl | h'
    · exact k2 _ h3
    · exact k3 node h'

/-- The grouping sweep establishes the invariant and visits every node
(provided no node id is empty, so the falsy-skip never fires). -/
lemma computeParallelGroups_spec (nodes : List FlowNode) (edges : List FlowEdge)
    (hne : ("" : String) ∉ nodeIds nodes) :
    GroupInv nodes edges
      ((List.insertionSort NodeLE nodes).foldl (parallelOuterStep nodes edges)
        ([], [], fun _ => none)) ∧
    ∀ node ∈ nodes, node.id ∈
      ((List.insertionSort NodeLE nodes).foldl (parallelOuterStep nodes edges)
        ([], [], fun _ => none)).1 := by
  have hbase : GroupInv nodes edges ([], [], fun _ => none) := by
    refine ⟨?_, ?_, ?_, List.Pairwise.nil, ?_, ?_, fun _ _ => rfl, ?_, ?_⟩ <;>
      intro x hx <;> cases hx
  obtain ⟨k1, _, k3⟩ := groupFold_inv nodes edges hne
    (List.insertionSort NodeLE nodes)
    (fun nd hnd => fun hide => hne (hide ▸ List.mem_map_of_mem FlowNode.id
      ((List.perm_insertionSort NodeLE nodes).mem_iff.mp hnd)))
    ([], [], fun _ => none) hbase
  exact ⟨k1, fun node hnode =>
    k3 node ((List.perm_insertionSort NodeLE nodes).mem_iff.mpr hnode)⟩

/-! #### Sequence normalization over disjoint components -/

lemma foldl_min_le :
    ∀ (vs : List Nat) (v : Nat), vs.foldl min v ≤ v ∧ ∀ w ∈ vs, vs.foldl min v ≤ w := by
  intro vs
  induction vs with
  | nil => intro v; exact ⟨le_rfl, fun w hw => absurd hw (List.not_mem_nil _)⟩
  | cons a vs ih =>
    intro v
    rw [List.foldl_cons]
    obtain ⟨h1, h2⟩ := ih (min v a)
    refine ⟨le_trans h1 (Nat.min_le_left _ _), ?_⟩
    intro w hw
    rcases List.mem_cons.mp hw with rfl | hw'
    · exact le_trans h1 (Nat.min_le_right _ _)
    · exact h2 w hw'

lemma foldl_min_mem :
    ∀ (vs : List Nat) (v : Nat), vs.foldl min v ∈ v :: vs := by
  intro vs
  induction vs with
  | nil => intro v; exact List.mem_singleton_self _
  | cons a vs ih =>
    intro v
    rw [List.foldl_cons]
    rcases List.mem_cons.mp (ih (min v a)) with h | h
    · rw [h]
      rcases le_total v a with h' | h'
      · rw [Nat.min_eq_left h']
        exact List.mem_cons_self _ _
      · rw [Nat.min_eq_right h']
        exact List.mem_cons_of_mem _ (List.mem_cons_self _ _)
    · exact List.mem_cons_of_mem _ (List.mem_cons_of_mem _ h)

lemma normalizeComponentStep_not_mem (seqMap : String → Option Nat)
    (C : List String) {x : String} (hx : x ∉ C) :
    normalizeComponentStep seqMap C x = seqMap x := by
  unfold normalizeComponentStep
  cases hdef : C.filterMap seqMap with
  | nil => rfl
  | cons v vs => exact updateFold_not_mem _ C seqMap x hx

lemma normalizeComponentStep_spec (seqMap : String → Option Nat) (C : List String)
    {b₀ : String} {r₀ : Nat} (hb₀ : b₀ ∈ C) (hr₀ : seqMap b₀ = some r₀) :
    ∃ v, (∀ x ∈ C, normalizeComponentStep seqMap C x = some v) ∧
      (∃ b ∈ C, seqMap b = some v) ∧
      (∀ b ∈ C, ∀ w, seqMap b = some w → v ≤ w) := by
  unfold normalizeComponentStep
  cases hdef : C.filterMap seqMap with
  | nil =>
    exfalso
    have : r₀ ∈ C.filterMap seqMap := List.mem_filterMap.mpr ⟨b₀, hb₀, hr₀⟩
    rw [hdef] at this
    cases this
  | cons v vs =>
    refine ⟨vs.foldl min v, ?_, ?_, ?_⟩
    · intro x hx
      exact updateFold_mem _ C seqMap x hx
    · have hmin_mem := foldl_min_mem vs v
      rw [← hdef] at hmin_mem
      obtain ⟨b, hb, hsb⟩ := List.mem_filterMap.mp hmin_mem
      exact ⟨b, hb, hsb⟩
    · intro b hb w hw
      have hwmem : w ∈ v :: vs := by
        rw [← hdef]
        exact List.mem_filterMap.mpr ⟨b, hb, hw⟩
      rcases List.mem_cons.mp hwmem with rfl | hw'
      · exact (foldl_min_le vs w).1
      · exact (foldl_min_le vs v).2 w hw'

lemma normalizeFold_untouched :
    ∀ (comps : List (List String)) (m : String → Option Nat) (x : String),
      (∀ C ∈ comps, x ∉ C) →
      comps.foldl normalizeComponentStep m x = m x := by
  intro comps
  induction comps with
  | nil => intro m x _; rfl
  | cons C comps ih =>
    intro m x h
    rw [List.foldl_cons, ih _ x (fun D hD => h D (List.mem_cons_of_mem _ hD)),
      normalizeComponentStep_not_mem m C (h C (List.mem_cons_self _ _))]

/-- Over pairwise-disjoint components, the normalization fold gives every
member of a component the minimum `some` value of the starting map on that
component. -/
lemma normalizeFold_spec :
    ∀ (comps : List (List String)) (base : String → Option Nat),
      List.Pairwise (fun C D => ∀ x ∈ C, x ∉ D) comps →
      ∀ C ∈ comps, ∀ b₀ ∈ C, ∀ r₀ : Nat, base b₀ = some r₀ →
      ∃ v, (∀ x ∈ C, comps.foldl normalizeComponentStep base x = some v) ∧
        (∃ b ∈ C, base b = some v) ∧
        (∀ b ∈ C, ∀ w, base b = some w → v ≤ w) := by
  intro comps
  induction comps with
  | nil => intro base _ C hC; cases hC
  | cons D comps ih =>
    intro base hpw C hC b₀ hb₀ r₀ hr₀
    obtain ⟨hD, hpw'⟩ := List.pairwise_cons.mp hpw
    rw [List.foldl_cons]  -- adjust at use sites below
    rcases List.mem_cons.mp hC with rfl | hC'
    · obtain ⟨v, hv1, hv2, hv3⟩ := normalizeComponentStep_spec base C hb₀ hr₀
      refine ⟨v, ?_, hv2, hv3⟩
      intro x hx
      rw [normalizeFold_untouched comps _ x (fun E hE => hD E hE x hx)]
      exact hv1 x hx
    · have hagree : ∀ x ∈ C, normalizeComponentStep base D x = base x := by
        intro x hx
        exact normalizeComponentStep_not_mem base D
          (fun hxD => (hD C hC' x hxD) hx)
      obtain ⟨v, hv1, hv2, hv3⟩ := ih (normalizeComponentStep base D) hpw' C hC'
        b₀ hb₀ r₀ (by rw [hagree b₀ hb₀]; exact hr₀)
      refine ⟨v, hv1, ?_, ?_⟩
      · obtain ⟨b, hb, hsb⟩ := hv2
        exact ⟨b, hb, by rw [← hagree b hb]; exact hsb⟩
      · intro b hb w hw
        exact hv3 b hb w (by rw [hagree b hb]; exact hw)

/-- The state of the grouping sweep of `computeParallelGroups` (visited
set, recorded components, group map). -/
def groupSweep (nodes : List FlowNode) (edges : List FlowEdge) :
    List String × List (List String) × (String → Option String) :=
  (List.insertionSort NodeLE nodes).foldl (parallelOuterStep nodes edges)
    ([], [], fun _ => none)

/-- C3 (amended): provided no node id is empty — the traversal's falsy-skip
leaves an empty id ungrouped — nodes reachable through parallel edges form
one component `C`: every member is mapped to the single group id `"PG-"`
plus the sorted member ids joined with `"|"` (`buildParallelGroupId C`),
nodes with no parallel neighbor are mapped to nothing, and every member's
final sequence number is the same value — the minimum of the members'
pre-normalization ranks. -/
theorem parallel_groups_share_id_and_min_sequence (nodes : List FlowNode)
    (edges : List FlowEdge) (hnodup : (nodeIds nodes).Nodup)
    (hne : ("" : String) ∉ nodeIds nodes) :
    (∀ a, parAdj nodes edges a = [] →
      (computeFlowOrdering nodes edges).parallelGroupByNodeId a = none) ∧
    (∀ a, parAdj nodes edges a ≠ [] →
      ∃ C : List String, C.Nodup ∧
        (∀ x, x ∈ C ↔ parReach nodes edges a x) ∧
        (∀ b ∈ C, (computeFlowOrdering nodes edges).parallelGroupByNodeId b =
          some (buildParallelGroupId C)) ∧
        ∃ v : Nat,
          (∀ b ∈ C, (computeFlowOrdering nodes edges).sequenceByNodeId b = some v) ∧
          (∃ b ∈ C, baseSequence (sequentialOrder nodes edges) b = some v) ∧
          (∀ b ∈ C, ∀ w, baseSequence (sequentialOrder nodes edges) b = some w →
            v ≤ w)) := by
  obtain ⟨⟨g1, g2, g3, g4, g5, g6, g7, g8, g9⟩, hall⟩ :=
    computeParallelGroups_spec nodes edges hne
  constructor
  · intro a hnil
    show (groupSweep nodes edges).2.2 a = none
    exact g7 a (fun C hC haC => (g9 C hC a haC) hnil)
  · intro a hne
    obtain ⟨b, hb⟩ := List.exists_mem_of_ne_nil _ hne
    have haid : a ∈ nodeIds nodes := (parAdj_mem_ids nodes edges hb).1
    obtain ⟨n, hn, hnid⟩ := List.mem_map.mp haid
    have havis : a ∈ (groupSweep nodes edges).1 := hnid ▸ hall n hn
    obtain ⟨C, hC, haC⟩ := g8 a havis hne
    obtain ⟨rep, hrepC, hrepchar⟩ := g5 C hC
    have hsymR : Symmetric (fun u v => v ∈ parAdj nodes edges u) :=
      fun u v h => parAdj_symm nodes edges h
    have hra : parReach nodes edges rep a := (hrepchar a).mp haC
    have har : Relation.ReflTransGen (fun u v => v ∈ parAdj nodes edges u) a rep :=
      Relation.ReflTransGen.symmetric hsymR hra
    have hchar : ∀ x, x ∈ C ↔ parReach nodes edges a x := by
      intro x
      constructor
      · intro hx
        exact Relation.ReflTransGen.trans har ((hrepchar x).mp hx)
      · intro hax
        exact (hrepchar x).mpr (Relation.ReflTransGen.trans hra hax)
    refine ⟨C, g3 C hC, hchar, ?_, ?_⟩
    · intro b' hb'
      show (groupSweep nodes edges).2.2 b' = some (buildParallelGroupId C)
      exact g6 C hC b' hb'
    · have hdisj_symm : ∀ {X Y : List String},
          (∀ x ∈ X, x ∉ Y) → (∀ x ∈ Y, x ∉ X) :=
        fun h x hxY hxX => h x hxX hxY
      have hpw : List.Pairwise (fun C D => ∀ x ∈ C, x ∉ D)
          (List.insertionSort HeadStrLE (groupSweep nodes edges).2.1) :=
        ((List.perm_insertionSort HeadStrLE
          (groupSweep nodes edges).2.1).pairwise_iff hdisj_symm).mpr g4
      have hCmem : C ∈ List.insertionSort HeadStrLE (groupSweep nodes edges).2.1 :=
        (List.perm_insertionSort HeadStrLE (groupSweep nodes edges).2.1).mem_iff.mpr hC
      obtain ⟨hperm, hond⟩ := sequentialOrder_perm nodes edges hnodup
      have hmemseq : a ∈ sequentialOrder nodes edges := hperm.mem_iff.mpr haid
      have hbase : baseSequence (sequentialOrder nodes edges) a =
          some ((sequentialOrder nodes edges).indexOf a + 1) := by
        rw [baseSequence_eq_of_nodup _ hond, if_pos hmemseq]
      obtain ⟨v, hv1, hv2, hv3⟩ := normalizeFold_spec _
        (baseSequence (sequentialOrder nodes edges)) hpw C hCmem a haC _ hbase
      refine ⟨v, ?_, hv2, hv3⟩
      intro b' hb'
      show (List.insertionSort HeadStrLE (groupSweep nodes edges).2.1).foldl
        normalizeComponentStep (baseSequence (sequentialOrder nodes edges)) b' =
        some v
      exact hv1 b' hb'

set_option maxRecDepth 1000000 in
/-- C3 counterexample: the depth-first loop skips a falsy (empty) id
(the source's `if (!currentNodeId) continue;`), so with nodes `""` and
`"B"` joined by a parallel edge the two connected nodes do not share a
group id — `""` stays ungrouped while `"B"` is grouped alone as `"PG-B"`. -/
theorem parallel_grouping_counterexample :
    ("B" ∈ parAdj [⟨"", 0, 0⟩, ⟨"B", 100, 0⟩]
      [⟨"p3", "", "B", none, none, some ⟨some EdgeKind.parallel, none⟩⟩] "") ∧
    (computeFlowOrdering [⟨"", 0, 0⟩, ⟨"B", 100, 0⟩]
      [⟨"p3", "", "B", none, none, some ⟨some EdgeKind.parallel, none⟩⟩]
      ).parallelGroupByNodeId "" = none ∧
    (computeFlowOrdering [⟨"", 0, 0⟩, ⟨"B", 100, 0⟩]
      [⟨"p3", "", "B", none, none, some ⟨some EdgeKind.parallel, none⟩⟩]
      ).parallelGroupByNodeId "B" = some "PG-B" :=
  ⟨by decide, by decide, by decide⟩

set_option maxRecDepth 1000000 in
/-- Witness for the amended grouping statement on the parallel edge
`A – B`. -/
theorem parallel_grouping_witness :
    ∃ C : List String, C.Nodup ∧
      (∀ x, x ∈ C ↔ parReach [demoNodeAat00, ⟨"B", 100, 0⟩]
        [⟨"p2", "A", "B", none, none, some ⟨some EdgeKind.parallel, none⟩⟩] "A" x) ∧
      (∀ b ∈ C, (computeFlowOrdering [demoNodeAat00, ⟨"B", 100, 0⟩]
        [⟨"p2", "A", "B", none, none, some ⟨some EdgeKind.parallel, none⟩⟩]
        ).parallelGroupByNodeId b = some (buildParallelGroupId C)) ∧
      ∃ v : Nat,
        (∀ b ∈ C, (computeFlowOrdering [demoNodeAat00, ⟨"B", 100, 0⟩]
          [⟨"p2", "A", "B", none, none, some ⟨some EdgeKind.parallel, none⟩⟩]
          ).sequenceByNodeId b = some v) ∧
        (∃ b ∈ C, baseSequence (sequentialOrder [demoNodeAat00, ⟨"B", 100, 0⟩]
          [⟨"p2", "A", "B", none, none, some ⟨some EdgeKind.parallel, none⟩⟩]) b =
          some v) ∧
        (∀ b ∈ C, ∀ w,
          baseSequence (sequentialOrder [demoNodeAat00, ⟨"B", 100, 0⟩]
            [⟨"p2", "A", "B", none, none, some ⟨some EdgeKind.parallel, none⟩⟩]) b =
            some w → v ≤ w) :=
  (parallel_groups_share_id_and_min_sequence [demoNodeAat00, ⟨"B", 100, 0⟩]
    [⟨"p2", "A", "B", none, none, some ⟨some EdgeKind.parallel, none⟩⟩]
    (by decide) (by decide)).2 "A" (by decide)

end Flowcopy
